import Mathlib

/-!
Work dispatch of `tools/quake3/common/threads.cpp`.

A shallow embedding of the portable (`#if 1`) backend of `threads.cpp`:
the work counter `GetThreadWork`, the worker loop `ThreadWorkerFunction`,
the lock assertions `ThreadLock` / `ThreadUnlock`, `ThreadSetDefault`,
the pool runner `RunThreadsOn` and the entry point `RunThreadsOnIndividual`.

* The file-scope variables are the fields of `State`.
* `int` is modelled by `Int`; `40 * dispatch` and `dispatch++` are reduced with
  `wrap32` (two's complement, 32 bits).  `/` and `%` are the truncating
  `Int.tdiv` and `Int.tmod`; the division stops the program on a zero divisor
  and on `INT_MIN / -1`.
* Output (`Sys_Printf`, `Sys_Warning`, `fflush`), the mutex operations, thread
  creation and the calls of the per-unit callback are recorded as `Event`s.
* `Error( ... )` aborts: the functions return `Except Fault _`.
* The mutex `crit` is a variable of `State`: `crit.lock()` on a locked mutex
  does not return (`Fault.blocked`).
* Worker threads are small-step machines (`Pc`) run under an explicit schedule,
  one shared-variable statement per step; a worker that finds `crit` locked
  waits at `crit.lock()`.
* The handle array `threads[MAX_THREADS]` is not stored: each statement
  `threads[i] = std::thread( func, i )` is recorded with its index `i`, the
  thread is created whatever `i` is, and the statements about whole runs keep
  `numthreads` within `MAX_THREADS`, where every index is inside the array.
-/

namespace Threads

/-! ## Machine integers -/

/-- Smallest value of the 32-bit `int`. -/
def INT_MIN : Int := -2147483648

/-- Largest value of the 32-bit `int`. -/
def INT_MAX : Int := 2147483647

/-- Reduction of an integer to the 32-bit two's complement range. -/
def wrap32 (x : Int) : Int := (x + 2147483648) % 4294967296 - 2147483648

/-- Capacity of the handle array: `#define MAX_THREADS 64`. -/
def MAX_THREADS : Nat := 64

/-! ## Observable events and faults -/

/-- Identity of a thread of the process. -/
inductive Tid where
  /-- The thread that called `RunThreadsOn`. -/
  | main
  /-- The thread stored in `threads[i]`. -/
  | worker (i : Nat)
  deriving DecidableEq, Repr

/-- Effects of the code on its collaborators, in program order. -/
inductive Event where
  /-- Entry of `ThreadLock()`. -/
  | lockCall
  /-- Entry of `ThreadUnlock()`. -/
  | unlockCall
  /-- Return of `crit.lock()`. -/
  | critLock
  /-- Call of `crit.unlock()`. -/
  | critUnlock
  /-- Call of `Sys_Warning( "progress went backwards (should never happen)\n" )`. -/
  | warnBackwards
  /-- Call of `Sys_Printf( "%i", f / 4 )`: `value` is the number printed, `step` is the
  value of `oldf` when the call is made. -/
  | numeral (step : Int) (value : Int)
  /-- Call of `Sys_Printf( "." )`, made when `oldf` is `step`. -/
  | filler (step : Int)
  /-- Call of `fflush( stdout )`. -/
  | flush
  /-- Entry of `ThreadWorkerFunction` by `func( threadnum )` on thread `tid`. -/
  | workerStart (tid : Tid) (threadnum : Int)
  /-- Call `workfunction( work )` made by the worker `threadnum`, running on thread
  `tid`; `held` is the value of `enter` at the moment of the call. -/
  | work (tid : Tid) (threadnum : Int) (index : Int) (held : Bool)
  /-- Assignment `threaded = b`. -/
  | setThreaded (b : Bool)
  /-- Statement `threads[i] = std::thread( func, i )`. -/
  | threadStart (i : Nat)
  /-- Return of `threads[i].join()`. -/
  | threadJoin (i : Nat)
  /-- Call of `Sys_Printf( "%i threads\n", numthreads )`. -/
  | printThreads (n : Int)
  /-- Call of `Sys_Printf( " (%i)\n", int( timer.elapsed_sec() ) )`. -/
  | printElapsed
  deriving DecidableEq, Repr

/-- Ways in which an execution stops without returning. -/
inductive Fault where
  /-- Call of `Error( msg )`: the fatal-error sink aborts the process. -/
  | fatal (msg : String)
  /-- Integer division by zero. -/
  | divisionByZero
  /-- Integer division `INT_MIN / -1`, whose quotient is not an `int`. -/
  | divisionOverflow
  /-- Call of `crit.lock()` while the mutex is locked: the caller waits for the
  holder to unlock it, and does not return while the mutex stays locked. -/
  | blocked
  /-- Call of `crit.unlock()` while the mutex is not locked. -/
  | unlockOfFree
  /-- The step budget of the model ran out before the code returned. -/
  | fuelExhausted
  deriving DecidableEq, Repr

/-! ## Global state -/

/-- File-scope variables of `threads.cpp`. -/
structure State where
  /-- Variable `int numthreads = -1;` -/
  numthreads : Int
  /-- Variable `bool threaded;` -/
  threaded : Bool
  /-- Variable `int dispatch;` -/
  dispatch : Int
  /-- Variable `int workcount;` -/
  workcount : Int
  /-- Variable `int oldf;` -/
  oldf : Int
  /-- Variable `bool pacifier;` -/
  pacifier : Bool
  /-- Variable `std::mutex crit;`: whether the mutex is locked. -/
  crit : Bool
  /-- Variable `static bool enter;` -/
  enter : Bool
  deriving DecidableEq, Repr

/-- Values of the variables at program start. -/
def State.initial : State :=
  { numthreads := -1, threaded := false, dispatch := 0, workcount := 0,
    oldf := 0, pacifier := false, crit := false, enter := false }

/-! ## Lock assertions -/

/-- Statement `crit.lock();` of `ThreadLock`. -/
def crit_lock (s : State) : Except Fault State :=
  if s.crit then .error .blocked else .ok { s with crit := true }

/-- Lines 132 to 135 of `ThreadLock`: the test of `enter`, then `enter = true`. -/
def enter_set (s : State) : Except Fault State :=
  if s.enter then .error (.fatal "Recursive ThreadLock\n") else .ok { s with enter := true }

/-- Lines 141 to 144 of `ThreadUnlock`: the test of `enter`, then `enter = false`. -/
def enter_clear (s : State) : Except Fault State :=
  if !s.enter then .error (.fatal "ThreadUnlock without lock\n")
  else .ok { s with enter := false }

/-- Statement `crit.unlock();` of `ThreadUnlock`. -/
def crit_unlock (s : State) : Except Fault State :=
  if s.crit then .ok { s with crit := false } else .error .unlockOfFree

/-- Function `ThreadLock()`. -/
def ThreadLock (s : State) : Except Fault (State × List Event) :=
  if s.threaded then
    match crit_lock s with
    | .error e => .error e
    | .ok s1 =>
      match enter_set s1 with
      | .error e => .error e
      | .ok s2 => .ok (s2, [.lockCall, .critLock])
  else
    .ok (s, [.lockCall])

/-- Function `ThreadUnlock()`. -/
def ThreadUnlock (s : State) : Except Fault (State × List Event) :=
  if s.threaded then
    match enter_clear s with
    | .error e => .error e
    | .ok s1 =>
      match crit_unlock s1 with
      | .error e => .error e
      | .ok s2 => .ok (s2, [.unlockCall, .critUnlock])
  else
    .ok (s, [.unlockCall])

/-! ## The work counter -/

/-- The loop `while ( f > oldf ) { ++oldf; ... }` of `GetThreadWork`, on the
variable `oldf`; returns the final `oldf` and the output.  `++oldf` cannot
overflow because `oldf < f`.  The first argument bounds the number of
iterations; `GetThreadWork` passes `f - oldf`, which `progressLoop_exit`
shows to be enough. -/
def progressLoop : Nat → Int → Bool → Int → Int × List Event
  | 0, _, _, oldf => (oldf, [])
  | fuel + 1, f, pacifier, oldf =>
    if f > oldf then
      let oldf1 := oldf + 1
      let out :=
        if pacifier then
          (if Int.tmod oldf1 4 = 0 then [Event.numeral oldf1 (Int.tdiv f 4)]
           else [Event.filler oldf1]) ++ [Event.flush]
        else []
      let r := progressLoop fuel f pacifier oldf1
      (r.1, out ++ r.2)
    else (oldf, [])

/-- Lines 51 to 67 of `GetThreadWork`: the test `f < oldf` with its warning,
then the loop; returns the final `oldf` and the output. -/
def progressReport (f : Int) (pacifier : Bool) (oldf : Int) : Int × List Event :=
  let warn : List Event := if f < oldf then [.warnBackwards] else []
  let oldf0 := if f < oldf then f else oldf
  let lp := progressLoop (f - oldf0).toNat f pacifier oldf0
  (lp.1, warn ++ lp.2)

/-- Whether the `int` division `40 * dispatch / workcount` of line 50 stops the
program: the divisor is zero, or the dividend (the product, reduced to 32 bits)
is `INT_MIN` and the divisor is -1. -/
def divisionFault (dispatch workcount : Int) : Option Fault :=
  if workcount = 0 then some .divisionByZero
  else if wrap32 (40 * dispatch) = INT_MIN ∧ workcount = -1 then some .divisionOverflow
  else none

/-- The value `40 * dispatch / workcount` of `f` when the division does not stop
the program (`divisionFault` is `none`): the product is reduced to 32 bits and the
quotient truncates. -/
def stepOf (dispatch workcount : Int) : Int :=
  Int.tdiv (wrap32 (40 * dispatch)) workcount

/-- Lines 50 to 67 of `GetThreadWork`: the division, the warning and the loop. -/
def showProgress (s : State) : Except Fault (State × List Event) :=
  match divisionFault s.dispatch s.workcount with
  | some e => .error e
  | none =>
    let pr := progressReport (stepOf s.dispatch s.workcount) s.pacifier s.oldf
    .ok ({ s with oldf := pr.1 }, pr.2)

/-- Part of `GetThreadWork` that follows `ThreadLock()`. -/
def GetThreadWorkLocked (s : State) : Except Fault (Int × State × List Event) :=
  if s.dispatch = s.workcount then
    match ThreadUnlock s with
    | .error e => .error e
    | .ok (s1, ev) => .ok (-1, s1, ev)
  else
    match showProgress s with
    | .error e => .error e
    | .ok (s1, ev1) =>
      let r := s1.dispatch
      match ThreadUnlock { s1 with dispatch := wrap32 (r + 1) } with
      | .error e => .error e
      | .ok (s2, ev2) => .ok (r, s2, ev1 ++ ev2)

/-- Function `GetThreadWork()`. -/
def GetThreadWork (s : State) : Except Fault (Int × State × List Event) :=
  match ThreadLock s with
  | .error e => .error e
  | .ok (s1, ev1) =>
    match GetThreadWorkLocked s1 with
    | .error e => .error e
    | .ok (r, s2, ev2) => .ok (r, s2, ev1 ++ ev2)

/-- Body of `ThreadWorkerFunction` after entry, run on thread `tid`: the loop
`while ( 1 )`.  The callback is recorded as a `work` event.  The first argument
bounds the number of iterations. -/
def workerLoop (tid : Tid) (threadnum : Int) : Nat → State → Except Fault (State × List Event)
  | 0, _ => .error .fuelExhausted
  | fuel + 1, s =>
    match GetThreadWork s with
    | .error e => .error e
    | .ok (work, s1, ev) =>
      if work = -1 then .ok (s1, ev)
      else
        match workerLoop tid threadnum fuel s1 with
        | .error e => .error e
        | .ok (s2, ev2) => .ok (s2, ev ++ [Event.work tid threadnum work s1.enter] ++ ev2)

/-- Function `ThreadWorkerFunction( threadnum )` run to completion on thread `tid`. -/
def ThreadWorkerFunction (tid : Tid) (threadnum : Int) (fuel : Nat) (s : State) :
    Except Fault (State × List Event) :=
  match workerLoop tid threadnum fuel s with
  | .error e => .error e
  | .ok (s1, ev) => .ok (s1, Event.workerStart tid threadnum :: ev)

/-- Repeated calls of `GetThreadWork`, in the order in which they enter the
critical section: the values returned, the final state and the output. -/
def pulls : Nat → State → Except Fault (List Int × State × List Event)
  | 0, s => .ok ([], s, [])
  | k + 1, s =>
    match GetThreadWork s with
    | .error e => .error e
    | .ok (r, s1, ev) =>
      match pulls k s1 with
      | .error e => .error e
      | .ok (rs, s2, ev2) => .ok (r :: rs, s2, ev ++ ev2)

/-! ## Default thread count and the reset -/

/-- Function `ThreadSetDefault()`; `hw` is the value of
`std::thread::hardware_concurrency()`, an `unsigned`, and the assignment to the
`int numthreads` converts it. -/
def ThreadSetDefault (hw : Nat) (s : State) : State × List Event :=
  let s1 :=
    if s.numthreads = -1 then
      { s with numthreads := wrap32 (max (hw % 4294967296) 1 : Nat) }
    else s
  (s1, [.printThreads s1.numthreads])

/-- The four assignments of `RunThreadsOnIndividual` that start a run. -/
def resetRun (workcnt : Int) (showpacifier : Bool) (s : State) : State :=
  { s with dispatch := 0, workcount := workcnt, oldf := -1, pacifier := showpacifier }

/-! ## The thread pool -/

/-- Position of a worker thread inside `ThreadWorkerFunction`. -/
inductive Pc where
  /-- Created, `func( i )` not yet entered. -/
  | entry
  /-- At the head of the loop, before `ThreadLock()` of `GetThreadWork`. -/
  | atLock
  /-- In `ThreadLock`, after `crit.lock()` has returned, before the test of `enter`. -/
  | locked
  /-- After `ThreadLock()`, before the test `dispatch == workcount`. -/
  | inCrit
  /-- After the test `dispatch == workcount` was false, before line 50. -/
  | working
  /-- After the loop of line 55, before `dispatch` is read for `r = dispatch++`. -/
  | reported
  /-- In `r = dispatch++`, after `dispatch` was read into `r`, before it is written. -/
  | fetched (r : Int)
  /-- Before `ThreadUnlock()`; `r` is the value to return, -1 on line 46. -/
  | unlocking (r : Int)
  /-- In `ThreadUnlock`, after `enter = false`, before `crit.unlock()`. -/
  | releasing (r : Int)
  /-- After `GetThreadWork` returned `work`, different from -1, before
  `workfunction( work )`. -/
  | gotWork (work : Int)
  /-- After `break`. -/
  | finished
  deriving DecidableEq, Repr

/-- Position of the calling thread inside the `else` branch of `RunThreadsOn`. -/
inductive MainPc where
  /-- In the first loop, before the test `i < numthreads`. -/
  | spawn (i : Nat)
  /-- In the second loop, before the test `i < numthreads`. -/
  | join (i : Nat)
  /-- After `threaded = false`. -/
  | returned
  deriving DecidableEq, Repr

/-- A running pool: the shared variables (the mutex `crit` among them), the
position of every thread and the events so far. -/
structure Pool where
  /-- The file-scope variables. -/
  g : State
  /-- Position of the calling thread. -/
  main : MainPc
  /-- Positions of the threads created so far; `threads[i]` is entry `i`. -/
  pcs : List Pc
  /-- Events so far, oldest first. -/
  trace : List Event
  deriving DecidableEq, Repr

/-- Position of a worker after `GetThreadWork` has returned `r`: the loop is left
when `r` is -1, otherwise the callback is next. -/
def Pc.afterPull (r : Int) : Pc := if r = -1 then .finished else .gotWork r

/-- One step of the worker `threads[i]`: one statement of `ThreadWorkerFunction`,
`GetThreadWork`, `ThreadLock` or `ThreadUnlock`.  A thread that does not exist or
has finished does not move, and a thread that finds the mutex locked waits in
`crit.lock()`. -/
def workerStep (i : Nat) (p : Pool) : Except Fault Pool :=
  match p.pcs[i]? with
  | none => .ok p
  | some .entry =>
    .ok { p with pcs := p.pcs.set i .atLock,
                 trace := p.trace ++ [Event.workerStart (.worker i) i] }
  | some .atLock =>
    if p.g.threaded then
      match crit_lock p.g with
      | .error .blocked => .ok p
      | .error e => .error e
      | .ok g1 =>
        .ok { p with g := g1, pcs := p.pcs.set i .locked,
                     trace := p.trace ++ [.lockCall, .critLock] }
    else
      .ok { p with pcs := p.pcs.set i .inCrit, trace := p.trace ++ [.lockCall] }
  | some .locked =>
    match enter_set p.g with
    | .error e => .error e
    | .ok g1 => .ok { p with g := g1, pcs := p.pcs.set i .inCrit }
  | some .inCrit =>
    if p.g.dispatch = p.g.workcount then .ok { p with pcs := p.pcs.set i (.unlocking (-1)) }
    else .ok { p with pcs := p.pcs.set i .working }
  | some .working =>
    match showProgress p.g with
    | .error e => .error e
    | .ok (g1, ev) => .ok { p with g := g1, pcs := p.pcs.set i .reported, trace := p.trace ++ ev }
  | some .reported =>
    .ok { p with pcs := p.pcs.set i (.fetched p.g.dispatch) }
  | some (.fetched r) =>
    .ok { p with g := { p.g with dispatch := wrap32 (r + 1) }, pcs := p.pcs.set i (.unlocking r) }
  | some (.unlocking r) =>
    if p.g.threaded then
      match enter_clear p.g with
      | .error e => .error e
      | .ok g1 =>
        .ok { p with g := g1, pcs := p.pcs.set i (.releasing r),
                     trace := p.trace ++ [.unlockCall] }
    else
      .ok { p with pcs := p.pcs.set i (Pc.afterPull r), trace := p.trace ++ [.unlockCall] }
  | some (.releasing r) =>
    match crit_unlock p.g with
    | .error e => .error e
    | .ok g1 =>
      .ok { p with g := g1, pcs := p.pcs.set i (Pc.afterPull r),
                   trace := p.trace ++ [.critUnlock] }
  | some (.gotWork work) =>
    .ok { p with pcs := p.pcs.set i .atLock,
                 trace := p.trace ++ [Event.work (.worker i) i work p.g.enter] }
  | some .finished => .ok p

/-- One step of the calling thread in the `else` branch of `RunThreadsOn`.
The statement `threads[i] = std::thread( func, i )` creates the thread `i` and is
recorded as `threadStart i`, also when `i` is not below `MAX_THREADS`; the handle
array itself is not stored.  In `join`, the thread waits until `threads[i]` has
finished. -/
def mainStep (p : Pool) : Except Fault Pool :=
  match p.main with
  | .spawn i =>
    if (i : Int) < p.g.numthreads then
      .ok { p with main := .spawn (i + 1), pcs := p.pcs ++ [.entry],
                   trace := p.trace ++ [Event.threadStart i] }
    else .ok { p with main := .join 0 }
  | .join i =>
    if (i : Int) < p.g.numthreads then
      if p.pcs[i]? = some .finished then
        .ok { p with main := .join (i + 1), trace := p.trace ++ [Event.threadJoin i] }
      else .ok p
    else
      .ok { p with g := { p.g with threaded := false }, main := .returned,
                   trace := p.trace ++ [Event.setThreaded false] }
  | .returned => .ok p

/-- One step of the thread `t`. -/
def poolStep (t : Tid) (p : Pool) : Except Fault Pool :=
  match t with
  | .main => mainStep p
  | .worker i => workerStep i p

/-- Run of the pool under the schedule `sched`: the threads move one step at a
time in the order listed. -/
def runPool : List Tid → Pool → Except Fault Pool
  | [], p => .ok p
  | t :: sched, p =>
    match poolStep t p with
    | .error e => .error e
    | .ok p1 => runPool sched p1

/-- The pool when the `else` branch of `RunThreadsOn` has executed
`threaded = true`. -/
def Pool.start (s : State) : Pool :=
  { g := { s with threaded := true }, main := .spawn 0, pcs := [],
    trace := [Event.setThreaded true] }

/-- Function `RunThreadsOn( ThreadWorkerFunction )`.  With `numthreads == 1` the
worker runs on the calling thread (`fuel` bounds its loop); otherwise the
threads run under the schedule `sched`, and the call returns when the calling
thread has joined every worker. -/
def RunThreadsOn (fuel : Nat) (sched : List Tid) (s : State) : Except Fault (State × List Event) :=
  if s.numthreads = 1 then
    ThreadWorkerFunction .main 0 fuel s
  else
    match runPool sched (Pool.start s) with
    | .error e => .error e
    | .ok p => if p.main = .returned then .ok (p.g, p.trace) else .error .fuelExhausted

/-- Function `RunThreadsOnIndividual( workcnt, showpacifier, func )`; `hw` is the
hardware concurrency seen by `ThreadSetDefault`. -/
def RunThreadsOnIndividual (hw : Nat) (fuel : Nat) (sched : List Tid) (workcnt : Int)
    (showpacifier : Bool) (s : State) : Except Fault (State × List Event) :=
  let d := if s.numthreads = -1 then ThreadSetDefault hw s else (s, [])
  match RunThreadsOn fuel sched (resetRun workcnt showpacifier d.1) with
  | .error e => .error e
  | .ok (s3, ev) => .ok (s3, d.2 ++ ev ++ (if s3.pacifier then [Event.printElapsed] else []))

/-! ## Reading the events -/

/-- Whether the event is a step-emission of the pacifier. -/
def Event.isEmission : Event → Bool
  | .numeral _ _ => true
  | .filler _ => true
  | _ => false

/-- Whether the event prints a numeral. -/
def Event.isNumeral : Event → Bool
  | .numeral _ _ => true
  | _ => false

/-- Whether the event prints the filler character. -/
def Event.isFiller : Event → Bool
  | .filler _ => true
  | _ => false

/-- Value of `oldf` at a numeral. -/
def Event.numeralStep : Event → Option Int
  | .numeral step _ => some step
  | _ => none

/-- Value of `oldf` at a filler character. -/
def Event.fillerStep : Event → Option Int
  | .filler step => some step
  | _ => none

/-- Thread, worker index and argument of a call of the per-unit callback. -/
def Event.workCall : Event → Option (Tid × Int × Int)
  | .work tid threadnum index _ => some (tid, threadnum, index)
  | _ => none

/-- Index written by `threads[i] = ...`. -/
def Event.handleWrite : Event → Option Nat
  | .threadStart i => some i
  | _ => none

/-- Thread and argument of an entry of `ThreadWorkerFunction`. -/
def Event.workerEntry : Event → Option (Tid × Int)
  | .workerStart tid threadnum => some (tid, threadnum)
  | _ => none

/-- Value assigned to `threaded`. -/
def Event.threadedWrite : Event → Option Bool
  | .setThreaded b => some b
  | _ => none

/-- Values of `oldf` at which a numeral is printed, in order. -/
def numeralSteps (ev : List Event) : List Int := ev.filterMap Event.numeralStep

/-- Values of `oldf` at which the filler character is printed, in order. -/
def fillerSteps (ev : List Event) : List Int := ev.filterMap Event.fillerStep

/-- Calls of the per-unit callback, in order: thread, worker index, argument. -/
def workCalls (ev : List Event) : List (Tid × Int × Int) := ev.filterMap Event.workCall

/-- Arguments of the calls of the per-unit callback, in order. -/
def workIndices (ev : List Event) : List Int := (workCalls ev).map (fun c => c.2.2)

/-- Indices of the handle array written by `threads[i] = ...`, in order. -/
def handleWrites (ev : List Event) : List Nat := ev.filterMap Event.handleWrite

/-- Entries of `ThreadWorkerFunction`, in order: thread and argument. -/
def workerEntries (ev : List Event) : List (Tid × Int) := ev.filterMap Event.workerEntry

/-- Values assigned to `threaded`, in order. -/
def threadedWrites (ev : List Event) : List Bool := ev.filterMap Event.threadedWrite

/-- The work unit held by a worker between the statement `r = dispatch++` and the
callback. -/
def Pc.pending : Pc → Option Int
  | .unlocking r => if r = -1 then none else some r
  | .releasing r => if r = -1 then none else some r
  | .gotWork r => some r
  | _ => none

/-- Work units held by workers between `r = dispatch++` and the callback. -/
def pendings (l : List Pc) : List Int := l.filterMap Pc.pending

/-- The indices `0, ..., n - 1` as values of `int`. -/
def unitIndices (n : Nat) : List Int := (List.range n).map Int.ofNat

/-- The caller of `GetThreadWork` does not find the lock held: outside the
multi-threaded mode neither the mutex nor the flag is consulted, inside it the
mutex is unlocked and the flag is clear. -/
def LockFree (s : State) : Prop := s.threaded = true → s.crit = false ∧ s.enter = false

instance (s : State) : Decidable (LockFree s) := by
  unfold LockFree; infer_instance

/-- The work counter is inside its range and the lock is free. -/
def Counting (s : State) : Prop :=
  LockFree s ∧ 0 ≤ s.dispatch ∧ s.dispatch ≤ s.workcount ∧ s.workcount ≤ INT_MAX

/-- Events of the lock assertions: entries of `ThreadLock` and `ThreadUnlock` and
the mutex operations. -/
def Event.isLockEvent : Event → Bool
  | .lockCall => true
  | .unlockCall => true
  | .critLock => true
  | .critUnlock => true
  | _ => false

/-- Progress output: the warning, the numerals, the filler characters and the
flushes. -/
def Event.isProgress : Event → Bool
  | .warnBackwards => true
  | .numeral _ _ => true
  | .filler _ => true
  | .flush => true
  | _ => false

/-- Events that `GetThreadWork` can produce: lock events and progress output. -/
def Event.isPullEvent : Event → Bool
  | .lockCall => true
  | .unlockCall => true
  | .critLock => true
  | .critUnlock => true
  | .warnBackwards => true
  | .numeral _ _ => true
  | .filler _ => true
  | .flush => true
  | _ => false

/-- Progress output of `k` successive calls of `GetThreadWork` as a function of
the variables it depends on: `dispatch`, `workcount`, `oldf` and `pacifier`. -/
def progressRun : Nat → Int → Int → Int → Bool → List Event
  | 0, _, _, _, _ => []
  | k + 1, dispatch, workcount, oldf, pacifier =>
    if dispatch = workcount then []
    else
      (progressReport (stepOf dispatch workcount) pacifier oldf).2 ++
        progressRun k (wrap32 (dispatch + 1)) workcount (stepOf dispatch workcount) pacifier

/-- Relation between the position of the calling thread and the workers: in the
first loop the threads `0, ..., i - 1` exist, in the second all `numthreads` exist
and the threads `0, ..., i - 1` have finished, after it all have finished. -/
def MainOk (T : Int) : MainPc → List Pc → Prop
  | .spawn i, l => l.length = i ∧ i ≤ T.toNat
  | .join i, l => l.length = T.toNat ∧ i ≤ T.toNat ∧ ∀ j, j < i → l[j]? = some .finished
  | .returned, l => l.length = T.toNat ∧ ∀ pc ∈ l, pc = .finished

/-- Whether the worker is between `crit.lock()` and `crit.unlock()`. -/
def Pc.inSection : Pc → Bool
  | .locked => true
  | .inCrit => true
  | .working => true
  | .reported => true
  | .fetched _ => true
  | .unlocking _ => true
  | .releasing _ => true
  | _ => false

/-- What the worker inside the critical section knows about the shared variables
at its position, in a run of `n` units. -/
def SectionOk (n : Int) (g : State) : Pc → Prop
  | .locked => g.enter = false
  | .inCrit => g.enter = true
  | .working => g.enter = true ∧ g.dispatch ≠ n
  | .reported => g.enter = true ∧ g.dispatch ≠ n
  | .fetched r => g.enter = true ∧ r = g.dispatch ∧ g.dispatch ≠ n
  | .unlocking r => g.enter = true ∧ (r = -1 → g.dispatch = n)
  | .releasing r => g.enter = false ∧ (r = -1 → g.dispatch = n)
  | _ => True

/-- No worker of the list is inside the critical section. -/
def Outside (l : List Pc) : Prop := ∀ pc ∈ l, pc.inSection = false

/-- Exactly one worker of the list is inside the critical section, at a position
that agrees with the shared variables. -/
def Holder (n : Int) (g : State) (l : List Pc) : Prop :=
  ∃ (i : Nat) (pc : Pc), l[i]? = some pc ∧ pc.inSection = true ∧ SectionOk n g pc
    ∧ ∀ (j : Nat) (pc1 : Pc), l[j]? = some pc1 → j ≠ i → pc1.inSection = false

/-- Invariant of a pool started by `RunThreadsOnIndividual` with `n` units and
`numthreads == T`. -/
structure PoolInv (n T : Int) (p : Pool) : Prop where
  /-- The reset value of `workcount` stays. -/
  workcount_eq : p.g.workcount = n
  /-- The thread count stays. -/
  numthreads_eq : p.g.numthreads = T
  /-- Lower bound of the counter. -/
  dispatch_nonneg : 0 ≤ p.g.dispatch
  /-- Upper bound of the counter. -/
  dispatch_le : p.g.dispatch ≤ n
  /-- The unit count is an `int`. -/
  n_le : n ≤ INT_MAX
  /-- Until the calling thread leaves, the pool is in multi-threaded mode. -/
  threaded : p.main ≠ .returned → p.g.threaded = true
  /-- While the mutex is unlocked the flag is clear and no worker is inside. -/
  free : p.g.crit = false → p.g.enter = false ∧ Outside p.pcs
  /-- While the mutex is locked exactly one worker is inside. -/
  held : p.g.crit = true → Holder n p.g p.pcs
  /-- The units given to the callback or held by a worker are `0, ..., dispatch - 1`. -/
  served : (workIndices p.trace ++ pendings p.pcs).Perm (unitIndices p.g.dispatch.toNat)
  /-- A worker has left its loop only when the counter was exhausted. -/
  finished_exhausted : Pc.finished ∈ p.pcs → p.g.dispatch = n
  /-- One handle written per thread created, in order. -/
  handles : handleWrites p.trace = List.range p.pcs.length
  /-- Progress of the calling thread. -/
  main_ok : MainOk T p.main p.pcs

/-- Bound on the steps a worker makes before it next fetches a unit, or before it
leaves when the counter is exhausted. -/
def Pc.cost : Pc → Nat
  | .entry => 7
  | .atLock => 6
  | .locked => 5
  | .inCrit => 4
  | .working => 3
  | .reported => 2
  | .fetched _ => 1
  | .unlocking r => if r = -1 then 2 else 9
  | .releasing r => if r = -1 then 1 else 8
  | .gotWork _ => 7
  | .finished => 0

/-- Steps left to the calling thread, counting 8 more for each thread it still
has to create. -/
def MainPc.cost (T : Nat) : MainPc → Nat
  | .spawn i => 8 * (T - i) + T + 2
  | .join i => (T - i) + 1
  | .returned => 0

/-- Bound on the number of effective steps left to the pool. -/
def Pool.cost (p : Pool) : Nat :=
  p.main.cost p.g.numthreads.toNat + (p.pcs.map Pc.cost).sum
    + 9 * (p.g.workcount - p.g.dispatch).toNat

/-- Entries of `ThreadLock` and `ThreadUnlock`. -/
def Event.isLockCall : Event → Bool
  | .lockCall => true
  | .unlockCall => true
  | _ => false

/-- Operations on the mutex `crit`. -/
def Event.isCritOp : Event → Bool
  | .critLock => true
  | .critUnlock => true
  | _ => false

/-- Value of `numthreads` after lines 93 to 95 of `RunThreadsOnIndividual`, where
`ThreadSetDefault` runs when the count is unset. -/
def resolvedThreads (hw : Nat) (s : State) : Int :=
  (if s.numthreads = -1 then (ThreadSetDefault hw s).1 else s).numthreads

/-- Value of `enter` at a call of the per-unit callback. -/
def Event.workHeld : Event → Option Bool
  | .work _ _ _ held => some held
  | _ => none

/-- Values of `enter` at the calls of the per-unit callback, in order. -/
def heldAtWork (ev : List Event) : List Bool := ev.filterMap Event.workHeld

/-- Events other than step-emissions and calls of the per-unit callback. -/
def Event.isSilent : Event → Bool
  | .numeral _ _ => false
  | .filler _ => false
  | .work _ _ _ _ => false
  | _ => true

/-- Positions of a worker that has found, or will find, the counter exhausted:
outside lines 50 to 69 of `GetThreadWork`, and on the way out only with -1. -/
def Pc.quiet : Pc → Bool
  | .entry => true
  | .atLock => true
  | .locked => true
  | .inCrit => true
  | .unlocking r => decide (r = -1)
  | .releasing r => decide (r = -1)
  | .finished => true
  | _ => false

/-- A pool with nothing to hand out and no output so far: the counter is
exhausted, no worker holds a unit or is about to take one, and the events contain
neither a step-emission nor a call of the callback. -/
def PoolSilent (p : Pool) : Prop :=
  p.g.dispatch = p.g.workcount ∧ (∀ pc ∈ p.pcs, pc.quiet = true)
    ∧ ∀ e ∈ p.trace, e.isSilent = true

/-! ## Basic facts -/

theorem wrap32_of_range (x : Int) (h0 : INT_MIN ≤ x) (h1 : x ≤ INT_MAX) : wrap32 x = x := by
  unfold INT_MIN at h0
  unfold INT_MAX at h1
  unfold wrap32
  omega

theorem wrap32_range (x : Int) : INT_MIN ≤ wrap32 x ∧ wrap32 x ≤ INT_MAX := by
  unfold INT_MIN INT_MAX wrap32
  omega

/-- With the budget `f - oldf` the loop leaves through its test: the final
`oldf` is the larger of `f` and the initial `oldf`. -/
theorem progressLoop_exit (fuel : Nat) (f : Int) (pacifier : Bool) (oldf : Int)
    (h : (f - oldf).toNat ≤ fuel) :
    (progressLoop fuel f pacifier oldf).1 = max f oldf := by
  induction fuel generalizing oldf with
  | zero =>
    have : f ≤ oldf := by omega
    simp [progressLoop, this]
  | succ k ih =>
    unfold progressLoop
    by_cases hlt : f > oldf
    · have h2 : (f - (oldf + 1)).toNat ≤ k := by omega
      simp only [hlt, if_true]
      rw [ih (oldf + 1) h2]
      omega
    · simp only [hlt, if_false]
      omega

/-- A call of `GetThreadWork` with no work left: value, state and events. -/
theorem GetThreadWork_exhausted (s : State) (hl : LockFree s) (h : s.dispatch = s.workcount) :
    GetThreadWork s = .ok (-1, s,
      if s.threaded then [.lockCall, .critLock, .unlockCall, .critUnlock]
      else [.lockCall, .unlockCall]) := by
  obtain ⟨nt, th, d, w, o, pc, c, e⟩ := s
  simp only [LockFree] at hl
  simp only at h
  subst h
  cases th
  · simp [GetThreadWork, ThreadLock, GetThreadWorkLocked, ThreadUnlock]
  · obtain ⟨hc, he⟩ := hl rfl
    subst hc he
    simp [GetThreadWork, ThreadLock, GetThreadWorkLocked, ThreadUnlock, crit_lock, enter_set,
      enter_clear, crit_unlock]

theorem progressReport_oldf (f : Int) (pacifier : Bool) (oldf : Int) :
    (progressReport f pacifier oldf).1 = f := by
  unfold progressReport
  simp only
  rw [progressLoop_exit _ _ _ _ (le_refl _)]
  split <;> omega

/-- With a positive divisor the division of line 50 is defined. -/
theorem divisionFault_pos (dispatch workcount : Int) (h : 0 < workcount) :
    divisionFault dispatch workcount = none := by
  unfold divisionFault
  rw [if_neg (by omega), if_neg (by omega)]

/-- A call of `GetThreadWork` with work left: value, new state and events. -/
theorem GetThreadWork_normal (s : State) (hl : LockFree s) (h : s.dispatch ≠ s.workcount)
    (hw : divisionFault s.dispatch s.workcount = none) :
    GetThreadWork s =
      .ok (s.dispatch,
        { s with oldf := stepOf s.dispatch s.workcount, dispatch := wrap32 (s.dispatch + 1) },
        (if s.threaded then [.lockCall, .critLock] else [.lockCall]) ++
          ((progressReport (stepOf s.dispatch s.workcount) s.pacifier s.oldf).2 ++
            (if s.threaded then [.unlockCall, .critUnlock] else [.unlockCall]))) := by
  obtain ⟨nt, th, d, w, o, pc, c, e⟩ := s
  simp only [LockFree] at hl
  simp only at h hw
  cases th
  · simp [GetThreadWork, ThreadLock, GetThreadWorkLocked, ThreadUnlock, showProgress, h, hw,
      progressReport_oldf]
  · obtain ⟨hc, he⟩ := hl rfl
    subst hc he
    simp [GetThreadWork, ThreadLock, GetThreadWorkLocked, ThreadUnlock, showProgress, h, hw,
      progressReport_oldf, crit_lock, enter_set, enter_clear, crit_unlock]

theorem Counting_resetRun (s : State) (n : Int) (showpacifier : Bool) (hl : LockFree s)
    (h0 : 0 ≤ n) (h1 : n ≤ INT_MAX) : Counting (resetRun n showpacifier s) := by
  refine ⟨?_, ?_, ?_, ?_⟩
  · exact hl
  · simp [resetRun]
  · simpa [resetRun] using h0
  · simpa [resetRun] using h1

theorem GetThreadWork_counting (s : State) (hc : Counting s) :
    ∃ s1 ev, GetThreadWork s = .ok (if s.dispatch < s.workcount then s.dispatch else -1, s1, ev)
      ∧ Counting s1 ∧ s1.workcount = s.workcount
      ∧ s1.dispatch = (if s.dispatch < s.workcount then s.dispatch + 1 else s.dispatch)
      ∧ s1.threaded = s.threaded ∧ s1.enter = s.enter ∧ s1.pacifier = s.pacifier
      ∧ s1.numthreads = s.numthreads := by
  obtain ⟨hl, h0, h1, h2⟩ := hc
  by_cases h : s.dispatch = s.workcount
  · refine ⟨s, (if s.threaded then [.lockCall, .critLock, .unlockCall, .critUnlock]
        else [.lockCall, .unlockCall]), ?_, ⟨hl, h0, h1, h2⟩, rfl, ?_, rfl, rfl, rfl, rfl⟩
    · rw [GetThreadWork_exhausted s hl h]
      simp [h]
    · simp [h]
  · have hlt : s.dispatch < s.workcount := lt_of_le_of_ne h1 h
    have hw := divisionFault_pos s.dispatch s.workcount (by omega)
    have hwr : wrap32 (s.dispatch + 1) = s.dispatch + 1 := by
      apply wrap32_of_range
      · unfold INT_MIN; omega
      · omega
    rw [GetThreadWork_normal s hl h hw]
    simp only [hlt, if_true]
    refine ⟨_, _, rfl, ⟨?_, ?_, ?_, ?_⟩, rfl, ?_, rfl, rfl, rfl, rfl⟩
    · exact hl
    · simp only [hwr]; omega
    · simp only [hwr]; omega
    · exact h2
    · simp [hwr]

theorem pulls_counting (m : Nat) (s : State) (hc : Counting s) :
    ∃ s1 ev, pulls m s =
        .ok ((List.range m).map
          (fun (k : Nat) => if s.dispatch + (k : Int) < s.workcount then s.dispatch + (k : Int) else -1),
          s1, ev)
      ∧ Counting s1 ∧ s1.workcount = s.workcount
      ∧ s1.dispatch = min (s.dispatch + (m : Int)) s.workcount := by
  induction m generalizing s with
  | zero =>
    refine ⟨s, [], rfl, hc, rfl, ?_⟩
    have := hc.2.2.1
    simp
    omega
  | succ m ih =>
    obtain ⟨s1, ev, hg, hc1, hw1, hd1, -⟩ := GetThreadWork_counting s hc
    obtain ⟨s2, ev2, hp, hc2, hw2, hd2⟩ := ih s1 hc1
    refine ⟨s2, ev ++ ev2, ?_, hc2, by rw [hw2, hw1], ?_⟩
    · simp only [pulls, hg, hp, List.range_succ_eq_map, List.map_cons, List.map_map]
      have hd := hc.2.2.1
      have hhead : (if s.dispatch + ((0 : Nat) : Int) < s.workcount then s.dispatch + ((0 : Nat) : Int)
          else -1) = (if s.dispatch < s.workcount then s.dispatch else -1) := by simp
      have htail : List.map ((fun (k : Nat) => if s.dispatch + (k : Int) < s.workcount
            then s.dispatch + (k : Int) else -1) ∘ Nat.succ) (List.range m)
          = List.map (fun (k : Nat) => if s1.dispatch + (k : Int) < s1.workcount
            then s1.dispatch + (k : Int) else -1) (List.range m) := by
        apply List.map_congr_left
        intro k _
        simp only [Function.comp, hw1, hd1]
        push_cast
        split <;> split <;> split <;> omega
      rw [hhead, htail]
    · rw [hd2, hw1, hd1]
      have := hc.2.2.1
      push_cast
      split <;> omega

theorem filter_sentinel (n : Int) (m : Nat) (h : n.toNat ≤ m) :
    ((List.range m).map (fun (k : Nat) => if (k : Int) < n then (k : Int) else -1)).filter
        (fun r => decide (r ≠ -1)) = unitIndices n.toNat := by
  obtain ⟨j, rfl⟩ := Nat.exists_eq_add_of_le h
  rw [List.range_add, List.map_append, List.filter_append]
  have h1 : ((List.range n.toNat).map (fun (k : Nat) => if (k : Int) < n then (k : Int) else -1))
      = unitIndices n.toNat := by
    unfold unitIndices
    apply List.map_congr_left
    intro k hk
    have hk2 : k < n.toNat := List.mem_range.mp hk
    have : (k : Int) < n := by omega
    simp [this]
  have h2 : (List.filter (fun r => decide (r ≠ -1)) (unitIndices n.toNat)) = unitIndices n.toNat := by
    rw [List.filter_eq_self]
    intro a ha
    unfold unitIndices at ha
    obtain ⟨k, -, rfl⟩ := List.mem_map.mp ha
    simp
  have h3 : List.filter (fun r => decide (r ≠ -1))
      (List.map (fun (k : Nat) => if (k : Int) < n then (k : Int) else -1)
        (List.map (fun x => n.toNat + x) (List.range j))) = [] := by
    rw [List.filter_eq_nil_iff]
    intro a ha
    obtain ⟨k, hk, rfl⟩ := List.mem_map.mp ha
    obtain ⟨i, -, rfl⟩ := List.mem_map.mp hk
    have : ¬ (((n.toNat + i : Nat) : Int) < n) := by omega
    simp only [this, if_false]
    simp
  rw [h1, h2, h3, List.append_nil]

theorem progressLoop_events (fuel : Nat) (f : Int) (pacifier : Bool) (oldf : Int) :
    ∀ e ∈ (progressLoop fuel f pacifier oldf).2, e.isProgress = true := by
  induction fuel generalizing oldf with
  | zero => simp [progressLoop]
  | succ k ih =>
    unfold progressLoop
    by_cases hlt : f > oldf
    · simp only [hlt, if_true]
      intro e he
      rcases List.mem_append.mp he with h | h
      · cases pacifier
        · simp at h
        · by_cases h4 : Int.tmod (oldf + 1) 4 = 0
          · simp [h4] at h
            rcases h with h | h <;> subst h <;> rfl
          · simp [h4] at h
            rcases h with h | h <;> subst h <;> rfl
      · exact ih _ e h
    · simp [hlt]

theorem progressReport_events (f : Int) (pacifier : Bool) (oldf : Int) :
    ∀ e ∈ (progressReport f pacifier oldf).2, e.isProgress = true := by
  intro e he
  unfold progressReport at he
  simp only at he
  rcases List.mem_append.mp he with h | h
  · split at h
    · simp at h
      subst h
      rfl
    · simp at h
  · exact progressLoop_events _ _ _ _ e h

theorem isPullEvent_of_isProgress (e : Event) (h : e.isProgress = true) :
    e.isPullEvent = true := by
  cases e <;> first | rfl | (simp [Event.isProgress] at h)

theorem not_isLockEvent_of_isProgress (e : Event) (h : e.isProgress = true) :
    e.isLockEvent = false := by
  cases e <;> first | rfl | (simp [Event.isProgress] at h)

theorem GetThreadWork_events (s : State) (hc : Counting s) (r : Int) (s1 : State)
    (ev : List Event) (hg : GetThreadWork s = .ok (r, s1, ev)) :
    ∀ e ∈ ev, e.isPullEvent = true := by
  obtain ⟨hl, h0, h1, h2⟩ := hc
  by_cases h : s.dispatch = s.workcount
  · rw [GetThreadWork_exhausted s hl h] at hg
    injection hg with hg
    injection hg with _ hg
    injection hg with _ hg
    subst hg
    intro e he
    cases hth : s.threaded <;> simp [hth] at he
    · rcases he with h1 | h1 <;> subst h1 <;> rfl
    · rcases he with h1 | h1 | h1 | h1 <;> subst h1 <;> rfl
  · have hw := divisionFault_pos s.dispatch s.workcount (by omega)
    rw [GetThreadWork_normal s hl h hw] at hg
    injection hg with hg
    injection hg with _ hg
    injection hg with _ hg
    subst hg
    intro e he
    rcases List.mem_append.mp he with h3 | h3
    · cases hth : s.threaded <;> simp [hth] at h3
      · subst h3; rfl
      · rcases h3 with h1 | h1 <;> subst h1 <;> rfl
    · rcases List.mem_append.mp h3 with h4 | h4
      · exact isPullEvent_of_isProgress e (progressReport_events _ _ _ e h4)
      · cases hth : s.threaded <;> simp [hth] at h4
        · subst h4; rfl
        · rcases h4 with h1 | h1 <;> subst h1 <;> rfl

theorem pullEvents_silent (ev : List Event) (h : ∀ e ∈ ev, e.isPullEvent = true) :
    workCalls ev = [] ∧ handleWrites ev = [] ∧ workerEntries ev = [] ∧ threadedWrites ev = [] := by
  unfold workCalls handleWrites workerEntries threadedWrites
  simp only [List.filterMap_eq_nil_iff]
  refine ⟨?_, ?_, ?_, ?_⟩ <;> intro e he <;> have hp := h e he <;> cases e <;>
    first | rfl | (simp [Event.isPullEvent] at hp)

/-- The worker loop, started with the counter in range and more budget than
remaining units, returns after calling the callback on the remaining indices in
increasing order. -/
theorem workerLoop_spec (tid : Tid) (threadnum : Int) (fuel : Nat) (s : State)
    (hc : Counting s) (hf : (s.workcount - s.dispatch).toNat < fuel) :
    ∃ s1 ev, workerLoop tid threadnum fuel s = .ok (s1, ev)
      ∧ workCalls ev = (List.range (s.workcount - s.dispatch).toNat).map
          (fun (k : Nat) => (tid, threadnum, s.dispatch + (k : Int)))
      ∧ handleWrites ev = [] ∧ workerEntries ev = [] ∧ threadedWrites ev = []
      ∧ s1.dispatch = s.workcount ∧ s1.workcount = s.workcount
      ∧ s1.threaded = s.threaded ∧ s1.enter = s.enter ∧ s1.pacifier = s.pacifier
      ∧ s1.numthreads = s.numthreads := by
  induction fuel generalizing s with
  | zero => omega
  | succ k ih =>
    obtain ⟨s1, ev, hg, hc1, hw1, hd1, ht1, he1, hp1, hn1⟩ := GetThreadWork_counting s hc
    obtain ⟨q1, q2, q3, q4⟩ := pullEvents_silent ev (GetThreadWork_events s hc _ s1 ev hg)
    have hd := hc.2.2.1
    have h0 := hc.2.1
    by_cases hlt : s.dispatch < s.workcount
    · simp only [hlt, if_true] at hg hd1
      have hf1 : (s1.workcount - s1.dispatch).toNat < k := by rw [hw1, hd1]; omega
      obtain ⟨s2, ev2, hl2, c1, c2, c3, c4, e1, e2, e3, e4, e5, e6⟩ := ih s1 hc1 hf1
      have hne : s.dispatch ≠ -1 := by omega
      refine ⟨s2, ev ++ [Event.work tid threadnum s.dispatch s1.enter] ++ ev2, ?_, ?_, ?_, ?_, ?_,
        by rw [e1, hw1], by rw [e2, hw1], by rw [e3, ht1], by rw [e4, he1], by rw [e5, hp1],
        by rw [e6, hn1]⟩
      · simp only [workerLoop, hg, hne, if_false, hl2]
      · have hsplit : (s.workcount - s.dispatch).toNat = (s1.workcount - s1.dispatch).toNat + 1 := by
          rw [hw1, hd1]; omega
        unfold workCalls at q1 c1 ⊢
        rw [List.filterMap_append, List.filterMap_append, q1, c1, hsplit,
          List.range_succ_eq_map, List.map_cons, List.map_map]
        simp only [List.filterMap_cons, List.filterMap_nil, Event.workCall, List.nil_append,
          List.singleton_append, Nat.cast_zero, add_zero, List.cons.injEq, true_and]
        apply List.map_congr_left
        intro j _
        simp only [Function.comp, hd1, Nat.succ_eq_add_one]
        push_cast
        congr 2
        omega
      · unfold handleWrites at q2 c2 ⊢
        simp [List.filterMap_append, q2, c2, Event.handleWrite]
      · unfold workerEntries at q3 c3 ⊢
        simp [List.filterMap_append, q3, c3, Event.workerEntry]
      · unfold threadedWrites at q4 c4 ⊢
        simp [List.filterMap_append, q4, c4, Event.threadedWrite]
    · have heq : s.dispatch = s.workcount := by omega
      simp only [hlt, if_false] at hg hd1
      refine ⟨s1, ev, ?_, ?_, q2, q3, q4, by rw [hd1, heq], hw1, ht1, he1, hp1, hn1⟩
      · simp only [workerLoop, hg, if_true]
      · rw [q1, heq]
        simp

theorem filter_progress_self (ev : List Event) (h : ∀ e ∈ ev, e.isProgress = true) :
    ev.filter (fun e => !e.isLockEvent) = ev := by
  rw [List.filter_eq_self]
  intro e he
  simp [not_isLockEvent_of_isProgress e (h e he)]

/-- Progress output and new `oldf` of one call of `GetThreadWork`. -/
theorem GetThreadWork_progress (s : State) (hc : Counting s) (r : Int) (s1 : State)
    (ev : List Event) (hg : GetThreadWork s = .ok (r, s1, ev)) :
    ev.filter (fun e => !e.isLockEvent)
        = (if s.dispatch = s.workcount then []
           else (progressReport (stepOf s.dispatch s.workcount) s.pacifier s.oldf).2)
      ∧ s1.oldf = (if s.dispatch = s.workcount then s.oldf else stepOf s.dispatch s.workcount)
      ∧ s1.dispatch = (if s.dispatch = s.workcount then s.dispatch else wrap32 (s.dispatch + 1)) := by
  obtain ⟨hl, h0, h1, h2⟩ := hc
  by_cases h : s.dispatch = s.workcount
  · rw [GetThreadWork_exhausted s hl h] at hg
    injection hg with hg
    injection hg with _ hg
    injection hg with hs hg
    subst hg hs
    simp only [h, if_true, and_true]
    cases hth : s.threaded <;> simp [hth, List.filter, Event.isLockEvent]
  · have hw := divisionFault_pos s.dispatch s.workcount (by omega)
    rw [GetThreadWork_normal s hl h hw] at hg
    injection hg with hg
    injection hg with _ hg
    injection hg with hs hg
    subst hg hs
    simp only [h, if_false, and_true]
    rw [List.filter_append, List.filter_append,
      filter_progress_self _ (progressReport_events _ _ _)]
    cases hth : s.threaded <;> simp [hth, List.filter, Event.isLockEvent]

/-- Progress output of `k` successive calls of `GetThreadWork`. -/
theorem pulls_progress (k : Nat) (s : State) (hc : Counting s) (rs : List Int) (s1 : State)
    (ev : List Event) (hp : pulls k s = .ok (rs, s1, ev)) :
    ev.filter (fun e => !e.isLockEvent)
      = progressRun k s.dispatch s.workcount s.oldf s.pacifier := by
  induction k generalizing s rs s1 ev with
  | zero =>
    simp only [pulls] at hp
    injection hp with hp
    injection hp with _ hp
    injection hp with _ hp
    subst hp
    rfl
  | succ k ih =>
    obtain ⟨t, ev1, hg, hc1, hw1, hd1, -, -, hp1, -⟩ := GetThreadWork_counting s hc
    obtain ⟨hf, ho, hd⟩ := GetThreadWork_progress s hc _ t ev1 hg
    obtain ⟨t2, ev2, hp2, -⟩ := pulls_counting k t hc1
    have hrec := ih t hc1 _ t2 ev2 hp2
    simp only [pulls, hg, hp2] at hp
    injection hp with hp
    injection hp with _ hp
    injection hp with _ hp
    subst hp
    rw [List.filter_append, hf, hrec, hw1, hp1, ho, hd]
    by_cases h : s.dispatch = s.workcount
    · simp only [h, if_true, List.nil_append]
      cases k <;> simp [progressRun]
    · simp only [h, if_false]
      simp only [progressRun, h, if_false]

theorem filterMap_dropLock (f : Event → Option α) (hf : ∀ e, e.isLockEvent = true → f e = none)
    (ev : List Event) :
    (ev.filter (fun e => !e.isLockEvent)).filterMap f = ev.filterMap f := by
  induction ev with
  | nil => rfl
  | cons e l ih =>
    by_cases he : e.isLockEvent = true
    · simp [List.filter_cons, List.filterMap_cons, he, hf e he, ih]
    · have he2 : e.isLockEvent = false := by simpa using he
      simp [List.filter_cons, List.filterMap_cons, he2, ih]

theorem filter_dropLock (q : Event → Bool) (hq : ∀ e, e.isLockEvent = true → q e = false)
    (ev : List Event) :
    (ev.filter (fun e => !e.isLockEvent)).filter q = ev.filter q := by
  induction ev with
  | nil => rfl
  | cons e l ih =>
    by_cases he : e.isLockEvent = true
    · simp [List.filter_cons, he, hq e he, ih]
    · have he2 : e.isLockEvent = false := by simpa using he
      simp [List.filter_cons, he2, ih]

/-! ## The pool: list facts -/

theorem set_perm {α : Type} (l : List α) (i : Nat) (a b : α) (h : l[i]? = some b) :
    (l.set i a).Perm (a :: l.eraseIdx i) ∧ l.Perm (b :: l.eraseIdx i) := by
  induction l generalizing i with
  | nil => simp at h
  | cons x l ih =>
    cases i with
    | zero =>
      simp at h
      subst h
      exact ⟨List.Perm.refl _, List.Perm.refl _⟩
    | succ i =>
      simp at h
      obtain ⟨h1, h2⟩ := ih i h
      constructor
      · simp only [List.set_cons_succ, List.eraseIdx_cons_succ]
        exact (List.Perm.cons x h1).trans (List.Perm.swap a x _)
      · simp only [List.eraseIdx_cons_succ]
        exact (List.Perm.cons x h2).trans (List.Perm.swap b x _)

theorem set_facts (l : List Pc) (i : Nat) (a b : Pc) (h : l[i]? = some b) :
    ((Pc.pending b).toList ++ pendings (l.set i a)).Perm ((Pc.pending a).toList ++ pendings l)
      ∧ (Pc.finished ∈ l.set i a → a = Pc.finished ∨ Pc.finished ∈ l)
      ∧ ((l.set i a).map Pc.cost).sum + b.cost = (l.map Pc.cost).sum + a.cost := by
  obtain ⟨h1, h2⟩ := set_perm l i a b h
  refine ⟨?_, ?_, ?_⟩
  · have p1 : (pendings (l.set i a)).Perm ((Pc.pending a).toList ++ pendings (l.eraseIdx i)) := by
      unfold pendings
      refine (h1.filterMap Pc.pending).trans ?_
      rw [List.filterMap_cons]
      cases Pc.pending a <;> simp
    have p2 : (pendings l).Perm ((Pc.pending b).toList ++ pendings (l.eraseIdx i)) := by
      unfold pendings
      refine (h2.filterMap Pc.pending).trans ?_
      rw [List.filterMap_cons]
      cases Pc.pending b <;> simp
    refine ((List.Perm.append_left _ p1).trans ?_).trans (List.Perm.append_left _ p2).symm
    rw [← List.append_assoc, ← List.append_assoc]
    exact List.Perm.append_right _ List.perm_append_comm
  · intro hm
    rcases List.mem_cons.mp (h1.mem_iff.mp hm) with hm | hm
    · exact Or.inl hm.symm
    · exact Or.inr (h2.mem_iff.mpr (List.mem_cons_of_mem _ hm))
  · have s1 := (h1.map Pc.cost).sum_eq
    have s2 := (h2.map Pc.cost).sum_eq
    simp only [List.map_cons, List.sum_cons] at s1 s2
    omega

theorem mainOk_set (T : Int) (m : MainPc) (l : List Pc) (i : Nat) (a b : Pc)
    (h : l[i]? = some b) (hb : b ≠ Pc.finished) (hm : MainOk T m l) :
    MainOk T m (l.set i a) := by
  cases m with
  | spawn k => simpa [MainOk] using hm
  | join k =>
    obtain ⟨h1, h2, h3⟩ := hm
    refine ⟨by simpa using h1, h2, ?_⟩
    intro j hj
    have hji : i ≠ j := by
      intro hij
      subst hij
      rw [h3 i hj] at h
      exact hb (Option.some.inj h).symm
    rw [List.getElem?_set_ne hji]
    exact h3 j hj
  | returned =>
    obtain ⟨-, h2⟩ := hm
    have hmem : b ∈ l := List.getElem?_mem h
    exact absurd (h2 b hmem) hb

theorem not_returned_of_worker (T : Int) (m : MainPc) (l : List Pc) (i : Nat) (b : Pc)
    (h : l[i]? = some b) (hb : b ≠ Pc.finished) (hm : MainOk T m l) : m ≠ MainPc.returned := by
  intro hr
  subst hr
  exact hb (hm.2 b (List.getElem?_mem h))

theorem getElem?_set_at (l : List Pc) (i : Nat) (a b : Pc) (h : l[i]? = some b) :
    (l.set i a)[i]? = some a := by
  have hi : i < l.length := by
    by_contra hge
    rw [List.getElem?_eq_none (by omega)] at h
    cases h
  simp [hi]

/-! ## The pool: who is inside the critical section -/

theorem Outside_set (l : List Pc) (i : Nat) (a : Pc) (h : Outside l)
    (ha : a.inSection = false) : Outside (l.set i a) := by
  intro pc hpc
  rcases List.mem_or_eq_of_mem_set hpc with h1 | h1
  · exact h pc h1
  · rw [h1]
    exact ha

theorem Outside_append (l : List Pc) (x : Pc) (h : Outside l) (hx : x.inSection = false) :
    Outside (l ++ [x]) := by
  intro pc hpc
  rcases List.mem_append.mp hpc with h1 | h1
  · exact h pc h1
  · simp at h1
    rw [h1]
    exact hx

theorem others_of_Outside (l : List Pc) (h : Outside l) (i : Nat) :
    ∀ (j : Nat) (pc1 : Pc), l[j]? = some pc1 → j ≠ i → pc1.inSection = false :=
  fun _ pc1 hj _ => h pc1 (List.getElem?_mem hj)

/-- The worker `i` moves to a position inside the critical section while no
other worker is inside. -/
theorem Holder_move (n : Int) (g1 : State) (l : List Pc) (i : Nat) (a b : Pc)
    (hb : l[i]? = some b)
    (ho : ∀ (j : Nat) (pc1 : Pc), l[j]? = some pc1 → j ≠ i → pc1.inSection = false)
    (ha : a.inSection = true) (hok : SectionOk n g1 a) : Holder n g1 (l.set i a) := by
  refine ⟨i, a, getElem?_set_at l i a b hb, ha, hok, ?_⟩
  intro j pc1 hj hji
  rw [List.getElem?_set_ne (Ne.symm hji)] at hj
  exact ho j pc1 hj hji

/-- The worker `i` moves to a position outside the critical section while no
other worker is inside. -/
theorem Outside_leave (l : List Pc) (i : Nat) (a b : Pc) (hb : l[i]? = some b)
    (ho : ∀ (j : Nat) (pc1 : Pc), l[j]? = some pc1 → j ≠ i → pc1.inSection = false)
    (ha : a.inSection = false) : Outside (l.set i a) := by
  intro pc hpc
  obtain ⟨j, hj⟩ := List.mem_iff_getElem?.mp hpc
  by_cases hji : j = i
  · subst hji
    rw [getElem?_set_at l j a b hb] at hj
    cases hj
    exact ha
  · rw [List.getElem?_set_ne (Ne.symm hji)] at hj
    exact ho j pc hj hji

theorem SectionOk_congr (n : Int) (g g1 : State) (pc : Pc) (he : g1.enter = g.enter)
    (hd : g1.dispatch = g.dispatch) (h : SectionOk n g pc) : SectionOk n g1 pc := by
  cases pc <;> simp only [SectionOk, he, hd] at h ⊢ <;> exact h

/-- A worker outside the critical section moves to another position outside it. -/
theorem Holder_other (n : Int) (g g1 : State) (l : List Pc) (i : Nat) (a b : Pc)
    (hh : Holder n g l) (he : g1.enter = g.enter) (hd : g1.dispatch = g.dispatch)
    (hb : l[i]? = some b) (hbo : b.inSection = false) (hao : a.inSection = false) :
    Holder n g1 (l.set i a) := by
  obtain ⟨k, pc, hk, hin, hok, hu⟩ := hh
  have hki : k ≠ i := by
    intro e
    subst e
    rw [hb] at hk
    cases hk
    rw [hbo] at hin
    cases hin
  refine ⟨k, pc, ?_, hin, SectionOk_congr n g g1 pc he hd hok, ?_⟩
  · rw [List.getElem?_set_ne (Ne.symm hki)]
    exact hk
  · intro j pc1 hj hjk
    by_cases hji : j = i
    · subst hji
      rw [getElem?_set_at l j a b hb] at hj
      cases hj
      exact hao
    · rw [List.getElem?_set_ne (Ne.symm hji)] at hj
      exact hu j pc1 hj hjk

theorem Holder_append (n : Int) (g g1 : State) (l : List Pc) (x : Pc) (hh : Holder n g l)
    (he : g1.enter = g.enter) (hd : g1.dispatch = g.dispatch) (hx : x.inSection = false) :
    Holder n g1 (l ++ [x]) := by
  obtain ⟨k, pc, hk, hin, hok, hu⟩ := hh
  have hkl : k < l.length := by
    by_contra hge
    rw [List.getElem?_eq_none (by omega)] at hk
    cases hk
  refine ⟨k, pc, ?_, hin, SectionOk_congr n g g1 pc he hd hok, ?_⟩
  · rw [List.getElem?_append_left hkl]
    exact hk
  · intro j pc1 hj hjk
    by_cases hjl : j < l.length
    · rw [List.getElem?_append_left hjl] at hj
      exact hu j pc1 hj hjk
    · rw [List.getElem?_append_right (by omega)] at hj
      have h0 : j - l.length = 0 := by
        by_contra hne
        rw [List.getElem?_eq_none (by simp; omega)] at hj
        cases hj
      rw [h0] at hj
      simp at hj
      rw [← hj]
      exact hx

theorem Holder_congr (n : Int) (g g1 : State) (l : List Pc) (hh : Holder n g l)
    (he : g1.enter = g.enter) (hd : g1.dispatch = g.dispatch) : Holder n g1 l := by
  obtain ⟨k, pc, hk, hin, hok, hu⟩ := hh
  exact ⟨k, pc, hk, hin, SectionOk_congr n g g1 pc he hd hok, hu⟩

/-- A worker found inside the critical section is the one holder: the mutex is
locked, its position agrees with the shared variables, and every other worker is
outside. -/
theorem holder_of_inside (n T : Int) (p : Pool) (i : Nat) (pc : Pc) (h : PoolInv n T p)
    (hpc : p.pcs[i]? = some pc) (hin : pc.inSection = true) :
    p.g.crit = true ∧ SectionOk n p.g pc
      ∧ ∀ (j : Nat) (pc1 : Pc), p.pcs[j]? = some pc1 → j ≠ i → pc1.inSection = false := by
  cases hcr : p.g.crit with
  | false =>
    have := (h.free hcr).2 pc (List.getElem?_mem hpc)
    rw [this] at hin
    cases hin
  | true =>
    obtain ⟨k, pck, hk, hkin, hok, hu⟩ := h.held hcr
    by_cases hki : i = k
    · subst hki
      rw [hpc] at hk
      cases hk
      exact ⟨rfl, hok, hu⟩
    · have := hu i pc hpc hki
      rw [this] at hin
      cases hin

/-! ## The pool: one step -/

theorem workIndices_append (a b : List Event) :
    workIndices (a ++ b) = workIndices a ++ workIndices b := by
  simp [workIndices, workCalls]

theorem handleWrites_append (a b : List Event) :
    handleWrites (a ++ b) = handleWrites a ++ handleWrites b := by
  simp [handleWrites]

theorem progress_silent (ev : List Event) (h : ∀ e ∈ ev, e.isProgress = true) :
    workIndices ev = [] ∧ handleWrites ev = [] := by
  have hs := pullEvents_silent ev (fun e he => isPullEvent_of_isProgress e (h e he))
  exact ⟨by simp [workIndices, hs.1], hs.2.1⟩

theorem unitIndices_succ (d : Int) (h : 0 ≤ d) :
    unitIndices (d + 1).toNat = unitIndices d.toNat ++ [d] := by
  have h1 : (d + 1).toNat = d.toNat + 1 := by omega
  rw [h1]
  unfold unitIndices
  rw [List.range_succ, List.map_append]
  simp
  omega

/-- The record of served units after a step of the worker `i` that hands the
unit it holds, if any, to the callback or keeps it. -/
theorem served_step (l : List Pc) (i : Nat) (a b : Pc) (tr ev : List Event) (d : Nat)
    (hb : l[i]? = some b)
    (hs : (workIndices tr ++ pendings l).Perm (unitIndices d))
    (hp : (workIndices ev ++ (Pc.pending a).toList).Perm (Pc.pending b).toList) :
    (workIndices (tr ++ ev) ++ pendings (l.set i a)).Perm (unitIndices d) := by
  have f := (set_facts l i a b hb).1
  rw [workIndices_append, List.append_assoc]
  refine (List.Perm.append_left _ ?_).trans hs
  have h1 : ((Pc.pending a).toList ++ (workIndices ev ++ pendings (l.set i a))).Perm
      ((Pc.pending a).toList ++ pendings l) := by
    rw [← List.append_assoc]
    exact (List.Perm.append_right _ (List.perm_append_comm.trans hp)).trans f
  exact (List.perm_append_left_iff _).mp h1

/-- A worker that has not left its loop reaches `finished` only by its own step. -/
theorem finished_step (n T : Int) (p : Pool) (i : Nat) (a b : Pc) (h : PoolInv n T p)
    (hb : p.pcs[i]? = some b) (ha : a = Pc.finished → p.g.dispatch = n) :
    Pc.finished ∈ p.pcs.set i a → p.g.dispatch = n := by
  intro hm
  rcases (set_facts p.pcs i a b hb).2.1 hm with hx | hx
  · exact ha hx
  · exact h.finished_exhausted hx

/-- The invariant after a step of the worker `i`, from its parts. -/
theorem PoolInv_step (n T : Int) (p : Pool) (i : Nat) (a b : Pc) (g1 : State)
    (tr1 : List Event) (h : PoolInv n T p) (hpc : p.pcs[i]? = some b) (hb : b ≠ Pc.finished)
    (hw : g1.workcount = p.g.workcount) (hnt : g1.numthreads = p.g.numthreads)
    (hth : g1.threaded = p.g.threaded) (hd0 : 0 ≤ g1.dispatch) (hd1 : g1.dispatch ≤ n)
    (hfree : g1.crit = false → g1.enter = false ∧ Outside (p.pcs.set i a))
    (hheld : g1.crit = true → Holder n g1 (p.pcs.set i a))
    (hserved : (workIndices tr1 ++ pendings (p.pcs.set i a)).Perm
      (unitIndices g1.dispatch.toNat))
    (hfin : Pc.finished ∈ p.pcs.set i a → g1.dispatch = n)
    (hh : handleWrites tr1 = handleWrites p.trace) :
    PoolInv n T { p with g := g1, pcs := p.pcs.set i a, trace := tr1 } :=
  ⟨hw.trans h.workcount_eq, hnt.trans h.numthreads_eq, hd0, hd1, h.n_le,
    fun hm => hth.trans (h.threaded hm), hfree, hheld, hserved, hfin,
    by simp only [List.length_set]; exact hh.trans h.handles,
    mainOk_set T p.main p.pcs i a b hpc hb h.main_ok⟩

/-- A step of a worker keeps the invariant, stops with no fault, and lowers the
cost unless the worker has finished or waits for the mutex. -/
theorem workerStep_inv (n T : Int) (i : Nat) (p : Pool) (h : PoolInv n T p) :
    ∃ p1, workerStep i p = .ok p1 ∧ PoolInv n T p1
      ∧ (∀ pc, p.pcs[i]? = some pc → pc ≠ Pc.finished → (pc = Pc.atLock → p.g.crit = false) →
          p1.cost < p.cost) := by
  cases hpc : p.pcs[i]? with
  | none => exact ⟨p, by simp [workerStep, hpc], h, by intro pc hh; simp at hh⟩
  | some pc =>
    have hnr := fun (hb : pc ≠ Pc.finished) =>
      not_returned_of_worker T p.main p.pcs i pc hpc hb h.main_ok
    have hcost := fun (a : Pc) => (set_facts p.pcs i a pc hpc).2.2
    cases pc with
    | entry =>
      refine ⟨{ p with pcs := p.pcs.set i .atLock,
                       trace := p.trace ++ [Event.workerStart (.worker i) i] },
        by simp [workerStep, hpc], ?_, ?_⟩
      · refine PoolInv_step n T p i _ _ p.g _ h hpc (by simp) rfl rfl rfl h.dispatch_nonneg
          h.dispatch_le ?_ ?_ ?_ ?_ ?_
        · intro hc
          exact ⟨(h.free hc).1, Outside_set _ _ _ (h.free hc).2 rfl⟩
        · intro hc
          exact Holder_other n p.g p.g _ i _ _ (h.held hc) rfl rfl hpc rfl rfl
        · exact served_step _ i _ _ _ _ _ hpc h.served (by simp [workIndices, workCalls,
            Event.workCall, Pc.pending])
        · exact finished_step n T p i _ _ h hpc (by simp)
        · simp [handleWrites_append, handleWrites, Event.handleWrite]
      · intro pc _ _ _
        have f := hcost Pc.atLock
        simp only [Pool.cost, Pc.cost] at f ⊢
        omega
    | atLock =>
      have ht := h.threaded (hnr (by simp))
      cases hcr : p.g.crit with
      | true =>
        refine ⟨p, by simp [workerStep, hpc, ht, crit_lock, hcr], h, ?_⟩
        intro pc hh _ hc
        have hpa : Pc.atLock = pc := Option.some.inj hh
        have := hc hpa.symm
        cases this
      | false =>
        obtain ⟨he, hout⟩ := h.free hcr
        refine ⟨{ p with g := { p.g with crit := true }, pcs := p.pcs.set i .locked,
                         trace := p.trace ++ [.lockCall, .critLock] },
          by simp [workerStep, hpc, ht, crit_lock, hcr], ?_, ?_⟩
        · refine PoolInv_step n T p i _ _ _ _ h hpc (by simp) rfl rfl rfl h.dispatch_nonneg
            h.dispatch_le ?_ ?_ ?_ ?_ ?_
          · intro hc
            cases hc
          · intro _
            exact Holder_move n _ _ i _ _ hpc (others_of_Outside _ hout i) rfl he
          · exact served_step _ i _ _ _ _ _ hpc h.served (by simp [workIndices, workCalls,
              Event.workCall, Pc.pending])
          · exact finished_step n T p i _ _ h hpc (by simp)
          · simp [handleWrites_append, handleWrites, Event.handleWrite]
        · intro pc _ _ _
          have f := hcost Pc.locked
          simp only [Pool.cost, Pc.cost] at f ⊢
          omega
    | locked =>
      obtain ⟨hcr, hok, hothers⟩ := holder_of_inside n T p i _ h hpc rfl
      have he : p.g.enter = false := hok
      refine ⟨{ p with g := { p.g with enter := true }, pcs := p.pcs.set i .inCrit },
        by simp [workerStep, hpc, enter_set, he], ?_, ?_⟩
      · refine PoolInv_step n T p i _ _ _ _ h hpc (by simp) rfl rfl rfl h.dispatch_nonneg
          h.dispatch_le ?_ ?_ ?_ ?_ rfl
        · intro hc
          rw [show ({ p.g with enter := true } : State).crit = p.g.crit from rfl, hcr] at hc
          cases hc
        · intro _
          exact Holder_move n _ _ i _ _ hpc hothers rfl rfl
        · have := served_step _ i Pc.inCrit _ _ [] _ hpc h.served (by simp [workIndices,
            workCalls, Pc.pending])
          simpa using this
        · exact finished_step n T p i _ _ h hpc (by simp)
      · intro pc _ _ _
        have f := hcost Pc.inCrit
        simp only [Pool.cost, Pc.cost] at f ⊢
        omega
    | inCrit =>
      obtain ⟨hcr, hok, hothers⟩ := holder_of_inside n T p i _ h hpc rfl
      have he : p.g.enter = true := hok
      by_cases hd : p.g.dispatch = p.g.workcount
      · refine ⟨{ p with pcs := p.pcs.set i (.unlocking (-1)) },
          by simp [workerStep, hpc, hd], ?_, ?_⟩
        · refine PoolInv_step n T p i _ _ p.g _ h hpc (by simp) rfl rfl rfl h.dispatch_nonneg
            h.dispatch_le ?_ ?_ ?_ ?_ rfl
          · intro hc
            rw [hcr] at hc
            cases hc
          · intro _
            exact Holder_move n _ _ i _ _ hpc hothers rfl
              ⟨he, fun _ => hd.trans h.workcount_eq⟩
          · have := served_step _ i (Pc.unlocking (-1)) _ _ [] _ hpc h.served
              (by simp [workIndices, workCalls, Pc.pending])
            simpa using this
          · exact finished_step n T p i _ _ h hpc (by simp)
        · intro pc _ _ _
          have f := hcost (Pc.unlocking (-1))
          simp only [Pool.cost, Pc.cost, if_true] at f ⊢
          omega
      · refine ⟨{ p with pcs := p.pcs.set i .working },
          by simp [workerStep, hpc, hd], ?_, ?_⟩
        · refine PoolInv_step n T p i _ _ p.g _ h hpc (by simp) rfl rfl rfl h.dispatch_nonneg
            h.dispatch_le ?_ ?_ ?_ ?_ rfl
          · intro hc
            rw [hcr] at hc
            cases hc
          · intro _
            refine Holder_move n _ _ i _ _ hpc hothers rfl ⟨he, ?_⟩
            rw [← h.workcount_eq]
            exact hd
          · have := served_step _ i Pc.working _ _ [] _ hpc h.served
              (by simp [workIndices, workCalls, Pc.pending])
            simpa using this
          · exact finished_step n T p i _ _ h hpc (by simp)
        · intro pc _ _ _
          have f := hcost Pc.working
          simp only [Pool.cost, Pc.cost] at f ⊢
          omega
    | working =>
      obtain ⟨hcr, hok, hothers⟩ := holder_of_inside n T p i _ h hpc rfl
      obtain ⟨he, hdn⟩ : p.g.enter = true ∧ p.g.dispatch ≠ n := hok
      have hdf : divisionFault p.g.dispatch p.g.workcount = none := by
        apply divisionFault_pos
        have := h.dispatch_nonneg
        have := h.dispatch_le
        have := h.workcount_eq
        omega
      obtain ⟨q1, q2⟩ := progress_silent _
        (progressReport_events (stepOf p.g.dispatch p.g.workcount) p.g.pacifier p.g.oldf)
      refine ⟨{ p with g := { p.g with oldf := (progressReport (stepOf p.g.dispatch
                                  p.g.workcount) p.g.pacifier p.g.oldf).1 },
                       pcs := p.pcs.set i .reported,
                       trace := p.trace ++ (progressReport (stepOf p.g.dispatch p.g.workcount)
                         p.g.pacifier p.g.oldf).2 },
        by simp [workerStep, hpc, showProgress, hdf], ?_, ?_⟩
      · refine PoolInv_step n T p i _ _ _ _ h hpc (by simp) rfl rfl rfl h.dispatch_nonneg
          h.dispatch_le ?_ ?_ ?_ ?_ ?_
        · intro hc
          rw [show ({ p.g with oldf := _ } : State).crit = p.g.crit from rfl, hcr] at hc
          cases hc
        · intro _
          exact Holder_move n _ _ i _ _ hpc hothers rfl ⟨he, hdn⟩
        · exact served_step _ i _ _ _ _ _ hpc h.served (by rw [q1]; simp [Pc.pending])
        · exact finished_step n T p i _ _ h hpc (by simp)
        · rw [handleWrites_append, q2, List.append_nil]
      · intro pc _ _ _
        have f := hcost Pc.reported
        simp only [Pool.cost, Pc.cost] at f ⊢
        omega
    | reported =>
      obtain ⟨hcr, hok, hothers⟩ := holder_of_inside n T p i _ h hpc rfl
      obtain ⟨he, hdn⟩ : p.g.enter = true ∧ p.g.dispatch ≠ n := hok
      refine ⟨{ p with pcs := p.pcs.set i (.fetched p.g.dispatch) },
        by simp [workerStep, hpc], ?_, ?_⟩
      · refine PoolInv_step n T p i _ _ p.g _ h hpc (by simp) rfl rfl rfl h.dispatch_nonneg
          h.dispatch_le ?_ ?_ ?_ ?_ rfl
        · intro hc
          rw [hcr] at hc
          cases hc
        · intro _
          exact Holder_move n _ _ i _ _ hpc hothers rfl ⟨he, rfl, hdn⟩
        · have := served_step _ i (Pc.fetched p.g.dispatch) _ _ [] _ hpc h.served
            (by simp [workIndices, workCalls, Pc.pending])
          simpa using this
        · exact finished_step n T p i _ _ h hpc (by simp)
      · intro pc _ _ _
        have f := hcost (Pc.fetched p.g.dispatch)
        simp only [Pool.cost, Pc.cost] at f ⊢
        omega
    | fetched r =>
      obtain ⟨hcr, hok, hothers⟩ := holder_of_inside n T p i _ h hpc rfl
      obtain ⟨he, hr, hdn⟩ : p.g.enter = true ∧ r = p.g.dispatch ∧ p.g.dispatch ≠ n := hok
      subst hr
      have h0 := h.dispatch_nonneg
      have h1 := h.dispatch_le
      have h2 := h.n_le
      have hwr : wrap32 (p.g.dispatch + 1) = p.g.dispatch + 1 := by
        apply wrap32_of_range
        · unfold INT_MIN
          omega
        · omega
      have hne1 : p.g.dispatch ≠ -1 := by omega
      refine ⟨{ p with g := { p.g with dispatch := wrap32 (p.g.dispatch + 1) },
                       pcs := p.pcs.set i (.unlocking p.g.dispatch) },
        by simp [workerStep, hpc], ?_, ?_⟩
      · refine PoolInv_step n T p i _ _ _ _ h hpc (by simp) rfl rfl rfl ?_ ?_ ?_ ?_ ?_ ?_ rfl
        · simp only [hwr]
          omega
        · simp only [hwr]
          omega
        · intro hc
          rw [show ({ p.g with dispatch := _ } : State).crit = p.g.crit from rfl, hcr] at hc
          cases hc
        · intro _
          exact Holder_move n _ _ i _ _ hpc hothers rfl ⟨he, fun hx => absurd hx hne1⟩
        · simp only [hwr]
          rw [unitIndices_succ _ h0]
          have f2 := (set_facts p.pcs i (Pc.unlocking p.g.dispatch) (Pc.fetched p.g.dispatch)
            hpc).1
          have f2b : (pendings (p.pcs.set i (Pc.unlocking p.g.dispatch))).Perm
              (p.g.dispatch :: pendings p.pcs) := by
            simpa [Pc.pending, hne1] using f2
          refine (List.Perm.append_left _ f2b).trans ?_
          refine List.perm_middle.trans ?_
          exact (List.Perm.cons _ h.served).trans (List.perm_append_singleton _ _).symm
        · intro hm
          rcases (set_facts p.pcs i _ _ hpc).2.1 hm with hx | hx
          · cases hx
          · exact absurd (h.finished_exhausted hx) hdn
      · intro pc _ _ _
        have f := hcost (Pc.unlocking p.g.dispatch)
        simp only [Pool.cost, Pc.cost, hwr, if_neg hne1] at f ⊢
        have := h.workcount_eq
        have : (p.g.workcount - p.g.dispatch).toNat
            = (p.g.workcount - (p.g.dispatch + 1)).toNat + 1 := by omega
        omega
    | unlocking r =>
      have ht := h.threaded (hnr (by simp))
      obtain ⟨hcr, hok, hothers⟩ := holder_of_inside n T p i _ h hpc rfl
      obtain ⟨he, hrn⟩ : p.g.enter = true ∧ (r = -1 → p.g.dispatch = n) := hok
      refine ⟨{ p with g := { p.g with enter := false }, pcs := p.pcs.set i (.releasing r),
                       trace := p.trace ++ [.unlockCall] },
        by simp [workerStep, hpc, ht, enter_clear, he], ?_, ?_⟩
      · refine PoolInv_step n T p i _ _ _ _ h hpc (by simp) rfl rfl rfl h.dispatch_nonneg
          h.dispatch_le ?_ ?_ ?_ ?_ ?_
        · intro hc
          rw [show ({ p.g with enter := false } : State).crit = p.g.crit from rfl, hcr] at hc
          cases hc
        · intro _
          exact Holder_move n _ _ i _ _ hpc hothers rfl ⟨rfl, hrn⟩
        · exact served_step _ i _ _ _ _ _ hpc h.served (by simp [workIndices, workCalls,
            Event.workCall, Pc.pending])
        · exact finished_step n T p i _ _ h hpc (by simp)
        · simp [handleWrites_append, handleWrites, Event.handleWrite]
      · intro pc _ _ _
        have f := hcost (Pc.releasing r)
        simp only [Pool.cost, Pc.cost] at f ⊢
        split at f <;> omega
    | releasing r =>
      obtain ⟨hcr, hok, hothers⟩ := holder_of_inside n T p i _ h hpc rfl
      obtain ⟨he, hrn⟩ : p.g.enter = false ∧ (r = -1 → p.g.dispatch = n) := hok
      have hout : (Pc.afterPull r).inSection = false := by
        unfold Pc.afterPull
        split <;> rfl
      refine ⟨{ p with g := { p.g with crit := false }, pcs := p.pcs.set i (Pc.afterPull r),
                       trace := p.trace ++ [.critUnlock] },
        by simp [workerStep, hpc, crit_unlock, hcr], ?_, ?_⟩
      · refine PoolInv_step n T p i _ _ _ _ h hpc (by simp) rfl rfl rfl h.dispatch_nonneg
          h.dispatch_le ?_ ?_ ?_ ?_ ?_
        · intro _
          exact ⟨he, Outside_leave _ i _ _ hpc hothers hout⟩
        · intro hc
          cases hc
        · refine served_step _ i _ _ _ _ _ hpc h.served ?_
          unfold Pc.afterPull
          by_cases hr : r = -1 <;> simp [workIndices, workCalls, Event.workCall, Pc.pending, hr]
        · refine finished_step n T p i _ _ h hpc ?_
          intro hfin
          apply hrn
          unfold Pc.afterPull at hfin
          by_contra hr
          rw [if_neg hr] at hfin
          cases hfin
        · simp [handleWrites_append, handleWrites, Event.handleWrite]
      · intro pc _ _ _
        have f := hcost (Pc.afterPull r)
        unfold Pc.afterPull at f ⊢
        simp only [Pool.cost, Pc.cost] at f ⊢
        by_cases hr : r = -1
        · simp only [hr, if_true, Pc.cost] at f ⊢
          omega
        · simp only [hr, if_false, Pc.cost] at f ⊢
          omega
    | gotWork r =>
      refine ⟨{ p with pcs := p.pcs.set i .atLock,
                       trace := p.trace ++ [Event.work (.worker i) i r p.g.enter] },
        by simp [workerStep, hpc], ?_, ?_⟩
      · refine PoolInv_step n T p i _ _ p.g _ h hpc (by simp) rfl rfl rfl h.dispatch_nonneg
          h.dispatch_le ?_ ?_ ?_ ?_ ?_
        · intro hc
          exact ⟨(h.free hc).1, Outside_set _ _ _ (h.free hc).2 rfl⟩
        · intro hc
          exact Holder_other n p.g p.g _ i _ _ (h.held hc) rfl rfl hpc rfl rfl
        · exact served_step _ i _ _ _ _ _ hpc h.served (by simp [workIndices, workCalls,
            Event.workCall, Pc.pending])
        · exact finished_step n T p i _ _ h hpc (by simp)
        · simp [handleWrites_append, handleWrites, Event.handleWrite]
      · intro pc _ _ _
        have f := hcost Pc.atLock
        simp only [Pool.cost, Pc.cost] at f ⊢
        omega
    | finished =>
      refine ⟨p, by simp [workerStep, hpc], h, ?_⟩
      intro pc hh hne
      simp at hh
      exact absurd hh.symm hne

/-- A step of the calling thread keeps the invariant, stops with no fault, and
lowers the cost when every existing worker has finished. -/
theorem mainStep_inv (n T : Int) (p : Pool) (h : PoolInv n T p) :
    ∃ p1, mainStep p = .ok p1 ∧ PoolInv n T p1
      ∧ ((∀ pc ∈ p.pcs, pc = Pc.finished) → p.main ≠ MainPc.returned → p1.cost < p.cost) := by
  have hmo := h.main_ok
  have hT := h.numthreads_eq
  cases hm : p.main with
  | spawn i =>
    rw [hm] at hmo
    obtain ⟨hlen, hle⟩ := hmo
    have ht : p.g.threaded = true := h.threaded (by rw [hm]; simp)
    by_cases hlt : (i : Int) < p.g.numthreads
    · refine ⟨{ p with main := .spawn (i + 1), pcs := p.pcs ++ [.entry],
                       trace := p.trace ++ [Event.threadStart i] },
        by simp [mainStep, hm, hlt], ?_, ?_⟩
      · refine ⟨h.workcount_eq, h.numthreads_eq, h.dispatch_nonneg, h.dispatch_le, h.n_le,
          fun _ => ht, ?_, ?_, ?_, ?_, ?_, ?_⟩
        · intro hc
          exact ⟨(h.free hc).1, Outside_append _ _ (h.free hc).2 rfl⟩
        · intro hc
          exact Holder_append n p.g p.g _ _ (h.held hc) rfl rfl rfl
        · simp only [workIndices_append]
          have : workIndices [Event.threadStart i] = [] := rfl
          rw [this, List.append_nil]
          have : pendings (p.pcs ++ [Pc.entry]) = pendings p.pcs := by
            simp [pendings, Pc.pending]
          rw [this]
          exact h.served
        · intro hmem
          apply h.finished_exhausted
          simpa using hmem
        · simp only [handleWrites_append, List.length_append, List.length_singleton]
          have : handleWrites [Event.threadStart i] = [i] := rfl
          rw [this, List.range_succ, h.handles, hlen]
        · show MainOk T (MainPc.spawn (i + 1)) (p.pcs ++ [Pc.entry])
          refine ⟨by simp [hlen], ?_⟩
          omega
      · intro _ _
        simp only [Pool.cost, MainPc.cost, hm, List.map_append, List.sum_append, List.map_cons,
          List.map_nil, List.sum_cons, List.sum_nil, Pc.cost]
        have : i < p.g.numthreads.toNat := by omega
        omega
    · refine ⟨{ p with main := .join 0 }, by simp [mainStep, hm, hlt], ?_, ?_⟩
      · refine ⟨h.workcount_eq, h.numthreads_eq, h.dispatch_nonneg, h.dispatch_le, h.n_le,
          fun _ => ht, h.free, h.held, h.served, h.finished_exhausted, h.handles, ?_⟩
        show MainOk T (MainPc.join 0) p.pcs
        refine ⟨?_, by omega, ?_⟩
        · omega
        · intro j hj
          omega
      · intro _ _
        simp only [Pool.cost, MainPc.cost, hm]
        omega
  | join i =>
    rw [hm] at hmo
    obtain ⟨hlen, hle, hfin⟩ := hmo
    have ht : p.g.threaded = true := h.threaded (by rw [hm]; simp)
    by_cases hlt : (i : Int) < p.g.numthreads
    · by_cases hpi : p.pcs[i]? = some Pc.finished
      · refine ⟨{ p with main := .join (i + 1), trace := p.trace ++ [Event.threadJoin i] },
          by simp [mainStep, hm, hlt, hpi], ?_, ?_⟩
        · refine ⟨h.workcount_eq, h.numthreads_eq, h.dispatch_nonneg, h.dispatch_le, h.n_le,
            fun _ => ht, h.free, h.held, ?_, h.finished_exhausted, ?_, ?_⟩
          · simp only [workIndices_append]
            have : workIndices [Event.threadJoin i] = [] := rfl
            rw [this, List.append_nil]
            exact h.served
          · simp only [handleWrites_append]
            have : handleWrites [Event.threadJoin i] = [] := rfl
            rw [this, List.append_nil]
            exact h.handles
          · show MainOk T (MainPc.join (i + 1)) p.pcs
            refine ⟨hlen, by omega, ?_⟩
            intro j hj
            by_cases hji : j = i
            · subst hji
              exact hpi
            · exact hfin j (by omega)
        · intro _ _
          simp only [Pool.cost, MainPc.cost, hm]
          have : i < p.g.numthreads.toNat := by omega
          omega
      · refine ⟨p, by simp [mainStep, hm, hlt, hpi], h, ?_⟩
        intro hall _
        exfalso
        have hi : i < p.pcs.length := by omega
        have hget : p.pcs[i]? = some p.pcs[i] := List.getElem?_eq_getElem hi
        have := hall _ (List.getElem?_mem hget)
        rw [this] at hget
        exact hpi hget
    · refine ⟨{ p with g := { p.g with threaded := false }, main := .returned,
                       trace := p.trace ++ [Event.setThreaded false] },
        by simp [mainStep, hm, hlt], ?_, ?_⟩
      · refine ⟨h.workcount_eq, h.numthreads_eq, h.dispatch_nonneg, h.dispatch_le, h.n_le,
          fun hx => absurd rfl hx, h.free, ?_, ?_, h.finished_exhausted, ?_, ?_⟩
        · intro hc
          exact Holder_congr n p.g _ _ (h.held hc) rfl rfl
        · simp only [workIndices_append]
          have : workIndices [Event.setThreaded false] = [] := rfl
          rw [this, List.append_nil]
          exact h.served
        · simp only [handleWrites_append]
          have : handleWrites [Event.setThreaded false] = [] := rfl
          rw [this, List.append_nil]
          exact h.handles
        · show MainOk T MainPc.returned p.pcs
          refine ⟨hlen, ?_⟩
          intro pc hpc
          obtain ⟨j, hj⟩ := List.mem_iff_getElem?.mp hpc
          have hjl : j < p.pcs.length := by
            by_contra hge
            rw [List.getElem?_eq_none (by omega)] at hj
            cases hj
          have := hfin j (by omega)
          rw [this] at hj
          exact (Option.some.inj hj).symm
      · intro _ _
        simp only [Pool.cost, MainPc.cost, hm]
        omega
  | returned =>
    refine ⟨p, by simp [mainStep, hm], h, ?_⟩
    intro _ hne
    exact absurd rfl hne

/-- Every step of every thread keeps the invariant and stops with no fault. -/
theorem poolStep_inv (n T : Int) (t : Tid) (p : Pool) (h : PoolInv n T p) :
    ∃ p1, poolStep t p = .ok p1 ∧ PoolInv n T p1 := by
  cases t with
  | main =>
    obtain ⟨p1, h1, h2, -⟩ := mainStep_inv n T p h
    exact ⟨p1, h1, h2⟩
  | worker i =>
    obtain ⟨p1, h1, h2, -⟩ := workerStep_inv n T i p h
    exact ⟨p1, h1, h2⟩

/-- Under every schedule the pool runs with no fault and keeps the invariant. -/
theorem runPool_inv (n T : Int) (sched : List Tid) (p : Pool) (h : PoolInv n T p) :
    ∃ p1, runPool sched p = .ok p1 ∧ PoolInv n T p1 := by
  induction sched generalizing p with
  | nil => exact ⟨p, rfl, h⟩
  | cons t sched ih =>
    obtain ⟨p1, h1, h2⟩ := poolStep_inv n T t p h
    obtain ⟨p2, h3, h4⟩ := ih p1 h2
    exact ⟨p2, by simp only [runPool, h1, h3], h4⟩

/-! ## The pool: complete runs -/

/-- While the calling thread has not left, some thread can make a step that
lowers the cost: the pool cannot block. -/
theorem pool_progress (n T : Int) (p : Pool) (h : PoolInv n T p)
    (hm : p.main ≠ MainPc.returned) :
    ∃ t p1, poolStep t p = .ok p1 ∧ PoolInv n T p1 ∧ p1.cost < p.cost := by
  by_cases hall : ∀ pc ∈ p.pcs, pc = Pc.finished
  · obtain ⟨p1, h1, h2, h3⟩ := mainStep_inv n T p h
    exact ⟨Tid.main, p1, h1, h2, h3 hall hm⟩
  · push_neg at hall
    obtain ⟨pc, hmem, hne⟩ := hall
    obtain ⟨i, hi⟩ := List.mem_iff_getElem?.mp hmem
    cases hcr : p.g.crit with
    | true =>
      obtain ⟨j, pcj, hj, hin, -, -⟩ := h.held hcr
      obtain ⟨p1, h1, h2, h3⟩ := workerStep_inv n T j p h
      refine ⟨Tid.worker j, p1, h1, h2, h3 pcj hj ?_ ?_⟩
      · intro hx
        rw [hx] at hin
        cases hin
      · intro hx
        rw [hx] at hin
        cases hin
    | false =>
      obtain ⟨p1, h1, h2, h3⟩ := workerStep_inv n T i p h
      exact ⟨Tid.worker i, p1, h1, h2, h3 pc hi hne (fun _ => hcr)⟩

theorem runPool_cons (t : Tid) (sched : List Tid) (p p1 : Pool) (h : poolStep t p = .ok p1) :
    runPool (t :: sched) p = runPool sched p1 := by
  simp only [runPool, h]

/-- Some schedule brings the pool to the return of the calling thread. -/
theorem pool_completes (n T : Int) (c : Nat) (p : Pool) (h : PoolInv n T p) (hc : p.cost ≤ c) :
    ∃ sched p1, runPool sched p = .ok p1 ∧ PoolInv n T p1 ∧ p1.main = MainPc.returned := by
  induction c generalizing p with
  | zero =>
    by_cases hm : p.main = MainPc.returned
    · exact ⟨[], p, rfl, h, hm⟩
    · obtain ⟨t, p1, -, -, h3⟩ := pool_progress n T p h hm
      omega
  | succ c ih =>
    by_cases hm : p.main = MainPc.returned
    · exact ⟨[], p, rfl, h, hm⟩
    · obtain ⟨t, p1, h1, h2, h3⟩ := pool_progress n T p h hm
      obtain ⟨sched, p2, h4, h5, h6⟩ := ih p1 h2 (by omega)
      exact ⟨t :: sched, p2, by rw [runPool_cons t sched p p1 h1]; exact h4, h5, h6⟩

/-- The pool just started by `RunThreadsOnIndividual` with the lock free
satisfies the invariant. -/
theorem PoolInv_start (n : Int) (showpacifier : Bool) (s : State) (h0 : 0 ≤ n)
    (h1 : n ≤ INT_MAX) (hc : s.crit = false) (he : s.enter = false) :
    PoolInv n s.numthreads (Pool.start (resetRun n showpacifier s)) := by
  refine ⟨rfl, rfl, le_refl _, h0, h1, fun _ => rfl, ?_, ?_, ?_, ?_, ?_, ?_⟩
  · intro _
    refine ⟨he, ?_⟩
    intro pc hpc
    simp [Pool.start] at hpc
  · intro hx
    have : (Pool.start (resetRun n showpacifier s)).g.crit = s.crit := rfl
    rw [this, hc] at hx
    cases hx
  · simp [Pool.start, resetRun, workIndices, workCalls, Event.workCall, pendings, unitIndices]
  · simp [Pool.start]
  · simp [Pool.start, handleWrites, Event.handleWrite]
  · show MainOk s.numthreads (MainPc.spawn 0) []
    exact ⟨rfl, Nat.zero_le _⟩

/-- When the calling thread has left a pool of at least one thread, the callback
has received every index exactly once. -/
theorem PoolInv_returned (n T : Int) (p : Pool) (h : PoolInv n T p) (hT : 1 ≤ T)
    (hm : p.main = MainPc.returned) :
    (workIndices p.trace).Perm (unitIndices n.toNat) := by
  have hmo := h.main_ok
  rw [hm] at hmo
  obtain ⟨hlen, hall⟩ := hmo
  have hpend : pendings p.pcs = [] := by
    unfold pendings
    rw [List.filterMap_eq_nil_iff]
    intro pc hpc
    rw [hall pc hpc]
    rfl
  have hne : p.pcs ≠ [] := by
    intro hnil
    rw [hnil] at hlen
    simp at hlen
    omega
  obtain ⟨pc, hpc⟩ := List.exists_mem_of_ne_nil _ hne
  have hd : p.g.dispatch = n := h.finished_exhausted (by rw [← hall pc hpc]; exact hpc)
  have := h.served
  rw [hpend, List.append_nil, hd] at this
  exact this

/-- When the calling thread has left the pool, the mutex is unlocked and the flag
is clear. -/
theorem PoolInv_returned_free (n T : Int) (p : Pool) (h : PoolInv n T p)
    (hm : p.main = MainPc.returned) : p.g.crit = false ∧ p.g.enter = false := by
  have hmo := h.main_ok
  rw [hm] at hmo
  obtain ⟨-, hall⟩ := hmo
  cases hcr : p.g.crit with
  | false => exact ⟨rfl, (h.free hcr).1⟩
  | true =>
    obtain ⟨j, pcj, hj, hin, -, -⟩ := h.held hcr
    rw [hall pcj (List.getElem?_mem hj)] at hin
    cases hin

/-- Every handle written by a pool of at most `MAX_THREADS` threads is inside the
array `threads`. -/
theorem PoolInv_handles (n T : Int) (p : Pool) (h : PoolInv n T p) (hT : T ≤ MAX_THREADS) :
    ∀ i ∈ handleWrites p.trace, i < MAX_THREADS := by
  intro i hi
  rw [h.handles, List.mem_range] at hi
  have hmo := h.main_ok
  have hlen : p.pcs.length ≤ T.toNat := by
    cases hm : p.main with
    | spawn k =>
      rw [hm] at hmo
      obtain ⟨h1, h2⟩ := hmo
      omega
    | join k =>
      rw [hm] at hmo
      exact le_of_eq hmo.1
    | returned =>
      rw [hm] at hmo
      exact le_of_eq hmo.1
  have : T.toNat ≤ MAX_THREADS := by
    have : ((MAX_THREADS : Nat) : Int) = 64 := rfl
    omega
  omega

/-- With too small a budget the worker loop stops the model, nothing else. -/
theorem workerLoop_fuel (tid : Tid) (threadnum : Int) (fuel : Nat) (s : State)
    (hc : Counting s) (hf : fuel ≤ (s.workcount - s.dispatch).toNat) :
    workerLoop tid threadnum fuel s = .error .fuelExhausted := by
  induction fuel generalizing s with
  | zero => rfl
  | succ k ih =>
    obtain ⟨s1, ev, hg, hc1, hw1, hd1, -⟩ := GetThreadWork_counting s hc
    have hlt : s.dispatch < s.workcount := by omega
    simp only [hlt, if_true] at hg hd1
    have hne : s.dispatch ≠ -1 := by
      have := hc.2.1
      omega
    have hrec := ih s1 hc1 (by rw [hw1, hd1]; omega)
    simp only [workerLoop, hg, hne, if_false, hrec]

theorem lock_not_emission (e : Event) (h : e.isLockEvent = true) : e.isEmission = false := by
  cases e <;> simp_all [Event.isLockEvent, Event.isEmission]

theorem lock_not_numeral (e : Event) (h : e.isLockEvent = true) : e.isNumeral = false := by
  cases e <;> simp_all [Event.isLockEvent, Event.isNumeral]

theorem lock_not_filler (e : Event) (h : e.isLockEvent = true) : e.isFiller = false := by
  cases e <;> simp_all [Event.isLockEvent, Event.isFiller]

theorem lock_numeralStep (e : Event) (h : e.isLockEvent = true) : e.numeralStep = none := by
  cases e <;> simp_all [Event.isLockEvent, Event.numeralStep]

theorem lock_fillerStep (e : Event) (h : e.isLockEvent = true) : e.fillerStep = none := by
  cases e <;> simp_all [Event.isLockEvent, Event.fillerStep]

/-- Result of the complete run of 100 units with the pacifier: the 101 calls
return `0, ..., 99, -1` and the progress output is `progressRun`. -/
theorem pulls_100 (s : State) (hl : LockFree s) :
    ∃ s1 ev, pulls 101 (resetRun 100 true s) = .ok (unitIndices 100 ++ [-1], s1, ev)
      ∧ ev.filter (fun e => !e.isLockEvent) = progressRun 101 0 100 (-1) true := by
  have hc := Counting_resetRun s 100 true hl (by decide) (by decide)
  obtain ⟨s1, ev, hp, -⟩ := pulls_counting 101 _ hc
  have hpr := pulls_progress 101 _ hc _ s1 ev hp
  refine ⟨s1, ev, ?_, ?_⟩
  · rw [hp]
    simp only [resetRun]
    congr 2
  · simpa [resetRun] using hpr

/-! ## Frame facts, valid in every state -/

/-- The four ways in which `ThreadLock` ends. -/
theorem ThreadLock_cases (s : State) :
    (s.threaded = false ∧ ThreadLock s = .ok (s, [.lockCall]))
      ∨ (s.threaded = true ∧ s.crit = true ∧ ThreadLock s = .error .blocked)
      ∨ (s.threaded = true ∧ s.crit = false ∧ s.enter = true
          ∧ ThreadLock s = .error (.fatal "Recursive ThreadLock\n"))
      ∨ (s.threaded = true ∧ s.crit = false ∧ s.enter = false
          ∧ ThreadLock s = .ok ({ s with crit := true, enter := true }, [.lockCall, .critLock])) := by
  obtain ⟨nt, th, d, w, o, pc, c, e⟩ := s
  cases th <;> cases c <;> cases e <;> simp [ThreadLock, crit_lock, enter_set]

/-- The four ways in which `ThreadUnlock` ends. -/
theorem ThreadUnlock_cases (s : State) :
    (s.threaded = false ∧ ThreadUnlock s = .ok (s, [.unlockCall]))
      ∨ (s.threaded = true ∧ s.enter = false
          ∧ ThreadUnlock s = .error (.fatal "ThreadUnlock without lock\n"))
      ∨ (s.threaded = true ∧ s.enter = true ∧ s.crit = false
          ∧ ThreadUnlock s = .error .unlockOfFree)
      ∨ (s.threaded = true ∧ s.enter = true ∧ s.crit = true
          ∧ ThreadUnlock s = .ok ({ s with crit := false, enter := false },
              [.unlockCall, .critUnlock])) := by
  obtain ⟨nt, th, d, w, o, pc, c, e⟩ := s
  cases th <;> cases c <;> cases e <;> simp [ThreadUnlock, crit_unlock, enter_clear]

theorem ThreadLock_frame (s s1 : State) (ev : List Event) (h : ThreadLock s = .ok (s1, ev)) :
    s1.numthreads = s.numthreads ∧ s1.threaded = s.threaded
      ∧ (s.threaded = false → s1.enter = s.enter)
      ∧ ∀ e ∈ ev, e.isPullEvent = true := by
  rcases ThreadLock_cases s with ⟨ht, hr⟩ | ⟨ht, -, hr⟩ | ⟨ht, -, -, hr⟩ | ⟨ht, -, -, hr⟩ <;>
    rw [hr] at h
  · injection h with h; injection h with h h2; subst h h2
    refine ⟨rfl, rfl, fun _ => rfl, ?_⟩
    intro e he
    simp at he
    subst he
    rfl
  · cases h
  · cases h
  · injection h with h; injection h with h h2; subst h h2
    refine ⟨rfl, rfl, fun hf => ?_, ?_⟩
    · rw [hf] at ht; cases ht
    · intro e he
      simp at he
      rcases he with he | he <;> subst he <;> rfl

theorem ThreadUnlock_frame (s s1 : State) (ev : List Event) (h : ThreadUnlock s = .ok (s1, ev)) :
    s1.numthreads = s.numthreads ∧ s1.threaded = s.threaded
      ∧ (s.threaded = true → s1.enter = false)
      ∧ (s.threaded = false → s1.enter = s.enter)
      ∧ ∀ e ∈ ev, e.isPullEvent = true := by
  rcases ThreadUnlock_cases s with ⟨ht, hr⟩ | ⟨ht, -, hr⟩ | ⟨ht, -, -, hr⟩ | ⟨ht, -, -, hr⟩ <;>
    rw [hr] at h
  · injection h with h; injection h with h h2; subst h h2
    refine ⟨rfl, rfl, fun hf => ?_, fun _ => rfl, ?_⟩
    · rw [hf] at ht; cases ht
    · intro e he
      simp at he
      subst he
      rfl
  · cases h
  · cases h
  · injection h with h; injection h with h h2; subst h h2
    refine ⟨rfl, rfl, fun _ => rfl, fun hf => ?_, ?_⟩
    · rw [hf] at ht; cases ht
    · intro e he
      simp at he
      rcases he with he | he <;> subst he <;> rfl

/-- A call of `showProgress` that returns changes `oldf` only and prints progress
output only. -/
theorem showProgress_ok (s s1 : State) (ev : List Event) (h : showProgress s = .ok (s1, ev)) :
    divisionFault s.dispatch s.workcount = none
      ∧ s1 = { s with oldf := stepOf s.dispatch s.workcount }
      ∧ ev = (progressReport (stepOf s.dispatch s.workcount) s.pacifier s.oldf).2 := by
  unfold showProgress at h
  split at h
  · cases h
  · rename_i hd
    simp only at h
    injection h with h; injection h with h h2
    subst h h2
    refine ⟨hd, ?_, rfl⟩
    rw [progressReport_oldf]

theorem GetThreadWorkLocked_frame (s s1 : State) (r : Int) (ev : List Event)
    (h : GetThreadWorkLocked s = .ok (r, s1, ev)) :
    s1.numthreads = s.numthreads ∧ s1.threaded = s.threaded
      ∧ (s.threaded = true → s1.enter = false)
      ∧ (s.threaded = false → s1.enter = s.enter)
      ∧ ∀ e ∈ ev, e.isPullEvent = true := by
  unfold GetThreadWorkLocked at h
  split at h
  · split at h
    · cases h
    · rename_i s2 ev2 hu
      injection h with h; injection h with _ h; injection h with h h2; subst h h2
      exact ThreadUnlock_frame _ _ _ hu
  · split at h
    · cases h
    · rename_i s2 ev2 hs
      obtain ⟨-, hs2, hev2⟩ := showProgress_ok _ _ _ hs
      simp only at h
      split at h
      · cases h
      · rename_i s3 ev3 hu
        injection h with h; injection h with _ h; injection h with h h2; subst h h2
        obtain ⟨a1, a2, a3, a4, a5⟩ := ThreadUnlock_frame _ _ _ hu
        subst hs2
        refine ⟨a1, a2, a3, a4, ?_⟩
        intro e he
        rcases List.mem_append.mp he with h3 | h3
        · rw [hev2] at h3
          exact isPullEvent_of_isProgress e (progressReport_events _ _ _ e h3)
        · exact a5 e h3

/-- In every state, a call of `GetThreadWork` that returns leaves `numthreads` and
`threaded` as they were, keeps `enter == false`, and produces only lock events and
progress output. -/
theorem GetThreadWork_frame (s s1 : State) (r : Int) (ev : List Event)
    (h : GetThreadWork s = .ok (r, s1, ev)) :
    s1.numthreads = s.numthreads ∧ s1.threaded = s.threaded
      ∧ (s.enter = false → s1.enter = false)
      ∧ ∀ e ∈ ev, e.isPullEvent = true := by
  unfold GetThreadWork at h
  split at h
  · cases h
  · rename_i s2 ev2 hl
    split at h
    · cases h
    · rename_i r3 s3 ev3 hg
      injection h with h; injection h with _ h; injection h with h h2; subst h h2
      obtain ⟨a1, a2, a3, a4⟩ := ThreadLock_frame _ _ _ hl
      obtain ⟨b1, b2, b3, b4, b5⟩ := GetThreadWorkLocked_frame _ _ _ _ hg
      refine ⟨by rw [b1, a1], by rw [b2, a2], ?_, ?_⟩
      · intro he
        cases hth : s.threaded
        · rw [b4 (by rw [a2, hth]), a3 hth, he]
        · exact b3 (by rw [a2, hth])
      · intro e he
        rcases List.mem_append.mp he with h3 | h3
        · exact a4 e h3
        · exact b5 e h3

theorem heldAtWork_pull (ev : List Event) (h : ∀ e ∈ ev, e.isPullEvent = true) :
    heldAtWork ev = [] := by
  unfold heldAtWork
  rw [List.filterMap_eq_nil_iff]
  intro e he
  have hp := h e he
  cases e <;> first | rfl | (simp [Event.isPullEvent] at hp)

/-- In every state with `enter == false`, a run of the worker loop that returns
has called the callback only with `enter == false`, and leaves `numthreads`,
`threaded` and `enter == false`. -/
theorem workerLoop_frame (tid : Tid) (threadnum : Int) (fuel : Nat) (s s1 : State)
    (ev : List Event) (h : workerLoop tid threadnum fuel s = .ok (s1, ev)) :
    s1.numthreads = s.numthreads ∧ s1.threaded = s.threaded
      ∧ (s.enter = false → s1.enter = false ∧ ∀ b ∈ heldAtWork ev, b = false) := by
  induction fuel generalizing s s1 ev with
  | zero => cases h
  | succ k ih =>
    unfold workerLoop at h
    split at h
    · cases h
    · rename_i w s2 ev2 hg
      obtain ⟨a1, a2, a3, a4⟩ := GetThreadWork_frame _ _ _ _ hg
      have hq := heldAtWork_pull ev2 a4
      split at h
      · injection h with h; injection h with h h2; subst h h2
        refine ⟨a1, a2, fun he => ⟨a3 he, ?_⟩⟩
        rw [hq]
        simp
      · split at h
        · cases h
        · rename_i s3 ev3 hw
          injection h with h; injection h with h h2; subst h h2
          obtain ⟨b1, b2, b3⟩ := ih _ _ _ hw
          refine ⟨by rw [b1, a1], by rw [b2, a2], fun he => ?_⟩
          obtain ⟨c1, c2⟩ := b3 (a3 he)
          refine ⟨c1, ?_⟩
          intro b hb
          unfold heldAtWork at hb hq c2
          rw [List.filterMap_append, List.filterMap_append, hq] at hb
          simp only [List.nil_append, List.filterMap_cons, Event.workHeld, List.filterMap_nil,
            List.singleton_append, List.mem_cons] at hb
          rcases hb with hb | hb
          · rw [hb]; exact a3 he
          · exact c2 b hb

theorem workerStep_numthreads (i : Nat) (p p1 : Pool) (h : workerStep i p = .ok p1) :
    p1.g.numthreads = p.g.numthreads := by
  cases hpc : p.pcs[i]? with
  | none =>
    simp only [workerStep, hpc] at h
    injection h with h; subst h; rfl
  | some pc =>
    cases pc with
    | entry =>
      simp only [workerStep, hpc] at h
      injection h with h; subst h; rfl
    | atLock =>
      cases ht : p.g.threaded <;> cases hcr : p.g.crit <;>
        simp [workerStep, hpc, crit_lock, ht, hcr] at h <;> subst h <;> rfl
    | locked =>
      cases he : p.g.enter <;> simp [workerStep, hpc, enter_set, he] at h
      subst h; rfl
    | inCrit =>
      simp only [workerStep, hpc] at h
      split at h <;> (injection h with h; subst h; rfl)
    | working =>
      simp only [workerStep, hpc] at h
      split at h
      · cases h
      · rename_i g1 ev hs
        injection h with h; subst h
        rw [(showProgress_ok _ _ _ hs).2.1]
    | reported =>
      simp only [workerStep, hpc] at h
      injection h with h; subst h; rfl
    | fetched r =>
      simp only [workerStep, hpc] at h
      injection h with h; subst h; rfl
    | unlocking r =>
      cases ht : p.g.threaded <;> cases he : p.g.enter <;>
        simp [workerStep, hpc, enter_clear, ht, he] at h <;> subst h <;> rfl
    | releasing r =>
      cases hcr : p.g.crit <;> simp [workerStep, hpc, crit_unlock, hcr] at h
      subst h; rfl
    | gotWork r =>
      simp only [workerStep, hpc] at h
      injection h with h; subst h; rfl
    | finished =>
      simp only [workerStep, hpc] at h
      injection h with h; subst h; rfl

theorem mainStep_numthreads (p p1 : Pool) (h : mainStep p = .ok p1) :
    p1.g.numthreads = p.g.numthreads := by
  unfold mainStep at h
  split at h
  · split at h <;> (injection h with h; subst h; rfl)
  · split at h
    · split at h <;> (injection h with h; subst h; rfl)
    · injection h with h; subst h; rfl
  · injection h with h; subst h; rfl

theorem runPool_numthreads (sched : List Tid) (p p1 : Pool) (h : runPool sched p = .ok p1) :
    p1.g.numthreads = p.g.numthreads := by
  induction sched generalizing p with
  | nil =>
    simp only [runPool] at h
    injection h with h; subst h; rfl
  | cons t sched ih =>
    unfold runPool at h
    split at h
    · cases h
    · rename_i p2 hs
      rw [ih _ h]
      cases t with
      | main => exact mainStep_numthreads _ _ hs
      | worker i => exact workerStep_numthreads _ _ _ hs

/-- In every state, a call of `RunThreadsOn` that returns leaves `numthreads` as
it was. -/
theorem RunThreadsOn_numthreads (fuel : Nat) (sched : List Tid) (s s1 : State)
    (ev : List Event) (h : RunThreadsOn fuel sched s = .ok (s1, ev)) :
    s1.numthreads = s.numthreads := by
  unfold RunThreadsOn at h
  split at h
  · unfold ThreadWorkerFunction at h
    split at h
    · cases h
    · rename_i s2 ev2 hw
      injection h with h; injection h with h _; subst h
      exact (workerLoop_frame _ _ _ _ _ _ hw).1
  · split at h
    · cases h
    · rename_i p hp
      split at h
      · injection h with h; injection h with h _; subst h
        exact runPool_numthreads _ _ _ hp
      · cases h

/-! ## Outcome of a run -/

/-- In every state, a call of `GetThreadWork` that returns leaves the mutex as it
found it. -/
theorem GetThreadWork_crit (s s1 : State) (r : Int) (ev : List Event)
    (h : GetThreadWork s = .ok (r, s1, ev)) : s1.crit = s.crit := by
  unfold GetThreadWork at h
  split at h
  · cases h
  · rename_i s2 ev2 hl
    split at h
    · cases h
    · rename_i r3 s3 ev3 hg
      injection h with h; injection h with _ h; injection h with h h2; subst h h2
      have hu : ∀ (t t1 : State) (evu : List Event), ThreadUnlock t = .ok (t1, evu) →
          (t.threaded = true → t1.crit = false) ∧ (t.threaded = false → t1.crit = t.crit) := by
        intro t t1 evu hu
        rcases ThreadUnlock_cases t with ⟨ht, hr⟩ | ⟨ht, -, hr⟩ | ⟨ht, -, -, hr⟩ | ⟨ht, -, -, hr⟩ <;>
          rw [hr] at hu
        · injection hu with hu; injection hu with hu _; subst hu
          exact ⟨fun hx => (by rw [ht] at hx; cases hx), fun _ => rfl⟩
        · cases hu
        · cases hu
        · injection hu with hu; injection hu with hu _; subst hu
          exact ⟨fun _ => rfl, fun hx => (by rw [ht] at hx; cases hx)⟩
      have hgl : (s2.threaded = true → s3.crit = false)
          ∧ (s2.threaded = false → s3.crit = s2.crit) := by
        unfold GetThreadWorkLocked at hg
        split at hg
        · split at hg
          · cases hg
          · rename_i t1 evu hx
            injection hg with hg; injection hg with _ hg; injection hg with hg _; subst hg
            exact hu _ _ _ hx
        · split at hg
          · cases hg
          · rename_i t0 ev0 hs
            obtain ⟨-, hs2, -⟩ := showProgress_ok _ _ _ hs
            simp only at hg
            split at hg
            · cases hg
            · rename_i t1 evu hx
              injection hg with hg; injection hg with _ hg; injection hg with hg _; subst hg
              subst hs2
              have hx2 := hu _ _ _ hx
              exact hx2
      rcases ThreadLock_cases s with ⟨ht, hr⟩ | ⟨ht, -, hr⟩ | ⟨ht, -, -, hr⟩ | ⟨ht, hc, -, hr⟩ <;>
        rw [hr] at hl
      · injection hl with hl; injection hl with hl _; subst hl
        exact hgl.2 ht
      · cases hl
      · cases hl
      · injection hl with hl; injection hl with hl _; subst hl
        rw [hgl.1 ht, hc]

/-- In every state, a run of the worker loop that returns leaves the mutex as it
found it. -/
theorem workerLoop_crit (tid : Tid) (threadnum : Int) (fuel : Nat) (s s1 : State)
    (ev : List Event) (h : workerLoop tid threadnum fuel s = .ok (s1, ev)) :
    s1.crit = s.crit := by
  induction fuel generalizing s s1 ev with
  | zero => cases h
  | succ k ih =>
    unfold workerLoop at h
    split at h
    · cases h
    · rename_i w s2 ev2 hg
      have a := GetThreadWork_crit _ _ _ _ hg
      split at h
      · injection h with h; injection h with h _; subst h
        exact a
      · split at h
        · cases h
        · rename_i s3 ev3 hw
          injection h with h; injection h with h _; subst h
          rw [ih _ _ _ hw, a]

/-- Outcome of `RunThreadsOn` after the reset, for `0 ≤ n`, between 1 and
`MAX_THREADS` threads and the lock free: under every budget and schedule it raises
no fault; when it returns the counter is exhausted at `n`, the lock is free,
`numthreads` is as before, the callback has received a permutation of
`0, ..., n - 1` and every handle written is inside the array; and it can return. -/
theorem RunThreadsOn_outcome (n : Int) (showpacifier : Bool) (s : State) (h0 : 0 ≤ n)
    (h1 : n ≤ INT_MAX) (hT : 1 ≤ s.numthreads) (hM : s.numthreads ≤ MAX_THREADS)
    (hcr : s.crit = false) (he : s.enter = false) :
    (∀ fuel sched,
        RunThreadsOn fuel sched (resetRun n showpacifier s) = .error .fuelExhausted
        ∨ ∃ s1 ev, RunThreadsOn fuel sched (resetRun n showpacifier s) = .ok (s1, ev)
            ∧ s1.dispatch = n ∧ s1.workcount = n ∧ s1.crit = false ∧ s1.enter = false
            ∧ s1.numthreads = s.numthreads
            ∧ (workIndices ev).Perm (unitIndices n.toNat)
            ∧ ∀ i ∈ handleWrites ev, i < MAX_THREADS)
      ∧ ∃ fuel sched s1 ev,
          RunThreadsOn fuel sched (resetRun n showpacifier s) = .ok (s1, ev) := by
  have hl : LockFree s := fun _ => ⟨hcr, he⟩
  have hc := Counting_resetRun s n showpacifier hl h0 h1
  by_cases h1t : s.numthreads = 1
  · have hnt2 : (resetRun n showpacifier s).numthreads = 1 := by simpa [resetRun] using h1t
    have hok : ∀ fuel sched, n.toNat < fuel →
        ∃ s1 ev, RunThreadsOn fuel sched (resetRun n showpacifier s) = .ok (s1, ev)
          ∧ s1.dispatch = n ∧ s1.workcount = n ∧ s1.crit = false ∧ s1.enter = false
          ∧ s1.numthreads = s.numthreads
          ∧ (workIndices ev).Perm (unitIndices n.toNat)
          ∧ ∀ i ∈ handleWrites ev, i < MAX_THREADS := by
      intro fuel sched hf
      have hf2 : ((resetRun n showpacifier s).workcount
          - (resetRun n showpacifier s).dispatch).toNat < fuel := by simpa [resetRun] using hf
      obtain ⟨s1, ev, hl1, c1, c2, -, -, e1, e2, -, e4, -, e6⟩ :=
        workerLoop_spec Tid.main 0 fuel _ hc hf2
      have e7 := workerLoop_crit _ _ _ _ _ _ hl1
      refine ⟨s1, Event.workerStart Tid.main 0 :: ev, ?_, e1, e2, by rw [e7]; exact hcr,
        by rw [e4]; exact he, e6, ?_, ?_⟩
      · simp only [RunThreadsOn, hnt2, if_true, ThreadWorkerFunction, hl1]
      · have hcons : workIndices (Event.workerStart Tid.main 0 :: ev) = workIndices ev := rfl
        rw [hcons]
        unfold workIndices
        rw [c1]
        have : List.map (fun (c : Tid × Int × Int) => c.2.2)
            (List.map (fun (k : Nat) => (Tid.main, (0 : Int),
              (resetRun n showpacifier s).dispatch + (k : Int)))
              (List.range ((resetRun n showpacifier s).workcount
                - (resetRun n showpacifier s).dispatch).toNat)) = unitIndices n.toNat := by
          simp only [List.map_map, resetRun, sub_zero, unitIndices]
          apply List.map_congr_left
          intro k _
          simp
        rw [this]
      · have hcons : handleWrites (Event.workerStart Tid.main 0 :: ev) = handleWrites ev := rfl
        rw [hcons, c2]
        intro i hi
        cases hi
    constructor
    · intro fuel sched
      by_cases hf : n.toNat < fuel
      · exact Or.inr (hok fuel sched hf)
      · left
        have hf2 : fuel ≤ ((resetRun n showpacifier s).workcount
            - (resetRun n showpacifier s).dispatch).toNat := by
          simp only [resetRun, sub_zero]
          omega
        have := workerLoop_fuel Tid.main 0 fuel _ hc hf2
        simp only [RunThreadsOn, hnt2, if_true, ThreadWorkerFunction, this]
    · obtain ⟨s1, ev, hr, -⟩ := hok (n.toNat + 1) [] (Nat.lt_succ_self _)
      exact ⟨_, _, s1, ev, hr⟩
  · have hnt2 : ¬ (resetRun n showpacifier s).numthreads = 1 := by simpa [resetRun] using h1t
    have hinv := PoolInv_start n showpacifier s h0 h1 hcr he
    constructor
    · intro fuel sched
      obtain ⟨p1, hrun, hp1⟩ := runPool_inv n s.numthreads sched _ hinv
      by_cases hm : p1.main = MainPc.returned
      · right
        have hmo := hp1.main_ok
        rw [hm] at hmo
        obtain ⟨hlen, hall⟩ := hmo
        have hne : p1.pcs ≠ [] := by
          intro hnil
          rw [hnil] at hlen
          simp at hlen
          omega
        obtain ⟨pc, hpc⟩ := List.exists_mem_of_ne_nil _ hne
        have hd : p1.g.dispatch = n :=
          hp1.finished_exhausted (by rw [← hall pc hpc]; exact hpc)
        obtain ⟨hfc, hfe⟩ := PoolInv_returned_free n s.numthreads p1 hp1 hm
        refine ⟨p1.g, p1.trace, ?_, hd, hp1.workcount_eq, hfc, hfe, hp1.numthreads_eq,
          PoolInv_returned n s.numthreads p1 hp1 hT hm,
          PoolInv_handles n s.numthreads p1 hp1 hM⟩
        simp only [RunThreadsOn, hnt2, if_false, hrun, hm, if_true]
      · left
        simp only [RunThreadsOn, hnt2, if_false, hrun, hm]
    · obtain ⟨sched, p1, hrun, -, hm⟩ := pool_completes n s.numthreads _ _ hinv (le_refl _)
      refine ⟨0, sched, p1.g, p1.trace, ?_⟩
      simp only [RunThreadsOn, hnt2, if_false, hrun, hm, if_true]

/-- The state and the line printed by `ThreadSetDefault`: only `numthreads` can
change, and only when it was unset. -/
theorem ThreadSetDefault_shape (hw : Nat) (s : State) :
    ∃ x, (ThreadSetDefault hw s).1 = { s with numthreads := x }
      ∧ (ThreadSetDefault hw s).2 = [Event.printThreads x]
      ∧ (s.numthreads ≠ -1 → x = s.numthreads)
      ∧ (s.numthreads = -1 → x = wrap32 (max (hw % 4294967296) 1 : Nat)) := by
  unfold ThreadSetDefault
  dsimp only
  split
  · rename_i hu
    exact ⟨_, rfl, rfl, fun h => absurd hu h, fun _ => rfl⟩
  · rename_i hu
    refine ⟨s.numthreads, ?_, rfl, fun _ => rfl, fun h => absurd h hu⟩
    cases s
    rfl

/-- The state in which `RunThreadsOnIndividual` resets the counters: the entry
state with `numthreads` resolved; the events so far contain no callback and no
handle. -/
theorem entry_shape (hw : Nat) (s : State) :
    (if s.numthreads = -1 then ThreadSetDefault hw s else (s, [])).1
        = { s with numthreads := resolvedThreads hw s }
      ∧ (workIndices (if s.numthreads = -1 then ThreadSetDefault hw s else (s, [])).2 = []
        ∧ handleWrites (if s.numthreads = -1 then ThreadSetDefault hw s else (s, [])).2 = []) := by
  obtain ⟨x, h1, h2, -, -⟩ := ThreadSetDefault_shape hw s
  unfold resolvedThreads
  by_cases hu : s.numthreads = -1
  · rw [if_pos hu, if_pos hu, h1, h2]
    exact ⟨rfl, rfl, rfl⟩
  · rw [if_neg hu, if_neg hu]
    refine ⟨?_, rfl, rfl⟩
    cases s
    rfl

/-- The call `RunThreadsOnIndividual` is `RunThreadsOn` on the reset state with
`numthreads` resolved, between the events of `ThreadSetDefault` and the elapsed
time. -/
theorem RunThreadsOnIndividual_unfold (hw : Nat) (n : Int) (showpacifier : Bool) (s : State) :
    ∃ evd, (workIndices evd = [] ∧ handleWrites evd = []) ∧ ∀ fuel sched,
      RunThreadsOnIndividual hw fuel sched n showpacifier s =
        match RunThreadsOn fuel sched
            (resetRun n showpacifier { s with numthreads := resolvedThreads hw s }) with
        | .error e => .error e
        | .ok (s3, ev) =>
          .ok (s3, evd ++ ev ++ (if s3.pacifier then [Event.printElapsed] else [])) := by
  obtain ⟨hsh, hd2⟩ := entry_shape hw s
  refine ⟨(if s.numthreads = -1 then ThreadSetDefault hw s else (s, [])).2, hd2, ?_⟩
  intro fuel sched
  unfold RunThreadsOnIndividual
  dsimp only
  rw [hsh]

/-- Outcome of `RunThreadsOnIndividual` for `0 ≤ n` when the thread count, set or
resolved by `ThreadSetDefault`, is between 1 and `MAX_THREADS` and the lock is
free. -/
theorem RunThreadsOnIndividual_outcome (hw : Nat) (n : Int) (showpacifier : Bool) (s : State)
    (h0 : 0 ≤ n) (h1 : n ≤ INT_MAX) (hT : 1 ≤ resolvedThreads hw s)
    (hM : resolvedThreads hw s ≤ MAX_THREADS) (hcr : s.crit = false) (he : s.enter = false) :
    (∀ fuel sched,
        RunThreadsOnIndividual hw fuel sched n showpacifier s = .error .fuelExhausted
        ∨ ∃ s1 ev, RunThreadsOnIndividual hw fuel sched n showpacifier s = .ok (s1, ev)
            ∧ s1.dispatch = n ∧ s1.workcount = n ∧ s1.crit = false ∧ s1.enter = false
            ∧ s1.numthreads = resolvedThreads hw s
            ∧ (workIndices ev).Perm (unitIndices n.toNat)
            ∧ ∀ i ∈ handleWrites ev, i < MAX_THREADS)
      ∧ ∃ fuel sched s1 ev,
          RunThreadsOnIndividual hw fuel sched n showpacifier s = .ok (s1, ev) := by
  have htail : ∀ (b : Bool), workIndices (if b then [Event.printElapsed] else []) = [] := by
    intro b
    cases b <;> rfl
  have htail2 : ∀ (b : Bool), handleWrites (if b then [Event.printElapsed] else []) = [] := by
    intro b
    cases b <;> rfl
  obtain ⟨evd, hevd, hunf⟩ := RunThreadsOnIndividual_unfold hw n showpacifier s
  generalize resolvedThreads hw s = R at hT hM hunf ⊢
  obtain ⟨hall, hex⟩ :=
    RunThreadsOn_outcome n showpacifier { s with numthreads := R } h0 h1 hT hM hcr he
  constructor
  · intro fuel sched
    rcases hall fuel sched with hr | ⟨s1, ev, hr, a1, a2, a3, a4, a5, a6, a7⟩
    · left
      rw [hunf fuel sched, hr]
    · right
      refine ⟨s1, evd ++ ev ++ (if s1.pacifier then [Event.printElapsed] else []), ?_, a1, a2,
        a3, a4, a5, ?_, ?_⟩
      · rw [hunf fuel sched, hr]
      · rw [workIndices_append, workIndices_append, htail, hevd.1, List.append_nil,
          List.nil_append]
        exact a6
      · rw [handleWrites_append, handleWrites_append, htail2, hevd.2, List.append_nil,
          List.nil_append]
        exact a7
  · obtain ⟨fuel, sched, s1, ev, hr⟩ := hex
    exact ⟨fuel, sched, s1, evd ++ ev ++ (if s1.pacifier then [Event.printElapsed] else []),
      by rw [hunf fuel sched, hr]⟩

/-- In every state, a call of `RunThreadsOnIndividual` that returns leaves
`numthreads` at the value resolved on entry. -/
theorem RunThreadsOnIndividual_numthreads (hw fuel : Nat) (sched : List Tid) (n : Int)
    (showpacifier : Bool) (s s1 : State) (ev : List Event)
    (h : RunThreadsOnIndividual hw fuel sched n showpacifier s = .ok (s1, ev)) :
    s1.numthreads = resolvedThreads hw s := by
  obtain ⟨evd, -, hunf⟩ := RunThreadsOnIndividual_unfold hw n showpacifier s
  rw [hunf fuel sched] at h
  generalize resolvedThreads hw s = R at h ⊢
  split at h
  · cases h
  · rename_i s3 ev3 hr
    injection h with h; injection h with h _; subst h
    exact RunThreadsOn_numthreads _ _ _ _ _ hr

/-- Resolution of an unset count for a hardware concurrency in the `int` range. -/
theorem ThreadSetDefault_value (hw : Nat) (s : State) (hu : s.numthreads = -1)
    (hh : (hw : Int) ≤ INT_MAX) :
    (ThreadSetDefault hw s).1.numthreads = max (hw : Int) 1
      ∧ resolvedThreads hw s = max (hw : Int) 1 := by
  obtain ⟨x, h1, -, -, h4⟩ := ThreadSetDefault_shape hw s
  have hx : x = max (hw : Int) 1 := by
    rw [h4 hu]
    simp only [INT_MAX] at hh
    have hm : hw % 4294967296 = hw := Nat.mod_eq_of_lt (by omega)
    rw [hm]
    have hr : wrap32 ((max hw 1 : Nat) : Int) = ((max hw 1 : Nat) : Int) := by
      apply wrap32_of_range
      · simp only [INT_MIN]
        omega
      · simp only [INT_MAX]
        omega
    rw [hr]
    push_cast
    rfl
  have hv : (ThreadSetDefault hw s).1.numthreads = max (hw : Int) 1 := by
    rw [h1]
    exact hx
  refine ⟨hv, ?_⟩
  unfold resolvedThreads
  rw [if_pos hu]
  exact hv

/-! ## The progress scale along a run -/

/-- In the range without overflow the product is exact and `f` is the floor of
`40 * dispatch / workcount`, between 0 and 39. -/
theorem stepOf_in_range (w d : Int) (hw1 : 1 ≤ w) (hw2 : w ≤ 53687092) (hd0 : 0 ≤ d)
    (hd1 : d < w) :
    wrap32 (40 * d) = 40 * d ∧ stepOf d w = 40 * d / w ∧ 0 ≤ stepOf d w ∧ stepOf d w ≤ 39 := by
  have hprod : wrap32 (40 * d) = 40 * d := by
    apply wrap32_of_range <;> simp only [INT_MIN, INT_MAX] <;> omega
  have hq0 : 0 ≤ 40 * d / w := Int.ediv_nonneg (by omega) (by omega)
  have hq1 : 40 * d / w < 40 := Int.ediv_lt_of_lt_mul (by omega) (by nlinarith)
  have hstep : stepOf d w = 40 * d / w := by
    unfold stepOf
    rw [hprod, Int.tdiv_eq_ediv (by omega) (by omega)]
  refine ⟨hprod, hstep, ?_, ?_⟩
  · rw [hstep]; exact hq0
  · rw [hstep]; omega

/-- In the range without overflow `f` does not decrease when `dispatch` grows. -/
theorem stepOf_mono (w d d2 : Int) (hw1 : 1 ≤ w) (hw2 : w ≤ 53687092) (hd0 : 0 ≤ d)
    (hdd : d ≤ d2) (hd1 : d2 < w) : stepOf d w ≤ stepOf d2 w := by
  rw [(stepOf_in_range w d hw1 hw2 hd0 (by omega)).2.1,
    (stepOf_in_range w d2 hw1 hw2 (by omega) hd1).2.1]
  exact Int.ediv_le_ediv (by omega) (by omega)

theorem pulls_exhausted (m : Nat) (s : State) (hl : LockFree s)
    (h : s.dispatch = s.workcount) :
    ∃ ev, pulls m s = .ok (List.replicate m (-1), s, ev) := by
  have hg := GetThreadWork_exhausted s hl h
  induction m with
  | zero => exact ⟨[], rfl⟩
  | succ k ih =>
    obtain ⟨ev2, hp⟩ := ih
    exact ⟨(if s.threaded then
        [Event.lockCall, Event.critLock, Event.unlockCall, Event.critUnlock]
        else [Event.lockCall, Event.unlockCall]) ++ ev2,
      by simp only [pulls, hg, hp, List.replicate_succ]⟩

/-- Calls of `GetThreadWork` change only `dispatch` and `oldf`. -/
theorem pulls_frame (k : Nat) (s : State) (hc : Counting s) (rs : List Int) (s1 : State)
    (ev : List Event) (hp : pulls k s = .ok (rs, s1, ev)) :
    s1.workcount = s.workcount ∧ s1.threaded = s.threaded ∧ s1.enter = s.enter
      ∧ s1.pacifier = s.pacifier ∧ s1.numthreads = s.numthreads := by
  induction k generalizing s rs s1 ev with
  | zero =>
    simp only [pulls] at hp
    injection hp with hp
    injection hp with _ hp
    injection hp with hp _
    subst hp
    exact ⟨rfl, rfl, rfl, rfl, rfl⟩
  | succ k ih =>
    obtain ⟨t, ev1, hg, hc1, hw1, -, ht1, he1, hp1, hn1⟩ := GetThreadWork_counting s hc
    obtain ⟨t2, ev2, hp2, -⟩ := pulls_counting k t hc1
    obtain ⟨a1, a2, a3, a4, a5⟩ := ih t hc1 _ t2 ev2 hp2
    simp only [pulls, hg, hp2] at hp
    injection hp with hp
    injection hp with _ hp
    injection hp with hp _
    subst hp
    exact ⟨by rw [a1, hw1], by rw [a2, ht1], by rw [a3, he1], by rw [a4, hp1], by rw [a5, hn1]⟩

/-- Calls of `GetThreadWork` that return leave the mutex as they found it. -/
theorem pulls_crit (k : Nat) (s : State) (rs : List Int) (s1 : State) (ev : List Event)
    (hp : pulls k s = .ok (rs, s1, ev)) : s1.crit = s.crit := by
  induction k generalizing s rs s1 ev with
  | zero =>
    simp only [pulls] at hp
    injection hp with hp
    injection hp with _ hp
    injection hp with hp _
    subst hp
    rfl
  | succ k ih =>
    unfold pulls at hp
    split at hp
    · cases hp
    · rename_i r t ev1 hg
      split at hp
      · cases hp
      · rename_i rs2 t2 ev2 hp2
        injection hp with hp
        injection hp with _ hp
        injection hp with hp _
        subst hp
        rw [ih _ _ _ _ hp2, GetThreadWork_crit _ _ _ _ hg]

/-- After at least one call with work left, `oldf` is the `f` of the last call
that found work. -/
theorem pulls_oldf (k : Nat) (s : State) (hc : Counting s) (hlt : s.dispatch < s.workcount)
    (rs : List Int) (s1 : State) (ev : List Event) (hp : pulls (k + 1) s = .ok (rs, s1, ev)) :
    s1.oldf = stepOf (min (s.dispatch + ((k + 1 : Nat) : Int)) s.workcount - 1) s.workcount := by
  induction k generalizing s rs s1 ev with
  | zero =>
    obtain ⟨t, ev1, hg, -⟩ := GetThreadWork_counting s hc
    obtain ⟨-, ho, -⟩ := GetThreadWork_progress s hc _ t ev1 hg
    simp only [pulls, hg] at hp
    injection hp with hp
    injection hp with _ hp
    injection hp with hp _
    subst hp
    have hne : s.dispatch ≠ s.workcount := by omega
    rw [ho, if_neg hne]
    congr 1
    push_cast
    omega
  | succ k ih =>
    obtain ⟨t, ev1, hg, hc1, hw1, hd1, -⟩ := GetThreadWork_counting s hc
    obtain ⟨-, ho, -⟩ := GetThreadWork_progress s hc _ t ev1 hg
    have hne : s.dispatch ≠ s.workcount := by omega
    rw [if_neg hne] at ho
    rw [if_pos hlt] at hd1
    by_cases hex : t.dispatch = t.workcount
    · obtain ⟨ev2, hp2⟩ := pulls_exhausted (k + 1) t hc1.1 hex
      simp only [pulls, hg] at hp hp2
      rw [hp2] at hp
      injection hp with hp
      injection hp with _ hp
      injection hp with hp _
      subst hp
      rw [ho]
      congr 1
      push_cast
      omega
    · have hlt2 : t.dispatch < t.workcount := lt_of_le_of_ne hc1.2.2.1 hex
      obtain ⟨t2, ev2, hp2, -⟩ := pulls_counting (k + 1) t hc1
      have hrec := ih t hc1 hlt2 _ t2 ev2 hp2
      simp only [pulls, hg] at hp hp2
      rw [hp2] at hp
      injection hp with hp
      injection hp with _ hp
      injection hp with hp _
      subst hp
      rw [hrec, hw1, hd1]
      congr 1
      push_cast
      omega

/-- With the pacifier enabled each iteration of the loop makes one emission. -/
theorem progressLoop_emissions (fuel : Nat) (f oldf : Int) (h : (f - oldf).toNat ≤ fuel) :
    ((progressLoop fuel f true oldf).2.filter Event.isEmission).length = (f - oldf).toNat := by
  induction fuel generalizing oldf with
  | zero =>
    have : (f - oldf).toNat = 0 := by omega
    simp [progressLoop, this]
  | succ k ih =>
    unfold progressLoop
    by_cases hlt : f > oldf
    · simp only [hlt, if_true]
      rw [List.filter_append, List.length_append, ih (oldf + 1) (by omega)]
      have h1 : (List.filter Event.isEmission
          ((if Int.tmod (oldf + 1) 4 = 0 then [Event.numeral (oldf + 1) (Int.tdiv f 4)]
            else [Event.filler (oldf + 1)]) ++ [Event.flush])).length = 1 := by
        split <;> simp [List.filter, Event.isEmission]
      rw [h1]
      omega
    · simp only [hlt, if_false]
      have : (f - oldf).toNat = 0 := by omega
      simp [this]

/-- When `f` is not below `oldf` there is no warning and, with the pacifier
enabled, `f - oldf` emissions. -/
theorem progressReport_emissions (f oldf : Int) (h : oldf ≤ f) :
    ((progressReport f true oldf).2.filter Event.isEmission).length = (f - oldf).toNat
      ∧ ∀ pacifier, Event.warnBackwards ∉ (progressReport f pacifier oldf).2 := by
  have hn : ¬ f < oldf := by omega
  constructor
  · unfold progressReport
    simp only [hn, if_false, List.nil_append]
    exact progressLoop_emissions _ _ _ (le_refl _)
  · intro pacifier hmem
    unfold progressReport at hmem
    simp only [hn, if_false, List.nil_append] at hmem
    have hev : ∀ fuel o, Event.warnBackwards ∉ (progressLoop fuel f pacifier o).2 := by
      intro fuel
      induction fuel with
      | zero => intro o; simp [progressLoop]
      | succ k ih =>
        intro o
        unfold progressLoop
        by_cases hlt : f > o
        · simp only [hlt, if_true]
          intro hm
          rcases List.mem_append.mp hm with h1 | h1
          · cases pacifier
            · simp at h1
            · by_cases h4 : Int.tmod (o + 1) 4 = 0 <;> simp [h4] at h1
          · exact ih _ h1
        · simp [hlt]
    exact hev _ _ hmem

/-- Number of emissions of `k + 1` calls in the range without overflow, with the
pacifier enabled: the last `f` minus the starting `oldf`. -/
theorem progressRun_emissions (k : Nat) (d w o : Int) (hw1 : 1 ≤ w) (hw2 : w ≤ 53687092)
    (hd0 : 0 ≤ d) (hd1 : d < w) (ho : o ≤ stepOf d w) :
    ((progressRun (k + 1) d w o true).filter Event.isEmission).length
      = (stepOf (min (d + ((k + 1 : Nat) : Int)) w - 1) w - o).toNat := by
  induction k generalizing d o with
  | zero =>
    have hne : d ≠ w := by omega
    simp only [progressRun, hne, if_false, List.append_nil]
    rw [(progressReport_emissions _ _ ho).1]
    congr 3
    push_cast
    omega
  | succ k ih =>
    have hne : d ≠ w := by omega
    have hwr : wrap32 (d + 1) = d + 1 := by
      apply wrap32_of_range <;> simp only [INT_MIN, INT_MAX] <;> omega
    rw [progressRun]
    simp only [hne, if_false, hwr]
    rw [List.filter_append, List.length_append, (progressReport_emissions _ _ ho).1]
    by_cases hex : d + 1 = w
    · have : progressRun (k + 1) (d + 1) w (stepOf d w) true = [] := by
        simp [progressRun, hex]
      rw [this]
      simp only [List.filter_nil, List.length_nil, add_zero]
      congr 3
      push_cast
      omega
    · have hlt2 : d + 1 < w := by omega
      rw [ih (d + 1) (stepOf d w) (by omega) hlt2
        (stepOf_mono w d (d + 1) hw1 hw2 hd0 (by omega) hlt2)]
      have hidx : min (d + 1 + ((k + 1 : Nat) : Int)) w - 1
          = min (d + ((k + 1 + 1 : Nat) : Int)) w - 1 := by
        push_cast
        congr 2
        omega
      rw [hidx]
      have hm := stepOf_mono w d (min (d + ((k + 1 + 1 : Nat) : Int)) w - 1) hw1 hw2 hd0
        (by push_cast; omega) (by push_cast; omega)
      omega

/-- Explicit form of `RunThreadsOnIndividual_unfold`. -/
theorem RunThreadsOnIndividual_eq (hw fuel : Nat) (sched : List Tid) (n : Int)
    (showpacifier : Bool) (s : State) :
    RunThreadsOnIndividual hw fuel sched n showpacifier s =
      match RunThreadsOn fuel sched
          (resetRun n showpacifier { s with numthreads := resolvedThreads hw s }) with
      | .error e => .error e
      | .ok (s3, ev) =>
        .ok (s3, (if s.numthreads = -1 then ThreadSetDefault hw s else (s, [])).2 ++ ev ++
          (if s3.pacifier then [Event.printElapsed] else [])) := by
  obtain ⟨hsh, -⟩ := entry_shape hw s
  unfold RunThreadsOnIndividual
  dsimp only
  rw [hsh]

/-- The four variables reset by `RunThreadsOnIndividual` do not influence the
resolution of the thread count. -/
theorem entry_independent (hw : Nat) (s : State) (d w o : Int) (p : Bool) :
    resolvedThreads hw { s with dispatch := d, workcount := w, oldf := o, pacifier := p }
        = resolvedThreads hw s
      ∧ (if ({ s with dispatch := d, workcount := w, oldf := o, pacifier := p } :
            State).numthreads = -1
          then ThreadSetDefault hw
            { s with dispatch := d, workcount := w, oldf := o, pacifier := p }
          else ({ s with dispatch := d, workcount := w, oldf := o, pacifier := p }, [])).2
        = (if s.numthreads = -1 then ThreadSetDefault hw s else (s, [])).2 := by
  obtain ⟨x, h1, h2, -, h4⟩ := ThreadSetDefault_shape hw s
  obtain ⟨y, g1, g2, -, g4⟩ := ThreadSetDefault_shape hw
    { s with dispatch := d, workcount := w, oldf := o, pacifier := p }
  unfold resolvedThreads
  by_cases hu : s.numthreads = -1
  · have hu2 : ({ s with dispatch := d, workcount := w, oldf := o, pacifier := p } :
        State).numthreads = -1 := hu
    have hxy : y = x := by rw [h4 hu, g4 hu2]
    rw [if_pos hu, if_pos hu2, if_pos hu, if_pos hu2, h1, g1, h2, g2, hxy]
    exact ⟨rfl, rfl⟩
  · have hu2 : ¬ ({ s with dispatch := d, workcount := w, oldf := o, pacifier := p } :
        State).numthreads = -1 := hu
    rw [if_neg hu, if_neg hu2, if_neg hu, if_neg hu2]
    exact ⟨rfl, rfl⟩

/-- The outcome of `RunThreadsOnIndividual` does not depend on the values that
`dispatch`, `workcount`, `oldf` and `pacifier` have on entry. -/
theorem RunThreadsOnIndividual_independent (hw fuel : Nat) (sched : List Tid) (n : Int)
    (showpacifier : Bool) (s : State) (d w o : Int) (p : Bool) :
    RunThreadsOnIndividual hw fuel sched n showpacifier
        { s with dispatch := d, workcount := w, oldf := o, pacifier := p }
      = RunThreadsOnIndividual hw fuel sched n showpacifier s := by
  obtain ⟨e1, e2⟩ := entry_independent hw s d w o p
  rw [RunThreadsOnIndividual_eq, RunThreadsOnIndividual_eq, e1, e2]
  generalize resolvedThreads hw s = R
  rfl

/-- State of the run of 53687093 units after 53687092 calls of `GetThreadWork`. -/
theorem pulls_before_overflow :
    ∃ rs s1 ev,
      pulls 53687092 (resetRun 53687093 true State.initial) = .ok (rs, s1, ev)
        ∧ s1 = { numthreads := -1, threaded := false, dispatch := 53687092,
                 workcount := 53687093, oldf := 39, pacifier := true, crit := false,
                 enter := false } := by
  have hc := Counting_resetRun State.initial 53687093 true (by decide) (by decide) (by decide)
  obtain ⟨s1, ev, hp, hc1, hw1, hd1⟩ := pulls_counting 53687092 _ hc
  obtain ⟨-, a2, a3, a4, a5⟩ := pulls_frame 53687092 _ hc _ s1 ev hp
  have ho := pulls_oldf 53687091 _ hc (by decide) _ s1 ev hp
  have hd : s1.dispatch = 53687092 := by
    rw [hd1]
    decide
  have hw : s1.workcount = 53687093 := hw1
  have ho2 : s1.oldf = 39 := by
    rw [ho]
    decide
  have a6 := pulls_crit 53687092 _ _ s1 ev hp
  refine ⟨_, s1, ev, hp, ?_⟩
  obtain ⟨nt, th, d, w, o, pc, c, e⟩ := s1
  simp only at hd hw ho2 a2 a3 a4 a5 a6
  subst hd hw ho2 a2 a3 a4 a5 a6
  rfl

theorem heldAtWork_length (ev : List Event) : (heldAtWork ev).length = (workCalls ev).length := by
  induction ev with
  | nil => rfl
  | cons e l ih =>
    unfold heldAtWork workCalls at ih ⊢
    cases e <;> simp [List.filterMap_cons, Event.workHeld, Event.workCall, ih]

/-! ## Runs with nothing to hand out -/

theorem isSilent_of_isLockEvent (e : Event) (h : e.isLockEvent = true) : e.isSilent = true := by
  cases e <;> first | rfl | (simp [Event.isLockEvent] at h)

theorem silent_no_output (ev : List Event) (h : ∀ e ∈ ev, e.isSilent = true) :
    workCalls ev = [] ∧ ev.filter Event.isEmission = [] := by
  constructor
  · unfold workCalls
    rw [List.filterMap_eq_nil_iff]
    intro e he
    have hs := h e he
    cases e <;> first | rfl | (simp [Event.isSilent] at hs)
  · rw [List.filter_eq_nil_iff]
    intro e he
    have hs := h e he
    cases e <;> simp_all [Event.isSilent, Event.isEmission]

theorem ThreadLock_silent (s s1 : State) (ev : List Event) (h : ThreadLock s = .ok (s1, ev)) :
    s1.dispatch = s.dispatch ∧ s1.workcount = s.workcount ∧ ∀ e ∈ ev, e.isSilent = true := by
  rcases ThreadLock_cases s with ⟨-, hr⟩ | ⟨-, -, hr⟩ | ⟨-, -, -, hr⟩ | ⟨-, -, -, hr⟩ <;>
    rw [hr] at h
  · injection h with h; injection h with h h2; subst h h2
    refine ⟨rfl, rfl, ?_⟩
    intro e he
    simp at he
    subst he
    rfl
  · cases h
  · cases h
  · injection h with h; injection h with h h2; subst h h2
    refine ⟨rfl, rfl, ?_⟩
    intro e he
    simp at he
    rcases he with he | he <;> subst he <;> rfl

theorem ThreadUnlock_silent (s s1 : State) (ev : List Event) (h : ThreadUnlock s = .ok (s1, ev)) :
    s1.dispatch = s.dispatch ∧ s1.workcount = s.workcount ∧ ∀ e ∈ ev, e.isSilent = true := by
  rcases ThreadUnlock_cases s with ⟨-, hr⟩ | ⟨-, -, hr⟩ | ⟨-, -, -, hr⟩ | ⟨-, -, -, hr⟩ <;>
    rw [hr] at h
  · injection h with h; injection h with h h2; subst h h2
    refine ⟨rfl, rfl, ?_⟩
    intro e he
    simp at he
    subst he
    rfl
  · cases h
  · cases h
  · injection h with h; injection h with h h2; subst h h2
    refine ⟨rfl, rfl, ?_⟩
    intro e he
    simp at he
    rcases he with he | he <;> subst he <;> rfl

/-- With `dispatch == workcount` the rest of `GetThreadWork` returns -1 with no
output and leaves the counter exhausted. -/
theorem GetThreadWorkLocked_silent (s s1 : State) (r : Int) (ev : List Event)
    (hd : s.dispatch = s.workcount) (h : GetThreadWorkLocked s = .ok (r, s1, ev)) :
    r = -1 ∧ s1.dispatch = s1.workcount ∧ ∀ e ∈ ev, e.isSilent = true := by
  unfold GetThreadWorkLocked at h
  rw [if_pos hd] at h
  split at h
  · cases h
  · rename_i s2 ev2 hu
    injection h with h; injection h with h3 h; injection h with h h2; subst h h2 h3
    obtain ⟨a1, a2, a3⟩ := ThreadUnlock_silent _ _ _ hu
    exact ⟨rfl, by rw [a1, a2]; exact hd, a3⟩

theorem GetThreadWork_silent (s s1 : State) (r : Int) (ev : List Event)
    (hd : s.dispatch = s.workcount) (h : GetThreadWork s = .ok (r, s1, ev)) :
    r = -1 ∧ s1.dispatch = s1.workcount ∧ ∀ e ∈ ev, e.isSilent = true := by
  unfold GetThreadWork at h
  split at h
  · cases h
  · rename_i s2 ev2 hl
    split at h
    · cases h
    · rename_i r3 s3 ev3 hg
      injection h with h; injection h with h3 h; injection h with h h2; subst h h2 h3
      obtain ⟨a1, a2, a3⟩ := ThreadLock_silent _ _ _ hl
      obtain ⟨b1, b2, b3⟩ := GetThreadWorkLocked_silent _ _ _ _ (by rw [a1, a2]; exact hd) hg
      refine ⟨b1, b2, ?_⟩
      intro e he
      rcases List.mem_append.mp he with h4 | h4
      · exact a3 e h4
      · exact b3 e h4

theorem workerLoop_silent (tid : Tid) (threadnum : Int) (fuel : Nat) (s s1 : State)
    (ev : List Event) (hd : s.dispatch = s.workcount)
    (h : workerLoop tid threadnum fuel s = .ok (s1, ev)) : ∀ e ∈ ev, e.isSilent = true := by
  cases fuel with
  | zero => cases h
  | succ k =>
    unfold workerLoop at h
    split at h
    · cases h
    · rename_i w s2 ev2 hg
      obtain ⟨a1, -, a3⟩ := GetThreadWork_silent _ _ _ _ hd hg
      rw [if_pos a1] at h
      injection h with h; injection h with _ h2; subst h2
      exact a3

theorem quiet_set (l : List Pc) (i : Nat) (a : Pc) (hl : ∀ pc ∈ l, pc.quiet = true)
    (ha : a.quiet = true) : ∀ pc ∈ l.set i a, pc.quiet = true := by
  intro pc hpc
  rcases List.mem_or_eq_of_mem_set hpc with h1 | h1
  · exact hl pc h1
  · rw [h1]
    exact ha

theorem silent_append (tr ev : List Event) (h1 : ∀ e ∈ tr, e.isSilent = true)
    (h2 : ∀ e ∈ ev, e.isSilent = true) : ∀ e ∈ tr ++ ev, e.isSilent = true := by
  intro e he
  rcases List.mem_append.mp he with h | h
  · exact h1 e h
  · exact h2 e h

theorem workerStep_silent (i : Nat) (p p1 : Pool) (h : workerStep i p = .ok p1)
    (hq : PoolSilent p) : PoolSilent p1 := by
  obtain ⟨q1, q2, q3⟩ := hq
  have hone : ∀ e0 : List Event, (∀ e ∈ e0, e.isSilent = true) →
      ∀ e ∈ p.trace ++ e0, e.isSilent = true := fun e0 h0 => silent_append _ _ q3 h0
  cases hpc : p.pcs[i]? with
  | none =>
    simp only [workerStep, hpc] at h
    injection h with h; subst h
    exact ⟨q1, q2, q3⟩
  | some pc =>
    have hqpc := q2 pc (List.getElem?_mem hpc)
    cases pc with
    | entry =>
      simp only [workerStep, hpc] at h
      injection h with h; subst h
      exact ⟨q1, quiet_set _ _ _ q2 rfl, hone _ (by simp [Event.isSilent])⟩
    | atLock =>
      cases ht : p.g.threaded <;> cases hcr : p.g.crit <;>
        simp [workerStep, hpc, crit_lock, ht, hcr] at h <;> subst h
      · exact ⟨q1, quiet_set _ _ _ q2 rfl, hone _ (by simp [Event.isSilent])⟩
      · exact ⟨q1, quiet_set _ _ _ q2 rfl, hone _ (by simp [Event.isSilent])⟩
      · exact ⟨q1, quiet_set _ _ _ q2 rfl, hone _ (by simp [Event.isSilent])⟩
      · exact ⟨q1, q2, q3⟩
    | locked =>
      cases he : p.g.enter <;> simp [workerStep, hpc, enter_set, he] at h
      subst h
      exact ⟨q1, quiet_set _ _ _ q2 rfl, q3⟩
    | inCrit =>
      simp only [workerStep, hpc, if_pos q1] at h
      injection h with h; subst h
      exact ⟨q1, quiet_set _ _ _ q2 rfl, q3⟩
    | working => cases hqpc
    | reported => cases hqpc
    | fetched r => cases hqpc
    | unlocking r =>
      have hr : r = -1 := by simpa [Pc.quiet] using hqpc
      subst hr
      cases ht : p.g.threaded <;> cases he : p.g.enter <;>
        simp [workerStep, hpc, enter_clear, ht, he] at h <;> subst h
      · exact ⟨q1, quiet_set _ _ _ q2 rfl, hone _ (by simp [Event.isSilent])⟩
      · exact ⟨q1, quiet_set _ _ _ q2 rfl, hone _ (by simp [Event.isSilent])⟩
      · exact ⟨q1, quiet_set _ _ _ q2 rfl, hone _ (by simp [Event.isSilent])⟩
    | releasing r =>
      have hr : r = -1 := by simpa [Pc.quiet] using hqpc
      subst hr
      cases hcr : p.g.crit <;> simp [workerStep, hpc, crit_unlock, hcr] at h
      subst h
      exact ⟨q1, quiet_set _ _ _ q2 rfl, hone _ (by simp [Event.isSilent])⟩
    | gotWork r => cases hqpc
    | finished =>
      simp only [workerStep, hpc] at h
      injection h with h; subst h
      exact ⟨q1, q2, q3⟩

theorem mainStep_silent (p p1 : Pool) (h : mainStep p = .ok p1) (hq : PoolSilent p) :
    PoolSilent p1 := by
  obtain ⟨q1, q2, q3⟩ := hq
  have hone : ∀ e0 : Event, e0.isSilent = true → ∀ e ∈ p.trace ++ [e0], e.isSilent = true := by
    intro e0 h0
    apply silent_append _ _ q3
    intro e he
    simp at he
    subst he
    exact h0
  unfold mainStep at h
  split at h
  · split at h
    · injection h with h; subst h
      refine ⟨q1, ?_, hone _ rfl⟩
      intro pc hpc
      rcases List.mem_append.mp hpc with h1 | h1
      · exact q2 pc h1
      · simp at h1
        rw [h1]
        rfl
    · injection h with h; subst h
      exact ⟨q1, q2, q3⟩
  · split at h
    · split at h
      · injection h with h; subst h
        exact ⟨q1, q2, hone _ rfl⟩
      · injection h with h; subst h
        exact ⟨q1, q2, q3⟩
    · injection h with h; subst h
      exact ⟨q1, q2, hone _ rfl⟩
  · injection h with h; subst h
    exact ⟨q1, q2, q3⟩

theorem runPool_silent (sched : List Tid) (p p1 : Pool) (h : runPool sched p = .ok p1)
    (hq : PoolSilent p) : PoolSilent p1 := by
  induction sched generalizing p with
  | nil =>
    simp only [runPool] at h
    injection h with h; subst h
    exact hq
  | cons t sched ih =>
    unfold runPool at h
    split at h
    · cases h
    · rename_i p2 hs
      apply ih _ h
      cases t with
      | main => exact mainStep_silent _ _ hs hq
      | worker i => exact workerStep_silent _ _ _ hs hq

/-- With `dispatch == workcount` on entry and the lock free, a call of
`RunThreadsOn` that returns has made no step-emission and no call of the
callback. -/
theorem RunThreadsOn_silent (fuel : Nat) (sched : List Tid) (s s1 : State) (ev : List Event)
    (hd : s.dispatch = s.workcount) (h : RunThreadsOn fuel sched s = .ok (s1, ev)) :
    ∀ e ∈ ev, e.isSilent = true := by
  unfold RunThreadsOn at h
  split at h
  · unfold ThreadWorkerFunction at h
    split at h
    · cases h
    · rename_i s2 ev2 hw
      injection h with h; injection h with _ h2; subst h2
      intro e he
      rcases List.mem_cons.mp he with h3 | h3
      · subst h3
        rfl
      · exact workerLoop_silent _ _ _ _ _ _ hd hw e h3
  · split at h
    · cases h
    · rename_i p hp
      split at h
      · injection h with h; injection h with _ h2; subst h2
        refine (runPool_silent _ _ _ hp ⟨hd, ?_, ?_⟩).2.2
        · intro pc hpc
          simp [Pool.start] at hpc
        · intro e he
          simp [Pool.start] at he
          subst he
          rfl
      · cases h

/-- A call of `RunThreadsOnIndividual` with no units that returns has made no
step-emission and no call of the callback. -/
theorem RunThreadsOnIndividual_silent (hw fuel : Nat) (sched : List Tid) (showpacifier : Bool)
    (s s1 : State) (ev : List Event)
    (h : RunThreadsOnIndividual hw fuel sched 0 showpacifier s = .ok (s1, ev)) :
    ∀ e ∈ ev, e.isSilent = true := by
  rw [RunThreadsOnIndividual_eq] at h
  generalize resolvedThreads hw s = R at h
  have hentry : ∀ e ∈ (if s.numthreads = -1 then ThreadSetDefault hw s else (s, [])).2,
      e.isSilent = true := by
    obtain ⟨x, -, h2, -, -⟩ := ThreadSetDefault_shape hw s
    intro e he
    by_cases hu : s.numthreads = -1
    · rw [if_pos hu, h2] at he
      simp at he
      subst he
      rfl
    · rw [if_neg hu] at he
      cases he
  split at h
  · cases h
  · rename_i s3 ev3 hr
    injection h with h; injection h with _ h2; subst h2
    apply silent_append
    · exact silent_append _ _ hentry (RunThreadsOn_silent _ _ _ _ _ rfl hr)
    · intro e he
      split at he
      · simp at he
        subst he
        rfl
      · cases he

/-- With the lock free on entry and at most `MAX_THREADS` threads, a call of
`RunThreadsOn` after the reset raises no fault: under every budget and schedule it
returns, with every handle inside the array, or is still running, and some budget
and schedule let it return. -/
theorem RunThreadsOn_returns (n : Int) (showpacifier : Bool) (s : State) (h0 : 0 ≤ n)
    (h1 : n ≤ INT_MAX) (hM : s.numthreads ≤ MAX_THREADS) (hcr : s.crit = false)
    (he : s.enter = false) :
    (∀ fuel sched,
        RunThreadsOn fuel sched (resetRun n showpacifier s) = .error .fuelExhausted
        ∨ ∃ s1 ev, RunThreadsOn fuel sched (resetRun n showpacifier s) = .ok (s1, ev)
            ∧ ∀ i ∈ handleWrites ev, i < MAX_THREADS)
      ∧ ∃ fuel sched s1 ev,
          RunThreadsOn fuel sched (resetRun n showpacifier s) = .ok (s1, ev) := by
  by_cases h1t : s.numthreads = 1
  · obtain ⟨hall, hex⟩ :=
      RunThreadsOn_outcome n showpacifier s h0 h1 (le_of_eq h1t.symm) hM hcr he
    refine ⟨?_, hex⟩
    intro fuel sched
    rcases hall fuel sched with h | ⟨s1, ev, h, -, -, -, -, -, -, h7⟩
    · exact Or.inl h
    · exact Or.inr ⟨s1, ev, h, h7⟩
  · have hnt2 : ¬ (resetRun n showpacifier s).numthreads = 1 := by simpa [resetRun] using h1t
    have hinv := PoolInv_start n showpacifier s h0 h1 hcr he
    constructor
    · intro fuel sched
      obtain ⟨p1, hrun, hp1⟩ := runPool_inv n s.numthreads sched _ hinv
      by_cases hm : p1.main = MainPc.returned
      · right
        refine ⟨p1.g, p1.trace, ?_, PoolInv_handles n s.numthreads p1 hp1 hM⟩
        simp only [RunThreadsOn, hnt2, if_false, hrun, hm, if_true]
      · left
        simp only [RunThreadsOn, hnt2, if_false, hrun, hm]
    · obtain ⟨sched, p1, hrun, -, hm⟩ := pool_completes n s.numthreads _ _ hinv (le_refl _)
      refine ⟨0, sched, p1.g, p1.trace, ?_⟩
      simp only [RunThreadsOn, hnt2, if_false, hrun, hm, if_true]

/-- The same for `RunThreadsOnIndividual`. -/
theorem RunThreadsOnIndividual_returns (hw : Nat) (n : Int) (showpacifier : Bool) (s : State)
    (h0 : 0 ≤ n) (h1 : n ≤ INT_MAX) (hM : resolvedThreads hw s ≤ MAX_THREADS)
    (hcr : s.crit = false) (he : s.enter = false) :
    (∀ fuel sched,
        RunThreadsOnIndividual hw fuel sched n showpacifier s = .error .fuelExhausted
        ∨ ∃ s1 ev, RunThreadsOnIndividual hw fuel sched n showpacifier s = .ok (s1, ev)
            ∧ ∀ i ∈ handleWrites ev, i < MAX_THREADS)
      ∧ ∃ fuel sched s1 ev,
          RunThreadsOnIndividual hw fuel sched n showpacifier s = .ok (s1, ev) := by
  have htail2 : ∀ (b : Bool), handleWrites (if b then [Event.printElapsed] else []) = [] := by
    intro b
    cases b <;> rfl
  obtain ⟨evd, hevd, hunf⟩ := RunThreadsOnIndividual_unfold hw n showpacifier s
  generalize resolvedThreads hw s = R at hM hunf ⊢
  obtain ⟨hall, hex⟩ :=
    RunThreadsOn_returns n showpacifier { s with numthreads := R } h0 h1 hM hcr he
  constructor
  · intro fuel sched
    rcases hall fuel sched with hr | ⟨s1, ev, hr, h7⟩
    · left
      rw [hunf fuel sched, hr]
    · right
      refine ⟨s1, evd ++ ev ++ (if s1.pacifier then [Event.printElapsed] else []),
        by rw [hunf fuel sched, hr], ?_⟩
      rw [handleWrites_append, handleWrites_append, htail2, hevd.2, List.append_nil,
        List.nil_append]
      exact h7
  · obtain ⟨fuel, sched, s1, ev, hr⟩ := hex
    exact ⟨fuel, sched, s1, evd ++ ev ++ (if s1.pacifier then [Event.printElapsed] else []),
      by rw [hunf fuel sched, hr]⟩

/-- The faults that the guard `dispatch == workcount` and the range of the counter
keep away: with work seemingly left, `GetThreadWork` stops in the division of
line 50 whenever that division is not defined. -/
theorem GetThreadWork_division_fault (s : State) (hl : LockFree s)
    (h : s.dispatch ≠ s.workcount) (e : Fault)
    (hf : divisionFault s.dispatch s.workcount = some e) :
    GetThreadWork s = .error e := by
  obtain ⟨nt, th, d, w, o, pc, c, en⟩ := s
  simp only [LockFree] at hl
  simp only at h hf
  cases th
  · simp [GetThreadWork, ThreadLock, GetThreadWorkLocked, showProgress, h, hf]
  · obtain ⟨hc, he⟩ := hl rfl
    subst hc he
    simp [GetThreadWork, ThreadLock, GetThreadWorkLocked, showProgress, h, hf, crit_lock,
      enter_set]

theorem no_multiple_below (d q : Int) (h0 : 0 ≤ d) (h1 : d < 268435456)
    (hq : 40 * d + 2147483648 = 4294967296 * q) : False := by
  have hq1 : 1 ≤ q := by
    by_contra hc
    have : q ≤ 0 := by linarith [Int.lt_iff_add_one_le.mp (not_le.mp hc)]
    nlinarith
  have hq2 : q ≤ 2 := by
    by_contra hc
    have : 3 ≤ q := by linarith [Int.lt_iff_add_one_le.mp (not_le.mp hc)]
    nlinarith
  interval_cases q
  · have : 5 * d = 268435456 := by linarith
    omega
  · have : 5 * d = 3 * 268435456 := by linarith
    omega

/-- Below `dispatch == 2^28` the 32-bit product `40 * dispatch` is not `INT_MIN`. -/
theorem product_ne_INT_MIN (d : Int) (h0 : 0 ≤ d) (h1 : d < 268435456) :
    wrap32 (40 * d) ≠ INT_MIN := by
  intro h
  have h3 : (40 * d + 2147483648) % 4294967296 - 2147483648 = -2147483648 := h
  have h2 : (40 * d + 2147483648) % 4294967296 = 0 := by linarith
  obtain ⟨q, hq⟩ := Int.dvd_of_emod_eq_zero h2
  exact no_multiple_below d q h0 h1 hq

/-- With `workcount == -1` the division of line 50 is defined below
`dispatch == 2^28`, so calls of `GetThreadWork` keep returning and counting until
`dispatch` reaches that value. -/
theorem pulls_negative (k : Nat) (s : State) (hl : LockFree s) (hw : s.workcount = -1)
    (h0 : 0 ≤ s.dispatch) (hk : s.dispatch + (k : Int) ≤ 268435456) :
    ∃ rs s1 ev, pulls k s = .ok (rs, s1, ev) ∧ s1.dispatch = s.dispatch + (k : Int)
      ∧ s1.workcount = -1 ∧ s1.threaded = s.threaded ∧ s1.crit = s.crit
      ∧ s1.enter = s.enter := by
  induction k generalizing s with
  | zero => exact ⟨[], s, [], rfl, by simp, hw, rfl, rfl, rfl⟩
  | succ k ih =>
    have hne : s.dispatch ≠ s.workcount := by omega
    have hdf : divisionFault s.dispatch s.workcount = none := by
      unfold divisionFault
      rw [if_neg (by omega), if_neg]
      intro hx
      exact product_ne_INT_MIN s.dispatch h0 (by omega) hx.1
    have hwr : wrap32 (s.dispatch + 1) = s.dispatch + 1 := by
      apply wrap32_of_range
      · unfold INT_MIN
        omega
      · unfold INT_MAX
        omega
    obtain ⟨evg, hg⟩ : ∃ evg, GetThreadWork s = .ok (s.dispatch,
        { s with oldf := stepOf s.dispatch s.workcount, dispatch := wrap32 (s.dispatch + 1) },
        evg) := ⟨_, GetThreadWork_normal s hl hne hdf⟩
    obtain ⟨rs, s2, ev2, hp, a1, a2, a3, a4, a5⟩ :=
      ih { s with oldf := stepOf s.dispatch s.workcount, dispatch := wrap32 (s.dispatch + 1) }
        hl hw (by simp only [hwr]; omega) (by simp only [hwr]; omega)
    refine ⟨s.dispatch :: rs, s2, evg ++ ev2, by simp only [pulls, hg, hp], ?_, a2, a3, a4, a5⟩
    rw [a1]
    simp only [hwr]
    omega

/-! ## The callback and the lock -/

/-- In an execution of `ThreadWorkerFunction` on its own that starts with
`enter == false`, the flag is false at each call of the callback and at the
return; with the mutex unlocked and the counter in range the execution returns,
for every budget above the number of units left, after one such call per unit. -/
theorem inline_calls_unlocked (tid : Tid) (threadnum : Int) (s : State)
    (hcr : s.crit = false) (he : s.enter = false) :
    (∀ fuel s1 ev, ThreadWorkerFunction tid threadnum fuel s = .ok (s1, ev) →
        s1.enter = false ∧ ∀ b ∈ heldAtWork ev, b = false)
      ∧ (0 ≤ s.dispatch → s.dispatch ≤ s.workcount → s.workcount ≤ INT_MAX →
          ∀ fuel, (s.workcount - s.dispatch).toNat < fuel →
            ∃ s1 ev, ThreadWorkerFunction tid threadnum fuel s = .ok (s1, ev)
              ∧ heldAtWork ev = List.replicate (s.workcount - s.dispatch).toNat false) := by
  have hsafe : ∀ fuel s1 ev, ThreadWorkerFunction tid threadnum fuel s = .ok (s1, ev) →
      s1.enter = false ∧ ∀ b ∈ heldAtWork ev, b = false := by
    intro fuel s1 ev h
    unfold ThreadWorkerFunction at h
    split at h
    · cases h
    · rename_i s2 ev2 hw
      injection h with h; injection h with h h2; subst h h2
      obtain ⟨-, -, a3⟩ := workerLoop_frame _ _ _ _ _ _ hw
      exact a3 he
  refine ⟨hsafe, ?_⟩
  intro h0 h1 h2 fuel hf
  have hc : Counting s := ⟨fun _ => ⟨hcr, he⟩, h0, h1, h2⟩
  obtain ⟨s1, ev, hl1, c1, -⟩ := workerLoop_spec tid threadnum fuel s hc hf
  have hrun : ThreadWorkerFunction tid threadnum fuel s
      = .ok (s1, Event.workerStart tid threadnum :: ev) := by
    simp only [ThreadWorkerFunction, hl1]
  refine ⟨s1, _, hrun, ?_⟩
  rw [List.eq_replicate_iff]
  refine ⟨?_, (hsafe fuel s1 _ hrun).2⟩
  rw [heldAtWork_length]
  have : workCalls (Event.workerStart tid threadnum :: ev) = workCalls ev := rfl
  rw [this, c1]
  simp

/-- A worker of the pool comes to the point of the callback only by its own
`crit.unlock()` (or, outside the multi-threaded mode, by its own return from
`ThreadUnlock`). -/
theorem arrives_by_unlock (i : Nat) (r : Int) (q q1 : Pool) (h : workerStep i q = .ok q1)
    (hgot : q1.pcs[i]? = some (.gotWork r)) :
    q.pcs[i]? = some (.gotWork r)
      ∨ (q.pcs[i]? = some (.releasing r) ∧ q.g.crit = true ∧ q1.g.crit = false
          ∧ q1.trace = q.trace ++ [.critUnlock])
      ∨ (q.pcs[i]? = some (.unlocking r) ∧ q.g.threaded = false) := by
  cases hpc : q.pcs[i]? with
  | none =>
    simp only [workerStep, hpc] at h
    injection h with h; subst h
    rw [hpc] at hgot
    cases hgot
  | some pc =>
    have hset : ∀ a : Pc, (q.pcs.set i a)[i]? = some a :=
      fun a => getElem?_set_at q.pcs i a pc hpc
    cases pc with
    | entry =>
      simp only [workerStep, hpc] at h
      injection h with h; subst h
      rw [hset] at hgot
      cases hgot
    | atLock =>
      cases ht : q.g.threaded <;> cases hcr : q.g.crit <;>
        simp [workerStep, hpc, crit_lock, ht, hcr] at h <;> subst h
      · rw [hset] at hgot; cases hgot
      · rw [hset] at hgot; cases hgot
      · rw [hset] at hgot; cases hgot
      · rw [hpc] at hgot; cases hgot
    | locked =>
      cases he : q.g.enter <;> simp [workerStep, hpc, enter_set, he] at h
      subst h
      rw [hset] at hgot
      cases hgot
    | inCrit =>
      simp only [workerStep, hpc] at h
      split at h <;> (injection h with h; subst h; rw [hset] at hgot; cases hgot)
    | working =>
      simp only [workerStep, hpc] at h
      split at h
      · cases h
      · injection h with h; subst h
        rw [hset] at hgot
        cases hgot
    | reported =>
      simp only [workerStep, hpc] at h
      injection h with h; subst h
      rw [hset] at hgot
      cases hgot
    | fetched r2 =>
      simp only [workerStep, hpc] at h
      injection h with h; subst h
      rw [hset] at hgot
      cases hgot
    | unlocking r2 =>
      cases ht : q.g.threaded
      · simp [workerStep, hpc, ht] at h
        subst h
        rw [hset] at hgot
        unfold Pc.afterPull at hgot
        split at hgot
        · cases hgot
        · cases hgot
          exact Or.inr (Or.inr ⟨rfl, rfl⟩)
      · cases he : q.g.enter <;> simp [workerStep, hpc, enter_clear, ht, he] at h
        subst h
        rw [hset] at hgot
        cases hgot
    | releasing r2 =>
      cases hcr : q.g.crit <;> simp [workerStep, hpc, crit_unlock, hcr] at h
      subst h
      rw [hset] at hgot
      unfold Pc.afterPull at hgot
      split at hgot
      · cases hgot
      · cases hgot
        exact Or.inr (Or.inl ⟨rfl, rfl, rfl, rfl⟩)
    | gotWork r2 =>
      simp only [workerStep, hpc] at h
      injection h with h; subst h
      rw [hset] at hgot
      cases hgot
    | finished =>
      simp only [workerStep, hpc] at h
      injection h with h; subst h
      rw [hpc] at hgot
      cases hgot

/-- In a pool that satisfies the invariant, a worker at the point of the callback
is outside the critical section; the flag `enter` is true only while the mutex is
locked, and then the one worker inside the critical section is another one. -/
theorem callback_holder (n T : Int) (p : Pool) (i : Nat) (r : Int) (h : PoolInv n T p)
    (hi : p.pcs[i]? = some (.gotWork r)) :
    (p.g.enter = true → p.g.crit = true)
      ∧ (p.g.crit = true →
          ∃ (j : Nat) (pc : Pc), j ≠ i ∧ p.pcs[j]? = some pc ∧ pc.inSection = true
            ∧ ∀ (k : Nat) (pc1 : Pc), p.pcs[k]? = some pc1 → k ≠ j → pc1.inSection = false) := by
  constructor
  · intro he
    cases hcr : p.g.crit with
    | true => rfl
    | false =>
      rw [(h.free hcr).1] at he
      cases he
  · intro hcr
    obtain ⟨j, pc, hj, hin, -, hu⟩ := h.held hcr
    refine ⟨j, pc, ?_, hj, hin, hu⟩
    intro hji
    subst hji
    rw [hi] at hj
    cases hj
    cases hin

/-! ## The claims -/

/-- C1: after the reset of `RunThreadsOnIndividual` with `0 ≤ n`, successive calls
of `GetThreadWork` (taken in the order in which they enter the critical section)
all return, the call number `k + 1` returns `k` when `k < n` and `-1` otherwise;
hence once at least `n` calls are made, the values different from `-1` are exactly
`0, ..., n - 1`, each once. -/
theorem GetThreadWork_sequence (s : State) (n : Int) (showpacifier : Bool) (m : Nat)
    (hl : LockFree s) (h0 : 0 ≤ n) (h1 : n ≤ INT_MAX) :
    ∃ rs s1 ev, pulls m (resetRun n showpacifier s) = .ok (rs, s1, ev)
      ∧ rs = (List.range m).map (fun (k : Nat) => if (k : Int) < n then (k : Int) else -1)
      ∧ (n.toNat ≤ m → rs.filter (fun r => decide (r ≠ -1)) = unitIndices n.toNat) := by
  obtain ⟨s1, ev, hp, -⟩ := pulls_counting m _ (Counting_resetRun s n showpacifier hl h0 h1)
  refine ⟨_, s1, ev, hp, ?_, ?_⟩
  · simp [resetRun]
  · intro hm
    simpa [resetRun] using filter_sentinel n m hm

theorem GetThreadWork_sequence_witness :
    LockFree State.initial ∧ (0 : Int) ≤ 3 ∧ (3 : Int) ≤ INT_MAX ∧
    ∃ rs s1 ev, pulls 5 (resetRun 3 true State.initial) = .ok (rs, s1, ev)
      ∧ rs = (List.range 5).map (fun (k : Nat) => if (k : Int) < 3 then (k : Int) else -1)
      ∧ ((3 : Int).toNat ≤ 5 → rs.filter (fun r => decide (r ≠ -1)) = unitIndices (3 : Int).toNat) :=
  ⟨by decide, by decide, by decide,
    GetThreadWork_sequence State.initial 3 true 5 (by decide) (by decide) (by decide)⟩

/-- C3: with `numthreads == 1` and `0 ≤ n`, `RunThreadsOnIndividual` returns (for
every loop budget above `n`); `ThreadWorkerFunction` is entered exactly once, with
argument 0, on the calling thread; no thread handle is written, `threaded` is never
assigned and keeps its value; and the callback is called exactly `n` times, on the
calling thread, with the arguments `0, 1, ..., n - 1` in this order. -/
theorem single_thread_run (hw fuel : Nat) (sched : List Tid) (n : Int) (showpacifier : Bool)
    (s : State) (hnt : s.numthreads = 1) (hl : LockFree s) (h0 : 0 ≤ n) (h1 : n ≤ INT_MAX)
    (hf : n.toNat < fuel) :
    ∃ s1 ev, RunThreadsOnIndividual hw fuel sched n showpacifier s = .ok (s1, ev)
      ∧ workerEntries ev = [(Tid.main, 0)]
      ∧ handleWrites ev = []
      ∧ threadedWrites ev = [] ∧ s1.threaded = s.threaded
      ∧ workCalls ev = (unitIndices n.toNat).map (fun i => (Tid.main, 0, i)) := by
  have hc := Counting_resetRun s n showpacifier hl h0 h1
  have hf2 : ((resetRun n showpacifier s).workcount - (resetRun n showpacifier s).dispatch).toNat
      < fuel := by simpa [resetRun] using hf
  obtain ⟨s1, ev, hl1, c1, c2, c3, c4, -, -, e3, -, e5, -⟩ :=
    workerLoop_spec Tid.main 0 fuel _ hc hf2
  have hne : ¬ s.numthreads = -1 := by omega
  have hnt2 : (resetRun n showpacifier s).numthreads = 1 := by simpa [resetRun] using hnt
  refine ⟨s1, Event.workerStart Tid.main 0 :: ev ++
      (if s1.pacifier then [Event.printElapsed] else []), ?_, ?_, ?_, ?_, ?_, ?_⟩
  · simp only [RunThreadsOnIndividual, hne, if_false, RunThreadsOn, hnt2, if_true,
      ThreadWorkerFunction, hl1, List.nil_append]
  · unfold workerEntries at c3 ⊢
    rw [List.filterMap_append, List.filterMap_cons]
    simp only [Event.workerEntry, c3]
    cases s1.pacifier <;> simp [Event.workerEntry]
  · unfold handleWrites at c2 ⊢
    rw [List.filterMap_append, List.filterMap_cons]
    simp only [Event.handleWrite, c2]
    cases s1.pacifier <;> simp [Event.handleWrite]
  · unfold threadedWrites at c4 ⊢
    rw [List.filterMap_append, List.filterMap_cons]
    simp only [Event.threadedWrite, c4]
    cases s1.pacifier <;> simp [Event.threadedWrite]
  · simpa [resetRun] using e3
  · unfold workCalls at c1 ⊢
    rw [List.filterMap_append, List.filterMap_cons]
    simp only [Event.workCall, c1]
    have : List.filterMap Event.workCall (if s1.pacifier then [Event.printElapsed] else []) = [] := by
      cases s1.pacifier <;> simp [Event.workCall]
    rw [this, List.append_nil]
    simp [resetRun, unitIndices, List.map_map, Function.comp]

theorem single_thread_run_witness :
    ({ State.initial with numthreads := 1 } : State).numthreads = 1
      ∧ LockFree { State.initial with numthreads := 1 } ∧ (0 : Int) ≤ 3 ∧ (3 : Int) ≤ INT_MAX
      ∧ (3 : Int).toNat < 4
      ∧ ∃ s1 ev, RunThreadsOnIndividual 8 4 [] 3 true { State.initial with numthreads := 1 }
            = .ok (s1, ev)
          ∧ workerEntries ev = [(Tid.main, 0)]
          ∧ handleWrites ev = []
          ∧ threadedWrites ev = []
          ∧ s1.threaded = ({ State.initial with numthreads := 1 } : State).threaded
          ∧ workCalls ev = (unitIndices (3 : Int).toNat).map (fun i => (Tid.main, 0, i)) :=
  ⟨rfl, by decide, by decide, by decide, by decide,
    single_thread_run 8 4 [] 3 true { State.initial with numthreads := 1 } rfl (by decide)
      (by decide) (by decide) (by decide)⟩

/-- C4: in a state with `dispatch == workcount` whose lock is free, `GetThreadWork`
returns `-1`, leaves every variable (`dispatch`, `workcount`, `oldf`, `enter`
included) as it was and produces only lock events, no progress output; so any
number of further calls all return `-1` in the same state. -/
theorem GetThreadWork_exhausted_terminal (s : State) (m : Nat) (hl : LockFree s)
    (h : s.dispatch = s.workcount) :
    (∃ ev, GetThreadWork s = .ok (-1, s, ev) ∧ ∀ e ∈ ev, e.isLockEvent = true)
      ∧ ∃ ev, pulls m s = .ok (List.replicate m (-1), s, ev) ∧ ∀ e ∈ ev, e.isLockEvent = true := by
  have hg := GetThreadWork_exhausted s hl h
  have hev : ∀ e ∈ (if s.threaded then
      [Event.lockCall, Event.critLock, Event.unlockCall, Event.critUnlock]
      else [Event.lockCall, Event.unlockCall]), e.isLockEvent = true := by
    intro e he
    cases hth : s.threaded <;> simp [hth] at he
    · rcases he with h1 | h1 <;> subst h1 <;> rfl
    · rcases he with h1 | h1 | h1 | h1 <;> subst h1 <;> rfl
  refine ⟨⟨_, hg, hev⟩, ?_⟩
  induction m with
  | zero => exact ⟨[], rfl, by simp⟩
  | succ k ih =>
    obtain ⟨ev2, hp, hev2⟩ := ih
    refine ⟨(if s.threaded then
        [Event.lockCall, Event.critLock, Event.unlockCall, Event.critUnlock]
        else [Event.lockCall, Event.unlockCall]) ++ ev2, ?_, ?_⟩
    · simp only [pulls, hg, hp, List.replicate_succ]
    · intro e he
      rcases List.mem_append.mp he with h | h
      · exact hev e h
      · exact hev2 e h

theorem GetThreadWork_exhausted_terminal_witness :
    LockFree { State.initial with dispatch := 7, workcount := 7, threaded := true } ∧
    ((∃ ev, GetThreadWork { State.initial with dispatch := 7, workcount := 7, threaded := true }
          = .ok (-1, { State.initial with dispatch := 7, workcount := 7, threaded := true }, ev)
        ∧ ∀ e ∈ ev, e.isLockEvent = true)
      ∧ ∃ ev, pulls 3 { State.initial with dispatch := 7, workcount := 7, threaded := true }
          = .ok (List.replicate 3 (-1),
              { State.initial with dispatch := 7, workcount := 7, threaded := true }, ev)
        ∧ ∀ e ∈ ev, e.isLockEvent = true) :=
  ⟨by decide,
    GetThreadWork_exhausted_terminal
      { State.initial with dispatch := 7, workcount := 7, threaded := true } 3 (by decide) rfl⟩

/-- C5: for `0 ≤ n`, every state reached from the reset of `RunThreadsOnIndividual`
by calls of `GetThreadWork` has `0 ≤ dispatch ≤ workcount`; there the next call
returns, a call that returns a value other than `-1` adds exactly one to `dispatch`
and a call that returns `-1` leaves it as it was. -/
theorem dispatch_invariant (s : State) (n : Int) (showpacifier : Bool) (m : Nat)
    (rs : List Int) (s1 : State) (ev : List Event)
    (hl : LockFree s) (h0 : 0 ≤ n) (h1 : n ≤ INT_MAX)
    (hp : pulls m (resetRun n showpacifier s) = .ok (rs, s1, ev)) :
    0 ≤ s1.dispatch ∧ s1.dispatch ≤ s1.workcount ∧ s1.workcount = n
      ∧ ∃ r s2 ev2, GetThreadWork s1 = .ok (r, s2, ev2)
          ∧ (r ≠ -1 → s2.dispatch = s1.dispatch + 1)
          ∧ (r = -1 → s2.dispatch = s1.dispatch) := by
  obtain ⟨s1', ev', hp', hc, hw, -⟩ :=
    pulls_counting m _ (Counting_resetRun s n showpacifier hl h0 h1)
  rw [hp'] at hp
  injection hp with hp
  injection hp with _ hp
  injection hp with hs _
  subst hs
  obtain ⟨s2, ev2, hg, -, -, hd, -⟩ := GetThreadWork_counting s1' hc
  refine ⟨hc.2.1, hc.2.2.1, by simpa [resetRun] using hw, _, s2, ev2, hg, ?_, ?_⟩
  · intro hr
    by_cases hlt : s1'.dispatch < s1'.workcount
    · simpa [hlt] using hd
    · simp [hlt] at hr
  · intro hr
    by_cases hlt : s1'.dispatch < s1'.workcount
    · simp only [hlt, if_true] at hr
      have := hc.2.1
      omega
    · simpa [hlt] using hd

theorem dispatch_invariant_witness :
    LockFree State.initial ∧ (0 : Int) ≤ 3 ∧ (3 : Int) ≤ INT_MAX
      ∧ pulls 2 (resetRun 3 false State.initial)
          = .ok ([0, 1], { resetRun 3 false State.initial with dispatch := 2, oldf := 13 },
              [.lockCall, .unlockCall, .lockCall, .unlockCall])
      ∧ (0 : Int) ≤ 2 ∧ (2 : Int) ≤ 3 ∧ (3 : Int) = 3
      ∧ ∃ r s2 ev2,
          GetThreadWork { resetRun 3 false State.initial with dispatch := 2, oldf := 13 }
            = .ok (r, s2, ev2)
          ∧ (r ≠ -1 → s2.dispatch = (2 : Int) + 1)
          ∧ (r = -1 → s2.dispatch = (2 : Int)) :=
  ⟨by decide, by decide, by decide, rfl,
    dispatch_invariant State.initial 3 false 2 [0, 1]
      { resetRun 3 false State.initial with dispatch := 2, oldf := 13 }
      [.lockCall, .unlockCall, .lockCall, .unlockCall] (by decide) (by decide) (by decide) rfl⟩

/-- C6: for 100 units with the pacifier enabled, the complete run (101 calls of
`GetThreadWork`, the last one returning `-1`) makes exactly 40 step-emissions, of
which exactly 10 are numerals and exactly 30 are filler characters. -/
theorem pacifier_100_counts (s : State) (hl : LockFree s) :
    ∃ s1 ev, pulls 101 (resetRun 100 true s) = .ok (unitIndices 100 ++ [-1], s1, ev)
      ∧ (ev.filter Event.isEmission).length = 40
      ∧ (ev.filter Event.isNumeral).length = 10
      ∧ (ev.filter Event.isFiller).length = 30 := by
  obtain ⟨s1, ev, hp, hpr⟩ := pulls_100 s hl
  refine ⟨s1, ev, hp, ?_, ?_, ?_⟩
  · rw [← filter_dropLock Event.isEmission lock_not_emission ev, hpr]
    decide
  · rw [← filter_dropLock Event.isNumeral lock_not_numeral ev, hpr]
    decide
  · rw [← filter_dropLock Event.isFiller lock_not_filler ev, hpr]
    decide

theorem pacifier_100_counts_witness :
    LockFree State.initial ∧
    ∃ s1 ev, pulls 101 (resetRun 100 true State.initial) = .ok (unitIndices 100 ++ [-1], s1, ev)
      ∧ (ev.filter Event.isEmission).length = 40
      ∧ (ev.filter Event.isNumeral).length = 10
      ∧ (ev.filter Event.isFiller).length = 30 :=
  ⟨by decide, pacifier_100_counts State.initial (by decide)⟩

/-- C7, as stated, fails: in the complete run of 100 units with the pacifier the
numerals are not printed at the steps 4, 8, ..., 40. -/
theorem pacifier_100_numerals_not_4_to_40 :
    ¬ ∃ rs s1 ev, pulls 101 (resetRun 100 true State.initial) = .ok (rs, s1, ev)
        ∧ numeralSteps ev = [4, 8, 12, 16, 20, 24, 28, 32, 36, 40] := by
  rintro ⟨rs, s1, ev, hp, hn⟩
  obtain ⟨t1, ev1, hp1, hpr⟩ := pulls_100 State.initial (by decide)
  rw [hp] at hp1
  injection hp1 with hp1
  injection hp1 with _ hp1
  injection hp1 with _ hp1
  subst hp1
  unfold numeralSteps at hn
  rw [← filterMap_dropLock Event.numeralStep lock_numeralStep ev, hpr] at hn
  revert hn
  decide

/-- C7, amended: in the complete run of 100 units with the pacifier the numerals
are printed exactly at the steps 0, 4, ..., 36 and the filler character at every
other step of 0, ..., 39. -/
theorem pacifier_100_steps (s : State) (hl : LockFree s) :
    ∃ s1 ev, pulls 101 (resetRun 100 true s) = .ok (unitIndices 100 ++ [-1], s1, ev)
      ∧ numeralSteps ev = [0, 4, 8, 12, 16, 20, 24, 28, 32, 36]
      ∧ fillerSteps ev = [1, 2, 3, 5, 6, 7, 9, 10, 11, 13, 14, 15, 17, 18, 19, 21, 22, 23,
          25, 26, 27, 29, 30, 31, 33, 34, 35, 37, 38, 39] := by
  obtain ⟨s1, ev, hp, hpr⟩ := pulls_100 s hl
  refine ⟨s1, ev, hp, ?_, ?_⟩
  · unfold numeralSteps
    rw [← filterMap_dropLock Event.numeralStep lock_numeralStep ev, hpr]
    decide
  · unfold fillerSteps
    rw [← filterMap_dropLock Event.fillerStep lock_fillerStep ev, hpr]
    decide

theorem pacifier_100_steps_witness :
    LockFree State.initial ∧
    ∃ s1 ev, pulls 101 (resetRun 100 true State.initial) = .ok (unitIndices 100 ++ [-1], s1, ev)
      ∧ numeralSteps ev = [0, 4, 8, 12, 16, 20, 24, 28, 32, 36]
      ∧ fillerSteps ev = [1, 2, 3, 5, 6, 7, 9, 10, 11, 13, 14, 15, 17, 18, 19, 21, 22, 23,
          25, 26, 27, 29, 30, 31, 33, 34, 35, 37, 38, 39] :=
  ⟨by decide, pacifier_100_steps State.initial (by decide)⟩

/-- C8 at 3 units with the pacifier: the second call of `GetThreadWork` moves
`oldf` from 0 to 13 and prints the numeral 3 at each of the steps 4, 8 and 12,
where the step divided by 4 is 1, 2 and 3. -/
theorem numeral_is_f_div_4 :
    ∃ s1 ev1 s2 ev2, GetThreadWork (resetRun 3 true State.initial) = .ok (0, s1, ev1)
      ∧ s1.oldf = 0
      ∧ GetThreadWork s1 = .ok (1, s2, ev2)
      ∧ s2.oldf = 13
      ∧ ev2.filter Event.isNumeral = [.numeral 4 3, .numeral 8 3, .numeral 12 3]
      ∧ Int.tdiv 4 4 = 1 ∧ Int.tdiv 8 4 = 2 :=
  ⟨_, _, _, _, rfl, rfl, rfl, rfl, by decide, by decide, by decide⟩

/-- C9 at `numthreads == 65`: under every schedule `RunThreadsOn` raises no fatal
error, and whenever it returns it has created 65 threads and written the handles
`threads[0], ..., threads[64]`, the last one beyond the `MAX_THREADS` entries of
the array; some schedule lets it return. -/
theorem RunThreadsOn_beyond_capacity :
    (∀ fuel sched,
        RunThreadsOn fuel sched (resetRun 0 false { State.initial with numthreads := 65 })
            = .error .fuelExhausted
        ∨ ∃ s1 ev,
            RunThreadsOn fuel sched (resetRun 0 false { State.initial with numthreads := 65 })
              = .ok (s1, ev)
            ∧ handleWrites ev = List.range 65 ∧ MAX_THREADS ≤ 64 ∧ 64 ∈ handleWrites ev)
      ∧ ∃ fuel sched s1 ev,
          RunThreadsOn fuel sched (resetRun 0 false { State.initial with numthreads := 65 })
            = .ok (s1, ev) := by
  have hinv := PoolInv_start 0 false { State.initial with numthreads := 65 } (le_refl _)
    (by decide) rfl rfl
  have hnt : ¬ (resetRun 0 false { State.initial with numthreads := 65 }).numthreads = 1 := by
    decide
  constructor
  · intro fuel sched
    obtain ⟨p1, hrun, hp1⟩ := runPool_inv _ _ sched _ hinv
    by_cases hm : p1.main = MainPc.returned
    · right
      have hmo := hp1.main_ok
      rw [hm] at hmo
      have hw : handleWrites p1.trace = List.range 65 := by
        rw [hp1.handles, hmo.1]
        rfl
      refine ⟨p1.g, p1.trace, ?_, hw, by decide, ?_⟩
      · simp only [RunThreadsOn, hnt, if_false, hrun, hm, if_true]
      · rw [hw]
        decide
    · left
      simp only [RunThreadsOn, hnt, if_false, hrun, hm]
  · obtain ⟨sched, p1, hrun, -, hm⟩ := pool_completes _ _ _ _ hinv (le_refl _)
    refine ⟨0, sched, p1.g, p1.trace, ?_⟩
    simp only [RunThreadsOn, hnt, if_false, hrun, hm, if_true]

/-- C10 at a recursive acquisition: in multi-threaded mode, in a state where the
mutex follows the flag (as after any sequence of returned calls of `ThreadLock` and
`ThreadUnlock`), `ThreadLock` with `enter` already true does not stop with
"Recursive ThreadLock": it waits in `crit.lock()`, before the test of `enter`, for
a mutex that stays locked.  So `ThreadLock` never raises that error there, and a
second `ThreadLock` right after one that returned blocks.  `ThreadUnlock` with
`enter` false does stop with "ThreadUnlock without lock", and both functions keep
the mutex following the flag. -/
theorem recursive_ThreadLock_blocks (s : State) (ht : s.threaded = true)
    (hinv : s.crit = s.enter) :
    (s.enter = true → ThreadLock s = .error .blocked)
      ∧ ThreadLock s ≠ .error (.fatal "Recursive ThreadLock\n")
      ∧ (s.enter = false →
          ThreadLock s = .ok ({ s with crit := true, enter := true }, [.lockCall, .critLock])
            ∧ ThreadLock { s with crit := true, enter := true } = .error .blocked)
      ∧ (∀ s1 ev, ThreadLock s = .ok (s1, ev) → s1.crit = s1.enter)
      ∧ (s.enter = false → ThreadUnlock s = .error (.fatal "ThreadUnlock without lock\n"))
      ∧ (∀ s1 ev, ThreadUnlock s = .ok (s1, ev) → s1.crit = s1.enter) := by
  obtain ⟨nt, th, d, w, o, pc, c, e⟩ := s
  simp only at ht hinv
  subst ht hinv
  cases c <;> simp [ThreadLock, ThreadUnlock, crit_lock, enter_set, enter_clear, crit_unlock]

theorem recursive_ThreadLock_blocks_witness :
    ({ State.initial with threaded := true } : State).threaded = true
      ∧ ({ State.initial with threaded := true } : State).crit
          = ({ State.initial with threaded := true } : State).enter
      ∧ ThreadLock { State.initial with threaded := true }
          = .ok ({ { State.initial with threaded := true } with crit := true, enter := true },
              [.lockCall, .critLock])
      ∧ ThreadLock { { State.initial with threaded := true } with crit := true, enter := true }
          = .error .blocked :=
  ⟨rfl, rfl, (recursive_ThreadLock_blocks { State.initial with threaded := true } rfl rfl).2.2.1
    rfl⟩

/-- C11 for a hardware concurrency above `INT_MAX`: `std::max( h, 1u )` is at
least 1 as an `unsigned`, but its conversion to the `int numthreads` gives
`h - 2^32`, below 1; a call of `RunThreadsOnIndividual` made with `numthreads`
unset that returns leaves that value, below 1, in `numthreads`, and (for `0 ≤ n`,
the lock free) such a call can return. -/
theorem ThreadSetDefault_narrowing (hw : Nat) (s : State) (hu : s.numthreads = -1)
    (h1 : 2147483648 ≤ hw) (h2 : hw < 4294967296) :
    1 ≤ max hw 1
      ∧ (ThreadSetDefault hw s).1.numthreads = (hw : Int) - 4294967296
      ∧ (ThreadSetDefault hw s).1.numthreads < 1
      ∧ (∀ fuel sched n showpacifier s1 ev,
          RunThreadsOnIndividual hw fuel sched n showpacifier s = .ok (s1, ev) →
            s1.numthreads = (hw : Int) - 4294967296 ∧ s1.numthreads < 1)
      ∧ (∀ n showpacifier, 0 ≤ n → n ≤ INT_MAX → s.crit = false → s.enter = false →
          ∃ fuel sched s1 ev,
            RunThreadsOnIndividual hw fuel sched n showpacifier s = .ok (s1, ev)
              ∧ s1.numthreads < 1) := by
  obtain ⟨x, e1, -, -, e4⟩ := ThreadSetDefault_shape hw s
  have hx : x = (hw : Int) - 4294967296 := by
    rw [e4 hu]
    have hm : hw % 4294967296 = hw := Nat.mod_eq_of_lt h2
    have hmax : max hw 1 = hw := by omega
    rw [hm, hmax]
    unfold wrap32
    omega
  have hv : (ThreadSetDefault hw s).1.numthreads = (hw : Int) - 4294967296 := by
    rw [e1]
    exact hx
  have hres : resolvedThreads hw s = (hw : Int) - 4294967296 := by
    unfold resolvedThreads
    rw [if_pos hu]
    exact hv
  have hrun : ∀ fuel sched n showpacifier s1 ev,
      RunThreadsOnIndividual hw fuel sched n showpacifier s = .ok (s1, ev) →
        s1.numthreads = (hw : Int) - 4294967296 ∧ s1.numthreads < 1 := by
    intro fuel sched n showpacifier s1 ev h
    have := RunThreadsOnIndividual_numthreads _ _ _ _ _ _ _ _ h
    rw [hres] at this
    exact ⟨this, by omega⟩
  refine ⟨by omega, hv, by omega, hrun, ?_⟩
  intro n showpacifier h0 hn hcr he
  have hM : resolvedThreads hw s ≤ MAX_THREADS := by
    rw [hres]
    have : ((MAX_THREADS : Nat) : Int) = 64 := rfl
    omega
  obtain ⟨fuel, sched, s1, ev, h⟩ :=
    (RunThreadsOnIndividual_returns hw n showpacifier s h0 hn hM hcr he).2
  exact ⟨fuel, sched, s1, ev, h, (hrun _ _ _ _ _ _ h).2⟩

theorem ThreadSetDefault_narrowing_witness :
    State.initial.numthreads = -1 ∧ 2147483648 ≤ 2147483648 ∧ 2147483648 < 4294967296
      ∧ (ThreadSetDefault 2147483648 State.initial).1.numthreads
          = ((2147483648 : Nat) : Int) - 4294967296
      ∧ (ThreadSetDefault 2147483648 State.initial).1.numthreads < 1 :=
  ⟨rfl, by decide, by decide,
    (ThreadSetDefault_narrowing 2147483648 State.initial rfl (by decide) (by decide)).2.1,
    (ThreadSetDefault_narrowing 2147483648 State.initial rfl (by decide) (by decide)).2.2.1⟩

/-- C12: when `numthreads` is set (not -1), `ThreadSetDefault` leaves the state as it
was, whatever the hardware concurrency; calling it twice gives the state that
calling it once gives; and a call of `RunThreadsOnIndividual` made with `numthreads`
set returns with the same `numthreads` (and, for `0 ≤ n`, between 1 and
`MAX_THREADS` threads and the lock free, it can return). -/
theorem ThreadSetDefault_idempotent (hw hw2 : Nat) (s s0 : State) (hs : s.numthreads ≠ -1) :
    (ThreadSetDefault hw s).1 = s
      ∧ (ThreadSetDefault hw (ThreadSetDefault hw s0).1).1 = (ThreadSetDefault hw s0).1
      ∧ ((ThreadSetDefault hw s0).1.numthreads ≠ -1 →
          (ThreadSetDefault hw2 (ThreadSetDefault hw s0).1).1 = (ThreadSetDefault hw s0).1)
      ∧ (∀ fuel sched n showpacifier s1 ev,
          RunThreadsOnIndividual hw fuel sched n showpacifier s = .ok (s1, ev) →
          s1.numthreads = s.numthreads)
      ∧ (∀ n showpacifier, 0 ≤ n → n ≤ INT_MAX → 1 ≤ s.numthreads →
          s.numthreads ≤ MAX_THREADS → s.crit = false → s.enter = false →
          ∃ fuel sched s1 ev,
            RunThreadsOnIndividual hw fuel sched n showpacifier s = .ok (s1, ev)
              ∧ s1.numthreads = s.numthreads) := by
  have hset : ∀ (h : Nat) (t : State), t.numthreads ≠ -1 → (ThreadSetDefault h t).1 = t := by
    intro h t ht
    obtain ⟨x, h1, -, h3, -⟩ := ThreadSetDefault_shape h t
    rw [h1, h3 ht]
  have hres : resolvedThreads hw s = s.numthreads := by
    unfold resolvedThreads
    rw [if_neg hs]
  refine ⟨hset hw s hs, ?_, hset hw2 _, ?_, ?_⟩
  · by_cases hx : (ThreadSetDefault hw s0).1.numthreads = -1
    · obtain ⟨x, h1, -, h3, h4⟩ := ThreadSetDefault_shape hw s0
      have hu0 : s0.numthreads = -1 := by
        by_contra hne
        rw [hset hw s0 hne] at hx
        exact hne hx
      obtain ⟨y, g1, -, -, g4⟩ := ThreadSetDefault_shape hw (ThreadSetDefault hw s0).1
      rw [g1, g4 hx, ← h4 hu0, h1]
    · exact hset hw _ hx
  · intro fuel sched n showpacifier s1 ev h
    rw [RunThreadsOnIndividual_numthreads _ _ _ _ _ _ _ _ h, hres]
  · intro n showpacifier h0 h1 hT hM hcr he
    obtain ⟨fuel, sched, s1, ev, h⟩ :=
      (RunThreadsOnIndividual_outcome hw n showpacifier s h0 h1 (by rw [hres]; exact hT)
        (by rw [hres]; exact hM) hcr he).2
    exact ⟨fuel, sched, s1, ev, h, by rw [RunThreadsOnIndividual_numthreads _ _ _ _ _ _ _ _ h, hres]⟩

theorem ThreadSetDefault_idempotent_witness :
    ({ State.initial with numthreads := 4 } : State).numthreads ≠ -1
      ∧ (ThreadSetDefault 16 { State.initial with numthreads := 4 }).1
          = { State.initial with numthreads := 4 }
      ∧ (ThreadSetDefault 16 (ThreadSetDefault 16 State.initial).1).1
          = (ThreadSetDefault 16 State.initial).1 :=
  ⟨by decide,
    (ThreadSetDefault_idempotent 16 8 { State.initial with numthreads := 4 } State.initial
      (by decide)).1,
    (ThreadSetDefault_idempotent 16 8 { State.initial with numthreads := 4 } State.initial
      (by decide)).2.1⟩

/-- C13: for `0 ≤ n`, `RunThreadsOnIndividual` starts the run from `dispatch = 0`,
`workcount = n`, `oldf = -1`, `pacifier = showpacifier`, and its whole outcome
(state and events, under every budget and schedule) is the same whatever values
`dispatch`, `workcount`, `oldf` and `pacifier` had before; with between 1 and
`MAX_THREADS` threads and the lock free it raises no fault, can return, and
whenever it returns `dispatch == workcount == n` and a further `GetThreadWork`
returns -1 and changes nothing. -/
theorem RunThreadsOnIndividual_reset (hw : Nat) (n : Int) (showpacifier : Bool) (s : State)
    (d w o : Int) (p : Bool) (h0 : 0 ≤ n) (h1 : n ≤ INT_MAX) (hT : 1 ≤ resolvedThreads hw s)
    (hM : resolvedThreads hw s ≤ MAX_THREADS) (hcr : s.crit = false) (he : s.enter = false) :
    (resetRun n showpacifier s).dispatch = 0 ∧ (resetRun n showpacifier s).workcount = n
      ∧ (resetRun n showpacifier s).oldf = -1 ∧ (resetRun n showpacifier s).pacifier = showpacifier
      ∧ (∀ fuel sched,
          RunThreadsOnIndividual hw fuel sched n showpacifier
              { s with dispatch := d, workcount := w, oldf := o, pacifier := p }
            = RunThreadsOnIndividual hw fuel sched n showpacifier s)
      ∧ (∀ fuel sched,
          RunThreadsOnIndividual hw fuel sched n showpacifier s = .error .fuelExhausted
          ∨ ∃ s1 ev, RunThreadsOnIndividual hw fuel sched n showpacifier s = .ok (s1, ev)
              ∧ s1.dispatch = n ∧ s1.workcount = n
              ∧ ∃ ev2, GetThreadWork s1 = .ok (-1, s1, ev2))
      ∧ ∃ fuel sched s1 ev,
          RunThreadsOnIndividual hw fuel sched n showpacifier s = .ok (s1, ev) := by
  obtain ⟨hall, hex⟩ := RunThreadsOnIndividual_outcome hw n showpacifier s h0 h1 hT hM hcr he
  refine ⟨rfl, rfl, rfl, rfl, ?_, ?_, hex⟩
  · intro fuel sched
    exact RunThreadsOnIndividual_independent hw fuel sched n showpacifier s d w o p
  · intro fuel sched
    rcases hall fuel sched with h | ⟨s1, ev, h, a1, a2, a3, a4, -, -, -⟩
    · exact Or.inl h
    · refine Or.inr ⟨s1, ev, h, a1, a2, _, GetThreadWork_exhausted s1 (fun _ => ⟨a3, a4⟩) ?_⟩
      rw [a1, a2]

theorem RunThreadsOnIndividual_reset_witness :
    (0 : Int) ≤ 10 ∧ (10 : Int) ≤ INT_MAX
      ∧ 1 ≤ resolvedThreads 8 { State.initial with numthreads := 4 }
      ∧ resolvedThreads 8 { State.initial with numthreads := 4 } ≤ MAX_THREADS
      ∧ ({ State.initial with numthreads := 4 } : State).crit = false
      ∧ ({ State.initial with numthreads := 4 } : State).enter = false
      ∧ (∀ fuel sched,
          RunThreadsOnIndividual 8 fuel sched 10 true { State.initial with numthreads := 4 }
            = .error .fuelExhausted
          ∨ ∃ s1 ev,
              RunThreadsOnIndividual 8 fuel sched 10 true { State.initial with numthreads := 4 }
                = .ok (s1, ev)
              ∧ s1.dispatch = 10 ∧ s1.workcount = 10
              ∧ ∃ ev2, GetThreadWork s1 = .ok (-1, s1, ev2))
      ∧ ∃ fuel sched s1 ev,
          RunThreadsOnIndividual 8 fuel sched 10 true { State.initial with numthreads := 4 }
            = .ok (s1, ev) :=
  ⟨by decide, by decide, by decide, by decide, rfl, rfl,
    (RunThreadsOnIndividual_reset 8 10 true { State.initial with numthreads := 4 } 7 3 25 false
      (by decide) (by decide) (by decide) (by decide) rfl rfl).2.2.2.2.2⟩

/-- C14 at 53687093 units: after 53687092 calls of `GetThreadWork` in the run,
`oldf` is 39; in the next call `40 * dispatch` exceeds the `int` range, `f` is -39,
the branch `f < oldf` is taken (the warning is printed) and `oldf` becomes -39,
below -1. -/
theorem progress_goes_backwards :
    ∃ rs s1 ev s2 ev2,
      pulls 53687092 (resetRun 53687093 true State.initial) = .ok (rs, s1, ev)
        ∧ s1.dispatch = 53687092 ∧ s1.workcount = 53687093 ∧ s1.oldf = 39
        ∧ INT_MAX < 40 * s1.dispatch
        ∧ stepOf s1.dispatch s1.workcount = -39
        ∧ GetThreadWork s1 = .ok (53687092, s2, ev2)
        ∧ ev2 = [.lockCall, .warnBackwards, .unlockCall]
        ∧ s2.oldf = -39 ∧ s2.oldf < -1 := by
  obtain ⟨rs, s1, ev, hp, hs1⟩ := pulls_before_overflow
  subst hs1
  exact ⟨rs, _, ev,
    { numthreads := -1, threaded := false, dispatch := 53687093, workcount := 53687093,
      oldf := -39, pacifier := true, crit := false, enter := false },
    [.lockCall, .warnBackwards, .unlockCall],
    hp, rfl, rfl, rfl, by decide, by decide, rfl, rfl, rfl, by decide⟩

/-- C15, as stated, fails: started by `RunThreadsOnIndividual( -1, ... )` with
`enter == false`, the first 268435456 calls of `GetThreadWork` return and the next
one stops in the division `INT_MIN / -1` of line 50, after `ThreadLock` and
without `ThreadUnlock`; in multi-threaded mode the same state leaves `enter` true
and the mutex locked; and with `dispatch == 1`, `workcount == 0` the call stops in
a division by zero. -/
theorem GetThreadWork_stops_in_division :
    (∃ rs s1 ev, pulls 268435456 (resetRun (-1) false State.initial) = .ok (rs, s1, ev)
        ∧ s1.enter = false ∧ GetThreadWork s1 = .error .divisionOverflow)
      ∧ ({ State.initial with threaded := true, dispatch := 268435456, workcount := -1 }
          : State).enter = false
      ∧ (∃ s1, ThreadLock
            { State.initial with threaded := true, dispatch := 268435456, workcount := -1 }
              = .ok (s1, [.lockCall, .critLock])
          ∧ s1.enter = true ∧ s1.crit = true
          ∧ GetThreadWorkLocked s1 = .error .divisionOverflow)
      ∧ GetThreadWork
          { State.initial with threaded := true, dispatch := 268435456, workcount := -1 }
            = .error .divisionOverflow
      ∧ ({ State.initial with dispatch := 1, workcount := 0 } : State).enter = false
      ∧ GetThreadWork { State.initial with dispatch := 1, workcount := 0 }
          = .error .divisionByZero := by
  refine ⟨?_, rfl, ⟨_, rfl, rfl, rfl, rfl⟩, rfl, rfl, rfl⟩
  obtain ⟨rs, s1, ev, hp, a1, a2, a3, a4, a5⟩ :=
    pulls_negative 268435456 (resetRun (-1) false State.initial) (by decide) rfl (by decide)
      (by decide)
  refine ⟨rs, s1, ev, hp, a5, ?_⟩
  have hl : LockFree s1 := by
    intro ht
    rw [a3] at ht
    cases ht
  apply GetThreadWork_division_fault s1 hl
  · rw [a1, a2]
    decide
  · rw [a1, a2]
    rfl

/-- C15, amended: from `enter == false` with the mutex unlocked, in multi-threaded
mode or not, on the exhausted path and on the normal path whenever the division of
line 50 is defined there (as it is for `0 ≤ dispatch ≤ workcount`), a call of
`GetThreadWork` returns: it raises neither "Recursive ThreadLock" nor
"ThreadUnlock without lock", enters `ThreadLock` exactly once and then
`ThreadUnlock` exactly once, locks and unlocks `crit` once each exactly when
`threaded` is true, and returns with `enter == false` and the mutex unlocked.  And
no run of `RunThreadsOnIndividual` with `0 ≤ n` and at most `MAX_THREADS` threads
started from such a state raises a fatal error, under any schedule. -/
theorem GetThreadWork_lock_discipline (s : State) (he : s.enter = false)
    (hcr : s.crit = false)
    (hdiv : s.dispatch ≠ s.workcount → divisionFault s.dispatch s.workcount = none) :
    (∃ r s1 ev, GetThreadWork s = .ok (r, s1, ev)
        ∧ ev.filter Event.isLockCall = [.lockCall, .unlockCall]
        ∧ ev.filter Event.isCritOp = (if s.threaded then [.critLock, .critUnlock] else [])
        ∧ s1.enter = false ∧ s1.crit = false)
      ∧ (0 ≤ s.dispatch → s.dispatch < s.workcount →
          divisionFault s.dispatch s.workcount = none)
      ∧ (∀ hw n showpacifier fuel sched msg, 0 ≤ n → n ≤ INT_MAX →
          resolvedThreads hw s ≤ MAX_THREADS →
          RunThreadsOnIndividual hw fuel sched n showpacifier s ≠ .error (.fatal msg)) := by
  have hl : LockFree s := fun _ => ⟨hcr, he⟩
  refine ⟨?_, fun h0 h1 => divisionFault_pos _ _ (by omega), ?_⟩
  · by_cases h : s.dispatch = s.workcount
    · refine ⟨_, _, _, GetThreadWork_exhausted s hl h, ?_, ?_, he, hcr⟩
      · cases hth : s.threaded <;> simp [List.filter, Event.isLockCall]
      · cases hth : s.threaded <;> simp [List.filter, Event.isCritOp]
    · have hq1 : (progressReport (stepOf s.dispatch s.workcount) s.pacifier s.oldf).2.filter
          Event.isLockCall = [] := by
        rw [List.filter_eq_nil_iff]
        intro e hmem
        have := progressReport_events _ _ _ e hmem
        cases e <;> simp_all [Event.isProgress, Event.isLockCall]
      have hq2 : (progressReport (stepOf s.dispatch s.workcount) s.pacifier s.oldf).2.filter
          Event.isCritOp = [] := by
        rw [List.filter_eq_nil_iff]
        intro e hmem
        have := progressReport_events _ _ _ e hmem
        cases e <;> simp_all [Event.isProgress, Event.isCritOp]
      refine ⟨_, _, _, GetThreadWork_normal s hl h (hdiv h), ?_, ?_, he, hcr⟩
      · rw [List.filter_append, List.filter_append, hq1]
        cases hth : s.threaded <;> simp [List.filter, Event.isLockCall]
      · rw [List.filter_append, List.filter_append, hq2]
        cases hth : s.threaded <;> simp [List.filter, Event.isCritOp]
  · intro hw n showpacifier fuel sched msg h0 h1 hM
    rcases (RunThreadsOnIndividual_returns hw n showpacifier s h0 h1 hM hcr he).1 fuel sched with
      h | ⟨s1, ev, h, -⟩
    · rw [h]
      intro hx
      cases hx
    · rw [h]
      intro hx
      cases hx

theorem GetThreadWork_lock_discipline_witness :
    ({ resetRun 3 true State.initial with threaded := true } : State).enter = false
      ∧ ({ resetRun 3 true State.initial with threaded := true } : State).crit = false
      ∧ ∃ r s1 ev, GetThreadWork { resetRun 3 true State.initial with threaded := true }
            = .ok (r, s1, ev)
          ∧ ev.filter Event.isLockCall = [.lockCall, .unlockCall]
          ∧ ev.filter Event.isCritOp
              = (if ({ resetRun 3 true State.initial with threaded := true } : State).threaded
                  then [.critLock, .critUnlock] else [])
          ∧ s1.enter = false ∧ s1.crit = false :=
  ⟨rfl, rfl,
    (GetThreadWork_lock_discipline { resetRun 3 true State.initial with threaded := true } rfl
      rfl (by decide)).1⟩

/-- C16, as stated, fails in a multi-threaded run: with two workers and two units,
after the 14 steps below worker 0 stands before `workfunction( 0 )`, having entered
`ThreadWorkerFunction` when `enter` was false, while worker 1 is inside
`GetThreadWork` and `enter` is true; continued to the end, the run has called
`workfunction( 0 )` with `enter` true. -/
theorem callback_while_other_worker_holds_lock :
    (∃ p, runPool ([.main, .main] ++ List.replicate 9 (.worker 0) ++ List.replicate 3 (.worker 1))
          (Pool.start (resetRun 2 false { State.initial with numthreads := 2 })) = .ok p
        ∧ p.pcs = [.gotWork 0, .inCrit] ∧ p.g.enter = true)
      ∧ ∃ s1 ev,
          RunThreadsOnIndividual 2 0
              ([.main, .main] ++ List.replicate 9 (.worker 0) ++ List.replicate 3 (.worker 1)
                ++ [.worker 0] ++ List.replicate 12 (.worker 1) ++ List.replicate 5 (.worker 0)
                ++ List.replicate 4 .main)
              2 false { State.initial with numthreads := 2 } = .ok (s1, ev)
            ∧ Event.work (.worker 0) 0 0 true ∈ ev
            ∧ heldAtWork ev = [true, false] := by
  refine ⟨⟨_, rfl, rfl, rfl⟩, _, _, rfl, ?_, ?_⟩ <;> decide

/-- C16, amended: in every pool run of at most `MAX_THREADS` threads started by
`RunThreadsOn` after the reset with the lock free, every handle written so far is
inside the array and a worker that stands before `workfunction( r )` is outside
the critical section: the flag `enter` is true only while the mutex is locked, and
then the one worker between `crit.lock()` and `crit.unlock()` is another worker;
the worker came to that point only by its own `crit.unlock()`.  In an execution of
`ThreadWorkerFunction` on its own (the inline run of `numthreads == 1`) that starts
with `enter == false` the flag is false at each call of the callback and at the
return, and with the counter in range the execution returns after one such call
per unit. -/
theorem callback_outside_lock (n : Int) (showpacifier : Bool) (s : State) (sched : List Tid)
    (p : Pool) (i : Nat) (r : Int) (h0 : 0 ≤ n) (h1 : n ≤ INT_MAX)
    (hM : s.numthreads ≤ MAX_THREADS) (hcr : s.crit = false) (he : s.enter = false)
    (hrun : runPool sched (Pool.start (resetRun n showpacifier s)) = .ok p)
    (hi : p.pcs[i]? = some (.gotWork r)) :
    workerStep i p = .ok { p with pcs := p.pcs.set i .atLock,
                                  trace := p.trace ++ [Event.work (.worker i) i r p.g.enter] }
      ∧ (∀ k ∈ handleWrites p.trace, k < MAX_THREADS)
      ∧ (Pc.gotWork r).inSection = false
      ∧ (p.g.enter = true → p.g.crit = true)
      ∧ (p.g.crit = true →
          ∃ (j : Nat) (pc : Pc), j ≠ i ∧ p.pcs[j]? = some pc ∧ pc.inSection = true
            ∧ ∀ (k : Nat) (pc1 : Pc), p.pcs[k]? = some pc1 → k ≠ j → pc1.inSection = false)
      ∧ (∀ q q1, workerStep i q = .ok q1 → q1.pcs[i]? = some (.gotWork r) →
          q.pcs[i]? = some (.gotWork r)
            ∨ (q.pcs[i]? = some (.releasing r) ∧ q.g.crit = true ∧ q1.g.crit = false
                ∧ q1.trace = q.trace ++ [.critUnlock])
            ∨ (q.pcs[i]? = some (.unlocking r) ∧ q.g.threaded = false))
      ∧ (∀ tid threadnum fuel s1 ev, ThreadWorkerFunction tid threadnum fuel s = .ok (s1, ev) →
          s1.enter = false ∧ ∀ b ∈ heldAtWork ev, b = false)
      ∧ (0 ≤ s.dispatch → s.dispatch ≤ s.workcount → s.workcount ≤ INT_MAX →
          ∀ tid threadnum fuel, (s.workcount - s.dispatch).toNat < fuel →
            ∃ s1 ev, ThreadWorkerFunction tid threadnum fuel s = .ok (s1, ev)
              ∧ heldAtWork ev = List.replicate (s.workcount - s.dispatch).toNat false) := by
  have hinv := PoolInv_start n showpacifier s h0 h1 hcr he
  obtain ⟨p1, hrun1, hp⟩ := runPool_inv n s.numthreads sched _ hinv
  rw [hrun] at hrun1
  injection hrun1 with hrun1
  subst hrun1
  obtain ⟨c1, c2⟩ := callback_holder n s.numthreads p i r hp hi
  refine ⟨by simp [workerStep, hi], PoolInv_handles n s.numthreads p hp hM, rfl, c1, c2,
    ?_, ?_, ?_⟩
  · intro q q1 hq hgot
    exact arrives_by_unlock i r q q1 hq hgot
  · intro tid threadnum
    exact (inline_calls_unlocked tid threadnum s hcr he).1
  · intro a0 a1 a2 tid threadnum
    exact (inline_calls_unlocked tid threadnum s hcr he).2 a0 a1 a2

theorem callback_outside_lock_witness :
    (0 : Int) ≤ 2 ∧ (2 : Int) ≤ INT_MAX
      ∧ ({ State.initial with numthreads := 2 } : State).numthreads ≤ MAX_THREADS
      ∧ ({ State.initial with numthreads := 2 } : State).crit = false
      ∧ ({ State.initial with numthreads := 2 } : State).enter = false
      ∧ ∃ p, runPool
            ([.main, .main] ++ List.replicate 9 (.worker 0) ++ List.replicate 3 (.worker 1))
            (Pool.start (resetRun 2 false { State.initial with numthreads := 2 })) = .ok p
          ∧ p.pcs[0]? = some (.gotWork 0)
          ∧ p.g.enter = true
          ∧ ∃ (j : Nat) (pc : Pc), j ≠ 0 ∧ p.pcs[j]? = some pc ∧ pc.inSection = true
            ∧ ∀ (k : Nat) (pc1 : Pc), p.pcs[k]? = some pc1 → k ≠ j → pc1.inSection = false :=
  ⟨by decide, by decide, by decide, rfl, rfl,
    { g := { numthreads := 2, threaded := true, dispatch := 1, workcount := 2, oldf := 0,
               pacifier := false, crit := true, enter := true },
      main := .spawn 2, pcs := [.gotWork 0, .inCrit],
      trace := [.setThreaded true, .threadStart 0, .threadStart 1,
        .workerStart (.worker 0) 0, .lockCall, .critLock, .unlockCall, .critUnlock,
        .workerStart (.worker 1) 1, .lockCall, .critLock] },
    rfl, rfl, rfl,
    (callback_outside_lock 2 false { State.initial with numthreads := 2 }
      ([Tid.main, Tid.main] ++ List.replicate 9 (Tid.worker 0)
        ++ List.replicate 3 (Tid.worker 1))
      { g := { numthreads := 2, threaded := true, dispatch := 1, workcount := 2, oldf := 0,
                 pacifier := false, crit := true, enter := true },
        main := .spawn 2, pcs := [.gotWork 0, .inCrit],
        trace := [.setThreaded true, .threadStart 0, .threadStart 1,
          .workerStart (.worker 0) 0, .lockCall, .critLock, .unlockCall, .critUnlock,
          .workerStart (.worker 1) 1, .lockCall, .critLock] }
      0 0 (by decide) (by decide) (by decide) rfl rfl rfl rfl).2.2.2.2.1 rfl⟩

/-- C17: with `threaded == false`, `ThreadLock` and `ThreadUnlock` return the state
they were given, whatever `enter` is, and raise no fatal error; so `ThreadUnlock`
with no `ThreadLock` before it and two calls of `ThreadLock` in a row both succeed
and leave the state as it was. -/
theorem lock_assertions_unthreaded (s : State) (ht : s.threaded = false) :
    ThreadLock s = .ok (s, [.lockCall])
      ∧ ThreadUnlock s = .ok (s, [.unlockCall])
      ∧ (∀ s1 ev, ThreadLock s = .ok (s1, ev) → ThreadLock s1 = .ok (s, [.lockCall])) := by
  have h1 : ThreadLock s = .ok (s, [.lockCall]) := by simp [ThreadLock, ht]
  have h2 : ThreadUnlock s = .ok (s, [.unlockCall]) := by simp [ThreadUnlock, ht]
  refine ⟨h1, h2, ?_⟩
  intro s1 ev h
  rw [h1] at h
  injection h with h
  injection h with hs _
  subst hs
  exact h1

theorem lock_assertions_unthreaded_witness :
    ({ State.initial with enter := true } : State).threaded = false
      ∧ ThreadLock { State.initial with enter := true }
          = .ok ({ State.initial with enter := true }, [.lockCall])
      ∧ ThreadUnlock { State.initial with enter := true }
          = .ok ({ State.initial with enter := true }, [.unlockCall])
      ∧ (∀ s1 ev, ThreadLock { State.initial with enter := true } = .ok (s1, ev) →
          ThreadLock s1 = .ok ({ State.initial with enter := true }, [.lockCall])) :=
  ⟨rfl, lock_assertions_unthreaded { State.initial with enter := true } rfl⟩

/-- C18: for `1 ≤ n ≤ 53687092` (the range without overflow) and the pacifier
enabled, the complete run (`n + 1` calls of `GetThreadWork`, the last one returning
-1) ends with `oldf` equal to the floor of `40 * (n - 1) / n`, at most 39, so step
40 is not reached; the number of step-emissions of the run is that floor plus 1,
and it is 40 exactly when `n ≥ 40`. -/
theorem complete_run_emissions (s : State) (n : Int) (hl : LockFree s) (hn1 : 1 ≤ n)
    (hn2 : n ≤ 53687092) :
    ∃ s1 ev, pulls (n.toNat + 1) (resetRun n true s) = .ok (unitIndices n.toNat ++ [-1], s1, ev)
      ∧ s1.oldf = 40 * (n - 1) / n ∧ s1.oldf ≤ 39
      ∧ ((ev.filter Event.isEmission).length : Int) = 40 * (n - 1) / n + 1
      ∧ ((ev.filter Event.isEmission).length = 40 ↔ 40 ≤ n) := by
  have hc := Counting_resetRun s n true hl (by omega) (by simp only [INT_MAX]; omega)
  obtain ⟨s1, ev, hp, -⟩ := pulls_counting (n.toNat + 1) _ hc
  have hpr := pulls_progress (n.toNat + 1) _ hc _ s1 ev hp
  have ho := pulls_oldf n.toNat _ hc (by simpa [resetRun] using hn1) _ s1 ev hp
  obtain ⟨-, hst, hs0, hs39⟩ := stepOf_in_range n (n - 1) hn1 hn2 (by omega) (by omega)
  have hidx : min ((resetRun n true s).dispatch + ((n.toNat + 1 : Nat) : Int))
      (resetRun n true s).workcount - 1 = n - 1 := by
    simp only [resetRun]
    push_cast
    omega
  have hold : s1.oldf = 40 * (n - 1) / n := by
    rw [ho, hidx]
    simpa [resetRun] using hst
  have hcount : ((ev.filter Event.isEmission).length : Int) = 40 * (n - 1) / n + 1 := by
    rw [← filter_dropLock Event.isEmission lock_not_emission ev, hpr]
    have h0 := (stepOf_in_range n 0 hn1 hn2 (le_refl _) (by omega)).2.2.1
    have := progressRun_emissions n.toNat 0 n (-1) hn1 hn2 (le_refl _) (by omega) (by omega)
    simp only [resetRun]
    rw [this]
    have hidx2 : min ((0 : Int) + ((n.toNat + 1 : Nat) : Int)) n - 1 = n - 1 := by
      push_cast
      omega
    rw [hidx2, hst]
    have hq0 : 0 ≤ 40 * (n - 1) / n := by rw [← hst]; exact hs0
    omega
  refine ⟨s1, ev, ?_, hold, ?_, hcount, ?_⟩
  · rw [hp]
    congr 2
    rw [List.range_succ, List.map_append]
    congr 1
    · unfold unitIndices
      apply List.map_congr_left
      intro k hk
      have hk2 : k < n.toNat := List.mem_range.mp hk
      have : (resetRun n true s).dispatch + (k : Int) < (resetRun n true s).workcount := by
        simp only [resetRun]
        omega
      rw [if_pos this]
      simp only [resetRun, zero_add]
      rfl
    · have : ¬ (resetRun n true s).dispatch + (n.toNat : Int) < (resetRun n true s).workcount := by
        simp only [resetRun]
        omega
      rw [List.map_cons, List.map_nil, if_neg this]
  · rw [hold, ← hst]
    exact hs39
  · have hq39 : 40 * (n - 1) / n ≤ 39 := by rw [← hst]; exact hs39
    have hiff : 39 ≤ 40 * (n - 1) / n ↔ 39 * n ≤ 40 * (n - 1) :=
      Int.le_ediv_iff_mul_le (by omega)
    constructor
    · intro h40
      rw [h40] at hcount
      have : 39 ≤ 40 * (n - 1) / n := by
        push_cast at hcount
        omega
      have := hiff.mp this
      omega
    · intro hge
      have : 39 ≤ 40 * (n - 1) / n := hiff.mpr (by omega)
      have h2 : ((ev.filter Event.isEmission).length : Int) = 40 := by omega
      exact_mod_cast h2

theorem complete_run_emissions_witness :
    LockFree State.initial ∧ (1 : Int) ≤ 3 ∧ (3 : Int) ≤ 53687092
      ∧ (40 * ((3 : Int) - 1) / 3 + 1 = 27)
      ∧ ∃ s1 ev, pulls ((3 : Int).toNat + 1) (resetRun 3 true State.initial)
            = .ok (unitIndices (3 : Int).toNat ++ [-1], s1, ev)
          ∧ s1.oldf = 40 * ((3 : Int) - 1) / 3 ∧ s1.oldf ≤ 39
          ∧ ((ev.filter Event.isEmission).length : Int) = 40 * ((3 : Int) - 1) / 3 + 1
          ∧ ((ev.filter Event.isEmission).length = 40 ↔ (40 : Int) ≤ 3) :=
  ⟨by decide, by decide, by decide, by decide,
    complete_run_emissions State.initial 3 (by decide) (by decide) (by decide)⟩

/-- C19: with `40 * dispatch` reduced to 32 bits, for `1 ≤ workcount ≤ 53687092` and
`0 ≤ dispatch < workcount` the product does not overflow, the computed `f` is the
floor of `40 * dispatch / workcount` and lies in `[0, 39]`; and for every larger
`workcount` of the `int` range some `dispatch` below it makes the product
overflow, so 53687092 is the largest such `workcount`. -/
theorem stepOf_no_overflow_range :
    (∀ workcount dispatch : Int, 1 ≤ workcount → workcount ≤ 53687092 → 0 ≤ dispatch →
        dispatch < workcount →
        wrap32 (40 * dispatch) = 40 * dispatch ∧ 40 * dispatch ≤ INT_MAX
          ∧ stepOf dispatch workcount = 40 * dispatch / workcount
          ∧ 0 ≤ stepOf dispatch workcount ∧ stepOf dispatch workcount ≤ 39)
      ∧ (∀ workcount : Int, 53687092 < workcount → workcount ≤ INT_MAX →
          ∃ dispatch : Int, 0 ≤ dispatch ∧ dispatch < workcount
            ∧ INT_MAX < 40 * dispatch ∧ wrap32 (40 * dispatch) ≠ 40 * dispatch) := by
  constructor
  · intro w d hw1 hw2 hd0 hd1
    obtain ⟨a1, a2, a3, a4⟩ := stepOf_in_range w d hw1 hw2 hd0 hd1
    refine ⟨a1, ?_, a2, a3, a4⟩
    simp only [INT_MAX]
    omega
  · intro w hw1 hw2
    refine ⟨w - 1, by omega, by omega, by simp only [INT_MAX]; omega, ?_⟩
    have h := (wrap32_range (40 * (w - 1))).2
    simp only [INT_MAX] at h hw2
    omega

theorem stepOf_no_overflow_range_witness :
    (wrap32 (40 * 99) = 40 * 99 ∧ (40 : Int) * 99 ≤ INT_MAX
        ∧ stepOf 99 100 = 40 * 99 / 100 ∧ 0 ≤ stepOf 99 100 ∧ stepOf 99 100 ≤ 39)
      ∧ ∃ dispatch : Int, 0 ≤ dispatch ∧ dispatch < 53687093
          ∧ INT_MAX < 40 * dispatch ∧ wrap32 (40 * dispatch) ≠ 40 * dispatch :=
  ⟨stepOf_no_overflow_range.1 100 99 (by decide) (by decide) (by decide) (by decide),
    stepOf_no_overflow_range.2 53687093 (by decide) (by decide)⟩

/-- C20: with `0 ≤ n` and the lock free on entry, in every state reached from the
reset of `RunThreadsOnIndividual` by calls of `GetThreadWork` the guard holds
(`workcount == 0` only together with `dispatch == workcount`, and where the
division of line 50 is reached it is defined) and the next call returns; a whole
run with at most `MAX_THREADS` threads, whatever the budget and schedule, returns
or is still running and so never divides by zero.  For `n = 0` the first pull
returns -1 at once and changes nothing, a run can return, and every run that
returns has made no call of the callback and no step-emission, also with the
pacifier enabled. -/
theorem division_guard (hw : Nat) (n : Int) (showpacifier : Bool) (s : State)
    (h0 : 0 ≤ n) (h1 : n ≤ INT_MAX) (hM : resolvedThreads hw s ≤ MAX_THREADS)
    (hcr : s.crit = false) (he : s.enter = false) :
    (∀ m, ∃ rs s1 ev, pulls m (resetRun n showpacifier s) = .ok (rs, s1, ev)
        ∧ (s1.workcount = 0 → s1.dispatch = s1.workcount)
        ∧ (s1.dispatch ≠ s1.workcount → divisionFault s1.dispatch s1.workcount = none)
        ∧ GetThreadWork s1 ≠ .error .divisionByZero
        ∧ ∃ r s2 ev2, GetThreadWork s1 = .ok (r, s2, ev2))
      ∧ (∀ fuel sched,
          RunThreadsOnIndividual hw fuel sched n showpacifier s ≠ .error .divisionByZero
          ∧ (RunThreadsOnIndividual hw fuel sched n showpacifier s = .error .fuelExhausted
            ∨ ∃ s1 ev, RunThreadsOnIndividual hw fuel sched n showpacifier s = .ok (s1, ev)))
      ∧ (∃ ev, GetThreadWork (resetRun 0 showpacifier s)
            = .ok (-1, resetRun 0 showpacifier s, ev)
          ∧ workCalls ev = [] ∧ ev.filter Event.isEmission = [])
      ∧ (∀ fuel sched s1 ev,
          RunThreadsOnIndividual hw fuel sched 0 showpacifier s = .ok (s1, ev) →
            workCalls ev = [] ∧ ev.filter Event.isEmission = [])
      ∧ ∃ fuel sched s1 ev,
          RunThreadsOnIndividual hw fuel sched 0 showpacifier s = .ok (s1, ev) := by
  have hl : LockFree s := fun _ => ⟨hcr, he⟩
  refine ⟨?_, ?_, ?_, ?_, ?_⟩
  · intro m
    obtain ⟨s1, ev, hp, hc, -, -⟩ :=
      pulls_counting m _ (Counting_resetRun s n showpacifier hl h0 h1)
    obtain ⟨s2, ev2, hg, -⟩ := GetThreadWork_counting s1 hc
    have a := hc.2.1
    have b := hc.2.2.1
    refine ⟨_, s1, ev, hp, ?_, ?_, ?_, _, s2, ev2, hg⟩
    · intro hz
      omega
    · intro hne
      exact divisionFault_pos _ _ (by omega)
    · rw [hg]
      intro hx
      cases hx
  · intro fuel sched
    rcases (RunThreadsOnIndividual_returns hw n showpacifier s h0 h1 hM hcr he).1 fuel sched with
      h | ⟨s1, ev, h, -⟩
    · refine ⟨?_, Or.inl h⟩
      rw [h]
      intro hx
      cases hx
    · refine ⟨?_, Or.inr ⟨s1, ev, h⟩⟩
      rw [h]
      intro hx
      cases hx
  · have hg := GetThreadWork_exhausted (resetRun 0 showpacifier s) hl rfl
    obtain ⟨r, s1, hsil⟩ := GetThreadWork_silent _ _ _ _ rfl hg
    exact ⟨_, hg, silent_no_output _ hsil⟩
  · intro fuel sched s1 ev h
    exact silent_no_output _ (RunThreadsOnIndividual_silent hw fuel sched showpacifier s s1 ev h)
  · exact (RunThreadsOnIndividual_returns hw 0 showpacifier s (le_refl _) (by decide) hM hcr
      he).2

theorem division_guard_witness :
    (0 : Int) ≤ 0 ∧ (0 : Int) ≤ INT_MAX
      ∧ resolvedThreads 8 { State.initial with numthreads := 2 } ≤ MAX_THREADS
      ∧ ({ State.initial with numthreads := 2 } : State).crit = false
      ∧ ({ State.initial with numthreads := 2 } : State).enter = false
      ∧ (∀ fuel sched s1 ev,
          RunThreadsOnIndividual 8 fuel sched 0 true { State.initial with numthreads := 2 }
              = .ok (s1, ev) →
            workCalls ev = [] ∧ ev.filter Event.isEmission = [])
      ∧ ∃ fuel sched s1 ev,
          RunThreadsOnIndividual 8 fuel sched 0 true { State.initial with numthreads := 2 }
            = .ok (s1, ev) :=
  ⟨by decide, by decide, by decide, rfl, rfl,
    (division_guard 8 0 true { State.initial with numthreads := 2 } (by decide) (by decide)
      (by decide) rfl rfl).2.2.2⟩

end Threads
